import Mathlib

/-!
Verification of the research-bot orchestration core
(`examples/research_bot/enhanced_manager.py` and the data models it uses).

Strings are modelled as `List Char` (`Str`).  Bounded recursion uses an
explicit fuel argument (always instantiated with a sufficient bound) so that
every definition reduces inside the kernel; adequacy of the fuel is proved in
the theorem part of the file.

Python regular expressions are compiled by hand into deterministic scanners;
`\d` and `\s` are modelled by their ASCII meaning (the repository only ever
feeds ASCII markers to these patterns).
-/

abbrev Str := List Char

/-- `startsWith p s` is true iff `p` is a prefix of `s`. -/
def startsWith : Str → Str → Bool
  | [], _ => true
  | _ :: _, [] => false
  | a :: as, b :: bs => a = b && startsWith as bs

/-- Occurrence test: Python's `pat in s` substring operator (for nonempty `pat`). -/
def containsSub (pat : Str) : Str → Bool
  | [] => startsWith pat []
  | c :: rest => startsWith pat (c :: rest) || containsSub pat rest

/-- Python `str.replace(pat, rep)`: replace every non-overlapping occurrence of
`pat`, scanning left to right.  (The sources never call `replace` with an empty
pattern, and the scan below keeps the string unchanged in that case.) -/
def replaceAllAux : Nat → Str → Str → Str → Str
  | _, _, _, [] => []
  | 0, _, _, s => s
  | fuel + 1, pat, rep, c :: rest =>
    if startsWith pat (c :: rest) && !pat.isEmpty then
      rep ++ replaceAllAux fuel pat rep (List.drop pat.length (c :: rest))
    else
      c :: replaceAllAux fuel pat rep rest

def replaceAll (pat rep s : Str) : Str := replaceAllAux s.length pat rep s

/-- Decimal digits of a natural number, most significant first (Python `str(n)`). -/
def natDigitsAux : Nat → Nat → Str
  | 0, _ => []
  | fuel + 1, n =>
    if n < 10 then [Char.ofNat (48 + n)]
    else natDigitsAux fuel (n / 10) ++ [Char.ofNat (48 + n % 10)]

def natDigits (n : Nat) : Str := natDigitsAux (n + 1) n

/-- Numeric value of a digit string (Python `int(s)` on digit-only input). -/
def digitsToNat (d : Str) : Nat := d.foldl (fun a c => 10 * a + (c.toNat - 48)) 0

def allDigits (d : Str) : Bool := d.all (·.isDigit)

/-- Maximal leading digit run of a string, with the remainder. -/
def sliceDigits : Str → Str × Str
  | [] => ([], [])
  | c :: rest =>
    if c.isDigit then
      let p := sliceDigits (rest)
      (c :: p.1, p.2)
    else ([], c :: rest)

/-- The literal `"[Reference "`. -/
def refWord : Str := "[Reference ".data

/-- The bracket marker `"[Reference " ++ d ++ "]"` (the string the source
passes to `str.replace` as `f'[Reference {old}]'`). -/
def mrk (d : Str) : Str := refWord ++ d ++ [']']

/-- Match the regex `\[Reference (\d+)\]` at the start of `s`; on success
return the digit group and the remainder after the closing bracket. -/
def matchBracketAt (s : Str) : Option (Str × Str) :=
  if startsWith refWord s then
    match sliceDigits (List.drop refWord.length s) with
    | ([], _) => none
    | (_ :: _, []) => none
    | (c :: ds, ']' :: r) => some (c :: ds, r)
    | (_ :: _, _ :: _) => none
  else none

/-- Match the regex `\(\[Reference (\d+)\]` at the start of `s`. -/
def matchScanAt (s : Str) : Option (Str × Str) :=
  match s with
  | '(' :: rest => matchBracketAt rest
  | _ => none

/-- `re.findall(r'\(\[Reference (\d+)\]', s)`: all inline citation markers the
normalizer scans for, in order, duplicates kept. -/
def findRefsAux : Nat → Str → List Str
  | _, [] => []
  | 0, _ :: _ => []
  | fuel + 1, c :: rest =>
    match matchScanAt (c :: rest) with
    | some (d, r) => d :: findRefsAux fuel r
    | none => findRefsAux fuel rest

def findRefs (s : Str) : List Str := findRefsAux s.length s

/-- All bracket markers `[Reference N]` occurring in `s`, in order (the set of
sites the replacement loop of the normalizer can rewrite).  Not itself in the
source; used to state what the normalizer does to a body. -/
def findMarksAux : Nat → Str → List Str
  | _, [] => []
  | 0, _ :: _ => []
  | fuel + 1, c :: rest =>
    match matchBracketAt (c :: rest) with
    | some (d, r) => d :: findMarksAux fuel r
    | none => findMarksAux fuel rest

def findMarks (s : Str) : List Str := findMarksAux s.length s

/-- Python `set(...)` collapsed to a deterministic first-occurrence order
(the source sorts the set numerically right away, so the pre-sort order is
irrelevant except for numerals that are numerically tied). -/
def dedupFirstAux : Nat → List Str → List Str
  | 0, l => l
  | _, [] => []
  | fuel + 1, d :: rest => d :: dedupFirstAux fuel (rest.filter (· ≠ d))

def dedupFirst (l : List Str) : List Str := dedupFirstAux l.length l

/-- `ref_map = {old: i+1 for i, old in enumerate(sorted(set(refs), key=int))}`. -/
def buildRefMap (refs : List Str) : List (Str × Nat) :=
  (List.insertionSort (fun a b => digitsToNat a ≤ digitsToNat b)
    (dedupFirst refs)).enum.map (fun p => (p.2, p.1 + 1))

/-- Ordered-dict lookup. -/
def lookupRef (m : List (Str × Nat)) (d : Str) : Option Nat :=
  match m with
  | [] => none
  | (k, v) :: rest => if k = d then some v else lookupRef rest d

/-- The inline replacement loop:
`for old, new in ref_map.items(): body = body.replace(f'[Reference {old}]', f'[Reference {new}]')`. -/
def applyInline (m : List (Str × Nat)) (body : Str) : Str :=
  m.foldl (fun b p => replaceAll (mrk p.1) (mrk (natDigits p.2)) b) body

/-- ASCII white space accepted by Python's `\s`. -/
def wsChar (c : Char) : Bool :=
  c = ' ' || c = '\t' || c = '\n' || c = '\r' || c = '\x0b' || c = '\x0c'

def refHeading : Str := "## References".data

/-- `$` of `re.search` without MULTILINE: end of string, or just before one
trailing newline. -/
def dollarAt (s : Str) : Bool := s.isEmpty || s = ['\n']

/-- The lookahead `(?=##|$)`. -/
def lookAt (s : Str) : Bool := startsWith ('#' :: '#' :: []) s || dollarAt s

/-- Lazy `([\s\S]+?)` up to the lookahead: shortest nonempty prefix of `s`
after which `lookAt` holds.  Succeeds on every nonempty input because `$`
matches at the very end. -/
def lazyContent : Str → Option Str
  | [] => none
  | c :: rest => if lookAt rest then some [c] else (lazyContent rest).map (c :: ·)

/-- Try `## References\s+([\s\S]+?)(?=##|$)` anchored at the start of `s`.
The greedy `\s+` backtracks one step when it would leave no character for the
lazy group (which only happens when the white space runs to the end of the
string). -/
def refSectionAt (s : Str) : Option Str :=
  if startsWith refHeading s then
    let t := List.drop refHeading.length s
    let w := t.takeWhile wsChar
    let u := t.dropWhile wsChar
    if w.isEmpty then none
    else if u.isEmpty then
      if 2 ≤ w.length then some [w.getLastD ' '] else none
    else lazyContent u
  else none

/-- `re.search(r'## References\s+([\s\S]+?)(?=##|$)', body)`: the captured
section text of the leftmost match. -/
def searchRefSection : Str → Option Str
  | [] => none
  | c :: rest =>
    match refSectionAt (c :: rest) with
    | some sec => some sec
    | none => searchRefSection rest

/-- Lazy `(.*?)\]`: scan to the first `]`; Python's `.` does not cross a
newline, so a newline before any `]` fails the match. -/
def linkScan : Str → Option (Str × Str)
  | [] => none
  | ']' :: rest => some ([], rest)
  | '\n' :: _ => none
  | c :: rest => (linkScan rest).map (fun p => (c :: p.1, p.2))

/-- Match `(\d+)\. \[(.*?)\]` at the start of `s` (greedy digits never
backtrack productively here, since a shortened run is followed by a digit). -/
def pairAt (s : Str) : Option (Str × Str × Str) :=
  match sliceDigits s with
  | ([], _) => none
  | (c :: ds, '.' :: ' ' :: '[' :: u) =>
    (linkScan u).map (fun p => (c :: ds, p.1, p.2))
  | (_ :: _, _) => none

/-- `re.findall(r'(\d+)\. \[(.*?)\]', section)`. -/
def findNumLinkPairsAux : Nat → Str → List (Str × Str)
  | _, [] => []
  | 0, _ :: _ => []
  | fuel + 1, c :: rest =>
    match pairAt (c :: rest) with
    | some (d, l, r) => (d, l) :: findNumLinkPairsAux fuel r
    | none => findNumLinkPairsAux fuel rest

def findNumLinkPairs (s : Str) : List (Str × Str) := findNumLinkPairsAux s.length s

/-- The replaced string `f'{num}. [{link_text}]'` of the references-section
rewrite. -/
def secPat (num link : Str) : Str := num ++ '.' :: ' ' :: '[' :: link ++ [']']

/-- The references-section rewrite:
`report.replace(f'{old_num}. [{link_text}]', f'{new_num}. [{link_text}]')`
for every found pair whose numeral is a key of the map. -/
def applySectionPairs (m : List (Str × Nat)) (pairs : List (Str × Str)) (body : Str) : Str :=
  pairs.foldl (fun b p =>
    match lookupRef m p.1 with
    | some n => replaceAll (secPat p.1 p.2) (secPat (natDigits n) p.2) b
    | none => b) body

/-- `_normalize_reference_numbers` restricted to the body text: scan, build
the map, rewrite inline markers, then rewrite the references section. -/
def normBody (body : Str) : Str :=
  let refs := findRefs body
  if refs.isEmpty then body
  else
    let m := buildRefMap refs
    let b1 := applyInline m body
    match searchRefSection b1 with
    | none => b1
    | some sec =>
      let pairs := findNumLinkPairs sec
      if pairs.isEmpty then b1 else applySectionPairs m pairs b1

/-- The report dictionary handled by `_write_specialized_report` and
`_normalize_reference_numbers` (`Dict[str, Any]`): every key may be absent,
which `Option` models. -/
structure ReportDict where
  short_summary : Option Str
  markdown_report : Option Str
  follow_up_questions : Option (List Str)
  key_insights : Option (List Str)
  information_gaps : Option (List Str)
  methodological_approach : Option Str
  citation_count : Option Int
deriving DecidableEq, Repr

/-- `_normalize_reference_numbers`: rewrites nothing unless the
`markdown_report` key is present. -/
def normalizeReferenceNumbers (r : ReportDict) : ReportDict :=
  match r.markdown_report with
  | none => r
  | some body => { r with markdown_report := some (normBody body) }

/-- Modelled from the spec: the marker form `(Reference N)` that §4.3 of the
spec claims is scanned — stated here only to compare the spec's wording with
the source's actual pattern `\(\[Reference (\d+)\]`. -/
def matchSpecParenAt (s : Str) : Option (Str × Str) :=
  match s with
  | '(' :: rest =>
    if startsWith "Reference ".data rest then
      match sliceDigits (List.drop 10 rest) with
      | ([], _) => none
      | (_ :: _, []) => none
      | (c :: ds, ')' :: r) => some (c :: ds, r)
      | (_ :: _, _ :: _) => none
    else none
  | _ => none

def findParenRefsAux : Nat → Str → List Str
  | _, [] => []
  | 0, _ :: _ => []
  | fuel + 1, c :: rest =>
    match matchSpecParenAt (c :: rest) with
    | some (d, r) => d :: findParenRefsAux fuel r
    | none => findParenRefsAux fuel rest

/-- Modelled from the spec: all `(Reference N)` markers of a body. -/
def findParenRefs (s : Str) : List Str := findParenRefsAux s.length s

/-! ### Parse items

A body text decomposes uniquely into plain characters and bracket markers
`[Reference N]`; this canonical decomposition is the analysis tool for the
normalizer's replacement loop (it is not part of the source). -/

inductive PItem where
  | chr (c : Char)
  | mark (d : Str)
deriving DecidableEq, Repr

def renderItem : PItem → Str
  | .chr c => [c]
  | .mark d => mrk d

def renderB : List PItem → Str
  | [] => []
  | i :: rest => renderItem i ++ renderB rest

def parseBAux : Nat → Str → List PItem
  | _, [] => []
  | 0, _ :: _ => []
  | fuel + 1, c :: rest =>
    match matchBracketAt (c :: rest) with
    | some (d, r) => .mark d :: parseBAux fuel r
    | none => .chr c :: parseBAux fuel rest

def parseB (s : Str) : List PItem := parseBAux s.length s

/-- Digit strings that may appear in a marker. -/
def GoodDigits (d : Str) : Prop := d ≠ [] ∧ allDigits d = true

/-- Well-formed item lists: exactly the images of `parseB`. -/
inductive WfItems : List PItem → Prop
  | nil : WfItems []
  | mark {d : Str} {rest : List PItem} : GoodDigits d → WfItems rest →
      WfItems (.mark d :: rest)
  | chr {c : Char} {rest : List PItem} :
      matchBracketAt (renderB (.chr c :: rest)) = none → WfItems rest →
      WfItems (.chr c :: rest)

/-- Rename every marker carrying digits `o` to digits `e` (the item-level
action of one `str.replace(f'[Reference {o}]', f'[Reference {e}]')`). -/
def renameMark (o e : Str) : PItem → PItem
  | .mark d => if d = o then .mark e else .mark d
  | .chr c => .chr c

def mapMark (o e : Str) (items : List PItem) : List PItem := items.map (renameMark o e)

/-- Digits of all markers, in order. -/
def markDigits (items : List PItem) : List Str :=
  items.filterMap (fun i => match i with | .mark d => some d | .chr _ => none)

/-- Digits of the markers directly preceded by `'('` — the item-level view of
what `findRefs` collects. -/
def scanItems : List PItem → List Str
  | [] => []
  | .mark _ :: rest => scanItems rest
  | .chr c :: .mark d :: rest => if c = '(' then d :: scanItems rest else scanItems rest
  | .chr _ :: rest => scanItems rest

/-- Marker numerals the claims call canonical: the decimal numeral of a
positive integer, no leading zero. -/
def CanonPos (d : Str) : Prop := d = natDigits (digitsToNat d) ∧ 1 ≤ digitsToNat d

instance (d : Str) : Decidable (CanonPos d) :=
  inferInstanceAs (Decidable (d = natDigits (digitsToNat d) ∧ 1 ≤ digitsToNat d))

/-- Every marker of the item list is scanned, i.e. preceded by `'('`. -/
def allScanned : List PItem → Bool
  | [] => true
  | .mark _ :: _ => false
  | .chr c :: .mark _ :: rest => c = '(' && allScanned rest
  | .chr _ :: rest => allScanned rest

/-- The composite string-level action of the sequential replacement loop on a
single marker numeral: each map entry in order rewrites the current numeral
if it matches the entry's key. -/
def chainRename (m : List (Str × Nat)) (d : Str) : Str :=
  m.foldl (fun x p => if x = p.1 then natDigits p.2 else x) d

/-- The item-level action of the whole replacement loop. -/
def applyChain (m : List (Str × Nat)) (items : List PItem) : List PItem :=
  m.foldl (fun its p => mapMark p.1 (natDigits p.2) its) items

/-- `{old: i+1 for i, old in enumerate(l)}` starting at rank `base + 1`: the
shape of `buildRefMap`'s association list. -/
def rankMapFrom (base : Nat) : List Str → List (Str × Nat)
  | [] => []
  | d :: rest => (d, base + 1) :: rankMapFrom (base + 1) rest

/-- The numerals `base+1, base+2, …, base+K` in order. -/
def natDigitsSeq (base : Nat) : Nat → List Str
  | 0 => []
  | K + 1 => natDigits (base + 1) :: natDigitsSeq (base + 1) K

/-! ### Search fan-out executor (`_execute_web_searches`)

External effects are oracle parameters: `SearchBehavior` is what the awaited
`Runner.run` of one search task does (the summary/citations a successful call
yields, a 120-second timeout, or a raised error — the task closure catches the
last two itself), and the chunk-timeout flag is whether the 180-second
`asyncio.wait_for` around one `gather` fires. -/

structure Citation where
  url : Str
  title : Str
  start_index : Int
  end_index : Int
deriving DecidableEq, Repr

structure WebSearchItem where
  reason : Str
  query : Str
deriving DecidableEq, Repr

/-- `WebSearchPlan` of `research_agents/planner_agent.py`: `priority_searches`
is documented there as "Indices of the most important searches that should be
performed first". -/
structure WebSearchPlan where
  searches : List WebSearchItem
  priority_searches : List Int
  areas_covered : List Str
deriving DecidableEq, Repr

structure SearchResult where
  query : Str
  reason : Str
  summary : Option Str
  citations : Option (List Citation)
  error : Option Str
  success : Bool
deriving DecidableEq, Repr

inductive SearchBehavior where
  | completes (summary : Str) (citations : List Citation)
  | timesOut
  | raisesErr (msg : Str)

/-- The inner `search(item)` closure: always returns a dictionary, converting
its own timeout and any exception into a `success=False` record. -/
def runSearchTask (item : WebSearchItem) (b : SearchBehavior) : SearchResult :=
  match b with
  | .completes summary citations =>
    { query := item.query, reason := item.reason, summary := some summary,
      citations := some citations, error := none, success := true }
  | .timesOut =>
    { query := item.query, reason := item.reason, summary := none, citations := none,
      error := some "Search timed out after 120 seconds".data, success := false }
  | .raisesErr msg =>
    { query := item.query, reason := item.reason, summary := none, citations := none,
      error := some msg, success := false }

/-- Outcome recorded for every task of a chunk whose 180-second gather timeout
fired. -/
def chunkTimeoutResult (item : WebSearchItem) : SearchResult :=
  { query := item.query, reason := item.reason, summary := none, citations := none,
    error := some "Search chunk timed out".data, success := false }

/-- `for i in range(0, len(searches), 3)`: chunks of three, sequentially;
`beh j` is the behavior of the task with list index `j`, `cto i` tells whether
the chunk starting at index `i` hits its batch timeout. -/
def execChunksAux : Nat → List WebSearchItem → (Nat → SearchBehavior) → (Nat → Bool) →
    Nat → List SearchResult
  | 0, _, _, _, _ => []
  | fuel + 1, searches, beh, cto, i =>
    if i < searches.length then
      let chunk := (searches.drop i).take 3
      let outs :=
        if cto i then chunk.map chunkTimeoutResult
        else chunk.enum.map (fun p => runSearchTask p.2 (beh (i + p.1)))
      outs ++ execChunksAux fuel searches beh cto (i + 3)
    else []

/-- `_execute_web_searches`: note it reads only `search_plan.searches`; the
plan's `priority_searches` never influence the chunk sequence. -/
def executeWebSearches (plan : WebSearchPlan) (beh : Nat → SearchBehavior)
    (cto : Nat → Bool) : List SearchResult :=
  execChunksAux plan.searches.length plan.searches beh cto 0

/-! ### Quality gate and refinement loop
(`evaluate_and_refine`, `iterative_refinement`)

Scores are modelled as rationals (the source holds Python floats, used only
for comparison and maximum tracking).  The two external calls of one
iteration — the standards evaluator and the specialized refiner — are oracle
streams indexed by the iteration counter; an `Except.error` is a raised
exception of the awaited call. -/

structure StandardsEvaluationResult where
  overall_score : ℚ
  summary_feedback : Str
  detailed_feedback : Str
  improvement_suggestions : List Str
  strengths : List Str
  weaknesses : List Str
  meets_standards : Bool
deriving DecidableEq, Repr

/-- The reports the loop passes around (the fields shared by `ReportData` and
`ScientificReportData` that `evaluate_and_refine` reads or writes). -/
structure Report where
  short_summary : Str
  markdown_report : Str
  follow_up_questions : List Str
  key_insights : List Str
  information_gaps : List Str
deriving DecidableEq, Repr

/-- What the refiner invocation produced: a result parsing as
`ScientificReportData`, or raw text after `final_output_as` raised. -/
inductive RefineOutcome where
  | parsed (r : Report)
  | unparsed (text : Str)
deriving DecidableEq, Repr

/-- The fallback object built when parsing the improved output fails
(`ReportData(short_summary=..., markdown_report=improved_text, ...)`); the
`getattr` defaults never fire here because our `Report` always carries the
fields. -/
def fallbackReport (current : Report) (text : Str) : Report :=
  { short_summary := current.short_summary
    markdown_report := text
    follow_up_questions := current.follow_up_questions
    key_insights := current.key_insights
    information_gaps := current.information_gaps }

def refinedOf (current : Report) (out : RefineOutcome) : Report :=
  match out with
  | .parsed r => r
  | .unparsed text => fallbackReport current text

/-- `research_type` values for which a specialized agent exists
(otherwise `specialized_agent is None`). -/
def researchTypeHasAgent (t : Str) : Bool :=
  t = "Scientific".data || t = "Technical".data || t = "Humanities".data ||
    t = "Interdisciplinary".data

/-- `evaluate_and_refine`: evaluate the current report; if it meets the
standards (or no agent is available) return it unchanged, otherwise return the
refined report — in both cases together with the evaluation's score, feedback
and flag.  Neither call is guarded by a handler, so a raised error
propagates. -/
def evaluateAndRefine (evalCall : Except Str StandardsEvaluationResult)
    (refineCall : Except Str RefineOutcome) (hasAgent : Bool) (current : Report) :
    Except Str (Report × ℚ × Str × Bool) :=
  match evalCall with
  | .error e => .error e
  | .ok ev =>
    if ev.meets_standards || !hasAgent then
      .ok (current, ev.overall_score, ev.detailed_feedback, ev.meets_standards)
    else
      match refineCall with
      | .error e => .error e
      | .ok out =>
        .ok (refinedOf current out, ev.overall_score, ev.detailed_feedback,
          ev.meets_standards)

/-- The `while iteration < max_iterations` loop of `iterative_refinement`,
with `fuel = max_iterations - iteration`. -/
def refinementLoop (evalO : Nat → Except Str StandardsEvaluationResult)
    (refineO : Nat → Except Str RefineOutcome) (researchType : Str) (minScore : ℚ) :
    Nat → Nat → Report → Report → ℚ → List (ℚ × Str) →
    Except Str (Report × ℚ × List (ℚ × Str))
  | 0, _, _, best, highest, hist => .ok (best, highest, hist)
  | fuel + 1, iter, current, best, highest, hist =>
    match evaluateAndRefine (evalO iter) (refineO iter)
        (researchTypeHasAgent researchType) current with
    | .error e => .error e
    | .ok (refined, score, feedback, meets) =>
      let hist2 := hist ++ [(score, feedback)]
      let highest2 := if highest < score then score else highest
      let best2 := if highest < score then refined else best
      if meets || minScore ≤ score then .ok (refined, score, hist2)
      else refinementLoop evalO refineO researchType minScore fuel (iter + 1)
        refined best2 highest2 hist2

/-- `iterative_refinement(query, initial_report, research_type,
max_iterations, min_quality_score)`. -/
def iterativeRefinement (evalO : Nat → Except Str StandardsEvaluationResult)
    (refineO : Nat → Except Str RefineOutcome) (researchType : Str)
    (maxIterations : Nat) (minScore : ℚ) (initialReport : Report) :
    Except Str (Report × ℚ × List (ℚ × Str)) :=
  refinementLoop evalO refineO researchType minScore maxIterations 0
    initialReport initialReport 0 []

/-- The report submitted to evaluation `i` of a run in which every earlier
iteration refined (all earlier evaluations non-satisfying, all calls
succeeding): the `i`-fold refinement of the initial report. -/
def currentAt (initial : Report) (outs : Nat → RefineOutcome) : Nat → Report
  | 0 => initial
  | i + 1 => refinedOf (currentAt initial outs i) (outs i)

/-- The loop's running maximum (`highest_score` starts at `0`). -/
def listMax0 (scores : List ℚ) : ℚ := scores.foldl max 0

/-- The `(score, feedback)` history segment recorded for iterations
`i, i+1, …, i+fuel-1` of a run whose evaluations all succeed. -/
def histSeg (sc : Nat → ℚ) (fb : Nat → Str) : Nat → Nat → List (ℚ × Str)
  | 0, _ => []
  | fuel + 1, i => (sc i, fb i) :: histSeg sc fb fuel (i + 1)

/-- The `(best_report, highest_score)` tracker of the loop, folded over
iterations `i, …, i+fuel-1` (`rep j` is the report produced at iteration
`j`). -/
def trackAux (sc : Nat → ℚ) (rep : Nat → Report) : Nat → Nat → Report × ℚ → Report × ℚ
  | 0, _, p => p
  | fuel + 1, i, p =>
    trackAux sc rep fuel (i + 1) (if p.2 < sc i then (rep i, sc i) else p)

/-- Concrete two-iteration evaluator stream (scores 5 then 7, standards never
met) used to instantiate the loop theorems. -/
def exEvalC3 : Nat → StandardsEvaluationResult :=
  fun i => ⟨if i = 0 then 5 else 7, [], "fb".data, [], [], [], false⟩

/-- Concrete refiner stream: always parses to the same report. -/
def exOutC3 : Nat → RefineOutcome :=
  fun _ => RefineOutcome.parsed ⟨"r".data, "r".data, [], [], []⟩

/-- Concrete initial report for the loop instances. -/
def exInitC3 : Report := ⟨"i".data, "i".data, [], [], []⟩

/-- Concrete evaluator stream for the satisfied-exit instance: scores 6, 6
without meeting the standards, then 9 with the standards met. -/
def exEvalC4 : Nat → StandardsEvaluationResult :=
  fun i => if i < 2 then ⟨6, [], "fb".data, [], [], [], false⟩ else
    ⟨9, [], "fb".data, [], [], [], true⟩

/-! ### Report synthesizer (`_write_specialized_report`)

The generation call is an oracle (`GenOutcome`).  Console, tracing and the
debug-artifact write are pure side effects and are omitted; everything that
reaches the returned dictionary is kept.  A `.error` result models an
exception escaping the method (Python has no handler around the
search-results markdown assembly). -/

structure FileResult where
  file : Str
  content : Str
  success : Bool
deriving DecidableEq, Repr

/-- Citation collection of the synthesizer: successful web results only,
capped at 5 (o3-mini tier) or 8 results, and only results whose `citations`
key is present and non-empty contribute (`all_citations.extend(...)`). -/
def allCitationsOf (web : List SearchResult) (isO3Mini : Bool) : List Citation :=
  let succ := web.filter (·.success)
  let maxS := if isO3Mini then 5 else 8
  let limited := if maxS < succ.length then succ.take maxS else succ
  limited.foldl (fun acc r =>
    match r.citations with
    | some cs => if cs.isEmpty then acc else acc ++ cs
    | none => acc) []

/-- The `unique_citations` dictionary of the citation appendix: first
occurrence per non-empty URL (insertion-ordered, as a Python dict). -/
def uniqueCitations (cs : List Citation) : List (Str × Str) :=
  cs.foldl (fun acc c =>
    if !c.url.isEmpty && acc.all (fun p => p.1 ≠ c.url) then acc ++ [(c.url, c.title)]
    else acc) []

/-- `result.final_output` when truthy: either a dict (whose report-like keys
may each be absent) or some other structured value. -/
inductive FinalOutput where
  | dictLike (short_summary : Option Str) (markdown_report : Option Str)
      (follow_up_questions : Option (List Str)) (key_insights : Option (List Str))
      (information_gaps : Option (List Str)) (methodological_approach : Option Str)
      (citation_count : Option Int)
  | other
deriving DecidableEq, Repr

/-- What `Runner.run(specialized_agent, prompt)` wrapped in its five-minute
`asyncio.wait_for` did. -/
inductive GenOutcome where
  | timesOut
  | raises (msg : Str)
  | output (finalOutput : Option FinalOutput) (newItemsText : Str) (hasNewItems : Bool)

/-- Greedy `((?:\\.|[^"\\])*)"`: escaped-any or plain (non-quote,
non-backslash) elements up to the closing quote.  Giving an element back can
never expose a quote, so the greedy run either ends at `"` or the match
fails. -/
def jsonBodyScan : Str → Option (Str × Str)
  | [] => none
  | '"' :: rest => some ([], rest)
  | '\\' :: [] => none
  | '\\' :: c :: rest =>
    if c = '\n' then none
    else (jsonBodyScan rest).map (fun p => ('\\' :: c :: p.1, p.2))
  | c :: rest => (jsonBodyScan rest).map (fun p => (c :: p.1, p.2))

/-- Match `key\s*:\s*"((?:\\.|[^"\\])*)"` at the start of `s`, where `key` is
the quoted field name. -/
def jsonMatchAt (key : Str) (s : Str) : Option Str :=
  if startsWith key s then
    match (List.drop key.length s).dropWhile wsChar with
    | ':' :: t2 =>
      match t2.dropWhile wsChar with
      | '"' :: t3 => (jsonBodyScan t3).map (·.1)
      | _ => none
    | _ => none
  else none

/-- `re.search` for the field pattern: first position where it matches. -/
def jsonSearch (key : Str) : Str → Option Str
  | [] => none
  | c :: rest =>
    match jsonMatchAt key (c :: rest) with
    | some b => some b
    | none => jsonSearch key rest

/-- `.replace("\\n", "\n").replace('\\"', '"')`. -/
def unescapeJson (t : Str) : Str :=
  replaceAll ['\\', '"'] ['"'] (replaceAll ['\\', 'n'] ['\n'] t)

/-- `t[:150] + "..." if len(t) > 150 else t`. -/
def truncate150 (t : Str) : Str :=
  if 150 < t.length then t.take 150 ++ "...".data else t

/-- The timeout report (returned without normalization). -/
def timeoutReport (allCit : List Citation) : ReportDict :=
  { short_summary := some "Error: Report generation timed out".data
    markdown_report := some ("# Error: Report Generation Timeout\n\nThe report generation process took too long and timed out. This may be due to the complexity of the query or the amount of information to process.".data)
    follow_up_questions := some []
    key_insights := some []
    information_gaps := some ["Complete information could not be retrieved due to timeout.".data]
    methodological_approach := some "Timeout occurred".data
    citation_count := some (allCit.length : Int) }

/-- The no-content report (returned without normalization). -/
def noContentReport : ReportDict :=
  { short_summary := some "Error: No content was generated.".data
    markdown_report := some ("# Error: No Report Generated\n\nThe research agent did not produce any content. This could be due to a timeout, an error in processing, or limitations in the available data. Please try again with a more specific query or contact support if this issue persists.".data)
    follow_up_questions := some []
    key_insights := some []
    information_gaps := some ["Complete report could not be generated".data]
    methodological_approach := some "Error occurred".data
    citation_count := some 0 }

/-- The generation-error report (returned without normalization). -/
def errorReport (msg : Str) : ReportDict :=
  { short_summary := some ("Error: ".data ++ msg)
    markdown_report := some ("# Error Generating Report\n\nAn error occurred while generating the research report: \n\n```\n".data ++ msg ++ "\n```\n\nPlease try again with a different query or research type.".data)
    follow_up_questions := some []
    key_insights := some []
    information_gaps := some ["Complete information could not be retrieved due to an error.".data]
    methodological_approach := some "Error occurred".data
    citation_count := some 0 }

/-- Structured-dict path: take the model's dictionary, `setdefault` the five
auxiliary fields, leave `short_summary`/`markdown_report` untouched. -/
def structuredReport (ss md : Option Str) (fu ki ig : Option (List Str))
    (ma : Option Str) (cc : Option Int) (allCit : List Citation) : ReportDict :=
  { short_summary := ss
    markdown_report := md
    follow_up_questions := some (fu.getD [])
    key_insights := some (ki.getD [])
    information_gaps := some (ig.getD [])
    methodological_approach := some (ma.getD "Direct expert analysis".data)
    citation_count := some (cc.getD (allCit.length : Int)) }

/-- A freshly assembled report dictionary with empty auxiliary lists. -/
def assembledReport (ss md : Str) (ma : Str) (cc : Int) : ReportDict :=
  { short_summary := some ss
    markdown_report := some md
    follow_up_questions := some []
    key_insights := some []
    information_gaps := some []
    methodological_approach := some ma
    citation_count := some cc }

def mdKeySub : Str := "markdown_report".data
def mdKeyQuoted : Str := ('"' :: "markdown_report".data) ++ ['"']
def ssKeyQuoted : Str := ('"' :: "short_summary".data) ++ ['"']

/-- The text-analysis chain applied to `report_content` when the final output
was truthy but not a report-like dict. -/
def textAnalysisReport (content : Str) (allCit : List Citation) : ReportDict :=
  if containsSub mdKeySub content then
    match jsonSearch mdKeyQuoted content with
    | some bodyRaw =>
      let reportText := unescapeJson bodyRaw
      let summary :=
        match jsonSearch ssKeyQuoted content with
        | some sRaw => unescapeJson sRaw
        | none => truncate150 reportText
      normalizeReferenceNumbers
        (assembledReport summary reportText "Extracted from agent output".data
          (allCit.length : Int))
    | none =>
      if containsSub "# ".data content && containsSub "## ".data content then
        normalizeReferenceNumbers
          (assembledReport (truncate150 content) content "Direct expert analysis".data
            (allCit.length : Int))
      else
        normalizeReferenceNumbers
          (assembledReport (truncate150 content) content "Direct response".data
            (allCit.length : Int))
  else if containsSub "# ".data content && containsSub "## ".data content then
    normalizeReferenceNumbers
      (assembledReport (truncate150 content) content "Direct expert analysis".data
        (allCit.length : Int))
  else
    normalizeReferenceNumbers
      (assembledReport (truncate150 content) content "Direct response".data
        (allCit.length : Int))

/-- `_write_specialized_report`.  `.ok none` is Python's implicit `None`
return (generation produced no new items and no timeout); `.error` is the
uncaught `KeyError` of the file-results assembly (their dictionaries carry no
`relevance_score` key). -/
def writeSpecializedReport (web : List SearchResult) (file : List FileResult)
    (isO3Mini : Bool) (gen : GenOutcome) : Except Str (Option ReportDict) :=
  let allCit := allCitationsOf web isO3Mini
  if !(file.filter (·.success)).isEmpty then
    .error "KeyError: relevance_score".data
  else
    match gen with
    | .timesOut => .ok (some (timeoutReport allCit))
    | .raises msg => .ok (some (errorReport msg))
    | .output fo text hasItems =>
      if hasItems then
        match fo with
        | some (.dictLike ss md fu ki ig ma cc) =>
          if md.isSome || ss.isSome then
            .ok (some (normalizeReferenceNumbers (structuredReport ss md fu ki ig ma cc allCit)))
          else
            .ok (some (textAnalysisReport text allCit))
        | some .other => .ok (some (textAnalysisReport text allCit))
        | none =>
          if text.isEmpty then .ok (some noContentReport)
          else
            .ok (some (normalizeReferenceNumbers
              (assembledReport (truncate150 text) text "Direct response".data
                (allCit.length : Int))))
      else .ok none

/-! # Theorems -/

/-! ## Basic facts about `startsWith` and `replaceAll` -/

theorem startsWith_iff {p s : Str} : startsWith p s = true ↔ ∃ t, s = p ++ t := by
  induction p generalizing s with
  | nil => simp [startsWith]
  | cons a as ih =>
    cases s with
    | nil => simp [startsWith]
    | cons b bs =>
      simp only [startsWith, Bool.and_eq_true, decide_eq_true_eq, ih]
      constructor
      · rintro ⟨rfl, t, rfl⟩; exact ⟨t, rfl⟩
      · rintro ⟨t, h⟩
        injection h with h1 h2
        exact ⟨h1.symm, t, h2⟩

theorem startsWith_append (p t : Str) : startsWith p (p ++ t) = true :=
  startsWith_iff.mpr ⟨t, rfl⟩

theorem startsWith_length {p s : Str} (h : startsWith p s = true) :
    p.length ≤ s.length := by
  obtain ⟨t, rfl⟩ := startsWith_iff.mp h
  simp

theorem startsWith_head_ne {a b : Char} {p s : Str} (h : a ≠ b) :
    startsWith (a :: p) (b :: s) = false := by
  simp [startsWith, h]

theorem startsWith_both (w : Str) {p s : Str} :
    startsWith (w ++ p) (w ++ s) = startsWith p s := by
  induction w with
  | nil => rfl
  | cons c cs ih => simp [startsWith, ih]

/-- A prefix of a concatenation is a prefix of the first part or extends it. -/
theorem startsWith_split {w q x : Str} (h : startsWith w (q ++ x) = true) :
    startsWith w q = true ∨ startsWith q w = true := by
  induction w generalizing q with
  | nil => left; rfl
  | cons a as ih =>
    cases q with
    | nil => right; rfl
    | cons b bs =>
      simp only [List.cons_append, startsWith, Bool.and_eq_true, decide_eq_true_eq] at h ⊢
      rcases ih h.2 with h2 | h2
      · exact Or.inl ⟨h.1, h2⟩
      · exact Or.inr ⟨h.1.symm, h2⟩

theorem replaceAllAux_congr (pat rep : Str) :
    ∀ f1 f2 (s : Str), s.length ≤ f1 → s.length ≤ f2 →
      replaceAllAux f1 pat rep s = replaceAllAux f2 pat rep s := by
  intro f1
  induction f1 with
  | zero =>
    intro f2 s h1 _
    cases s with
    | nil => cases f2 <;> rfl
    | cons c r => simp at h1
  | succ f ih =>
    intro f2 s h1 h2
    cases s with
    | nil => cases f2 <;> rfl
    | cons c r =>
      cases f2 with
      | zero => simp at h2
      | succ g =>
        simp only [replaceAllAux]
        by_cases hp : (startsWith pat (c :: r) && !pat.isEmpty) = true
        · rw [if_pos hp, if_pos hp]
          have hsw : startsWith pat (c :: r) = true := ((Bool.and_eq_true _ _).mp hp).1
          have hne : (!pat.isEmpty) = true := ((Bool.and_eq_true _ _).mp hp).2
          have hpos : 1 ≤ pat.length := by
            cases pat with
            | nil => simp at hne
            | cons a b => simp
          have hf : (List.drop pat.length (c :: r)).length ≤ f := by
            simp only [List.length_cons] at h1
            simp only [List.length_drop, List.length_cons]
            omega
          have hg : (List.drop pat.length (c :: r)).length ≤ g := by
            simp only [List.length_cons] at h2
            simp only [List.length_drop, List.length_cons]
            omega
          rw [ih g _ hf hg]
        · rw [if_neg hp, if_neg hp]
          simp only [List.length_cons] at h1 h2
          exact congrArg (c :: ·) (ih g r (by omega) (by omega))

theorem replaceAll_eq_aux {fuel : Nat} (pat rep : Str) {s : Str} (h : s.length ≤ fuel) :
    replaceAllAux fuel pat rep s = replaceAll pat rep s :=
  replaceAllAux_congr pat rep fuel s.length s h le_rfl

theorem replaceAll_nil (pat rep : Str) : replaceAll pat rep [] = [] := rfl

theorem replaceAll_cons_pos {pat : Str} (rep : Str) {c : Char} {r : Str}
    (hp : pat ≠ []) (hs : startsWith pat (c :: r) = true) :
    replaceAll pat rep (c :: r) =
      rep ++ replaceAll pat rep (List.drop pat.length (c :: r)) := by
  have hne : (!pat.isEmpty) = true := by
    cases pat with | nil => exact absurd rfl hp | cons a b => rfl
  have hb : (startsWith pat (c :: r) && !pat.isEmpty) = true := by rw [hs, hne]; rfl
  have hpos : 1 ≤ pat.length := by
    cases pat with | nil => exact absurd rfl hp | cons a b => simp
  show replaceAllAux (r.length + 1) pat rep (c :: r) = _
  simp only [replaceAllAux]
  rw [if_pos hb]
  exact congrArg (rep ++ ·) (replaceAll_eq_aux pat rep
    (by simp only [List.length_drop, List.length_cons]; omega))

theorem replaceAll_cons_neg {pat : Str} (rep : Str) {c : Char} {r : Str}
    (hs : ¬(pat ≠ [] ∧ startsWith pat (c :: r) = true)) :
    replaceAll pat rep (c :: r) = c :: replaceAll pat rep r := by
  have hb : (startsWith pat (c :: r) && !pat.isEmpty) = false := by
    cases pat with
    | nil => simp
    | cons a b =>
      by_cases h : startsWith (a :: b) (c :: r) = true
      · exact absurd ⟨by simp, h⟩ hs
      · simp only [Bool.not_eq_true] at h
        simp [h]
  show replaceAllAux (r.length + 1) pat rep (c :: r) = _
  simp only [replaceAllAux]
  rw [if_neg (by simp [hb])]
  exact congrArg (c :: ·) (replaceAll_eq_aux pat rep (by simp))

/-- Replacing a pattern with itself changes nothing. -/
theorem replaceAll_self (pat s : Str) : replaceAll pat pat s = s := by
  have H : ∀ n (s : Str), s.length = n → replaceAll pat pat s = s := by
    intro n
    induction n using Nat.strong_induction_on with
    | _ n ih =>
      intro s hs
      cases s with
      | nil => rfl
      | cons c r =>
        by_cases hp : pat ≠ [] ∧ startsWith pat (c :: r) = true
        · obtain ⟨t, ht⟩ := startsWith_iff.mp hp.2
          have hpos : 1 ≤ pat.length := by
            cases pat with
            | nil => exact absurd rfl hp.1
            | cons a b => simp
          rw [replaceAll_cons_pos pat hp.1 hp.2, ht, List.drop_left]
          have hlt : t.length < n := by
            rw [← hs, ht]; simp; omega
          rw [ih t.length hlt t rfl]
        · rw [replaceAll_cons_neg pat hp]
          have := ih r.length (by rw [← hs]; simp) r rfl
          rw [this]
  exact H s.length s rfl

/-- `replaceAll` walks through a block in which no occurrence of the pattern
starts (even one that would use the following text). -/
theorem replaceAll_append_skip {pat : Str} (rep : Str) :
    ∀ {u : Str} (t : Str), (∀ i, i < u.length → startsWith pat (u.drop i ++ t) = false) →
    replaceAll pat rep (u ++ t) = u ++ replaceAll pat rep t := by
  intro u
  induction u with
  | nil => intro t _; rfl
  | cons c r ih =>
    intro t h
    have h0 : startsWith pat (c :: (r ++ t)) = false := by
      have := h 0 (by simp)
      simpa using this
    have hneg : ¬(pat ≠ [] ∧ startsWith pat (c :: (r ++ t)) = true) := by
      rintro ⟨-, hsw⟩
      rw [h0] at hsw
      exact Bool.false_ne_true hsw
    rw [List.cons_append, replaceAll_cons_neg rep hneg,
      ih t (fun i hi => by
        have := h (i + 1) (by simp only [List.length_cons]; omega)
        simpa using this)]
    simp

/-! ## Decimal numerals -/

theorem natDigitsAux_congr : ∀ f1 f2 n, n < f1 → n < f2 →
    natDigitsAux f1 n = natDigitsAux f2 n := by
  intro f1
  induction f1 with
  | zero => intro f2 n h1 _; omega
  | succ f ih =>
    intro f2 n h1 h2
    cases f2 with
    | zero => omega
    | succ g =>
      simp only [natDigitsAux]
      by_cases hn : n < 10
      · rw [if_pos hn, if_pos hn]
      · rw [if_neg hn, if_neg hn]
        have hd : n / 10 < n := Nat.div_lt_self (by omega) (by omega)
        rw [ih g (n / 10) (by omega) (by omega)]

theorem natDigits_lt10 {n : Nat} (h : n < 10) : natDigits n = [Char.ofNat (48 + n)] := by
  simp only [natDigits, natDigitsAux, if_pos h]

theorem natDigits_ge10 {n : Nat} (h : 10 ≤ n) :
    natDigits n = natDigits (n / 10) ++ [Char.ofNat (48 + n % 10)] := by
  have hd : n / 10 < n := Nat.div_lt_self (by omega) (by omega)
  show natDigitsAux (n + 1) n = natDigitsAux (n / 10 + 1) (n / 10) ++ _
  conv_lhs => rw [natDigitsAux]
  rw [if_neg (by omega : ¬ n < 10),
    natDigitsAux_congr n (n / 10 + 1) (n / 10) (by omega) (by omega)]

theorem digitChar_isDigit {r : Nat} (h : r < 10) : (Char.ofNat (48 + r)).isDigit = true := by
  interval_cases r <;> decide

theorem digitChar_toNat {r : Nat} (h : r < 10) : (Char.ofNat (48 + r)).toNat = 48 + r := by
  interval_cases r <;> decide

theorem allDigits_append (a b : Str) :
    allDigits (a ++ b) = (allDigits a && allDigits b) := by
  simp [allDigits, List.all_append]

theorem natDigits_allDigits (n : Nat) : allDigits (natDigits n) = true := by
  induction n using Nat.strong_induction_on with
  | _ n ih =>
    by_cases h : n < 10
    · rw [natDigits_lt10 h]
      simp [allDigits, digitChar_isDigit h]
    · rw [natDigits_ge10 (by omega), allDigits_append]
      have h1 := ih (n / 10) (Nat.div_lt_self (by omega) (by omega))
      have h2 : (Char.ofNat (48 + n % 10)).isDigit = true :=
        digitChar_isDigit (Nat.mod_lt _ (by omega))
      rw [h1]
      simp [allDigits, h2]

theorem natDigits_ne_nil (n : Nat) : natDigits n ≠ [] := by
  by_cases h : n < 10
  · rw [natDigits_lt10 h]; simp
  · rw [natDigits_ge10 (by omega)]; simp

theorem goodDigits_natDigits (n : Nat) : GoodDigits (natDigits n) :=
  ⟨natDigits_ne_nil n, natDigits_allDigits n⟩

theorem digitsToNat_append_singleton (a : Str) (c : Char) :
    digitsToNat (a ++ [c]) = 10 * digitsToNat a + (c.toNat - 48) := by
  simp [digitsToNat, List.foldl_append]

theorem digitsToNat_natDigits (n : Nat) : digitsToNat (natDigits n) = n := by
  induction n using Nat.strong_induction_on with
  | _ n ih =>
    by_cases h : n < 10
    · rw [natDigits_lt10 h]
      simp [digitsToNat, digitChar_toNat h]
    · rw [natDigits_ge10 (by omega), digitsToNat_append_singleton,
        ih (n / 10) (Nat.div_lt_self (by omega) (by omega)),
        digitChar_toNat (Nat.mod_lt _ (by omega))]
      omega

theorem natDigits_inj {a b : Nat} (h : natDigits a = natDigits b) : a = b := by
  have := congrArg digitsToNat h
  rwa [digitsToNat_natDigits, digitsToNat_natDigits] at this

theorem canonPos_natDigits {k : Nat} (h : 1 ≤ k) : CanonPos (natDigits k) := by
  constructor
  · rw [digitsToNat_natDigits]
  · rw [digitsToNat_natDigits]; exact h

theorem canonPos_inj {a b : Str} (ha : CanonPos a) (hb : CanonPos b)
    (h : digitsToNat a = digitsToNat b) : a = b := by
  rw [ha.1, hb.1, h]

theorem canonPos_goodDigits {a : Str} (ha : CanonPos a) : GoodDigits a := by
  rw [ha.1]; exact goodDigits_natDigits _

theorem allDigits_mem {d : Str} {c : Char} (h : allDigits d = true) (hc : c ∈ d) :
    c.isDigit = true := by
  simp only [allDigits, List.all_eq_true] at h
  exact h c hc

/-! ## The marker matchers -/

theorem sliceDigits_spec : ∀ t : Str,
    t = (sliceDigits t).1 ++ (sliceDigits t).2 ∧ allDigits (sliceDigits t).1 = true ∧
      ∀ c r, (sliceDigits t).2 = c :: r → c.isDigit = false := by
  intro t
  induction t with
  | nil => exact ⟨rfl, rfl, fun c r h => List.noConfusion h⟩
  | cons c rest ih =>
    by_cases hc : c.isDigit = true
    · simp only [sliceDigits, hc, if_true]
      refine ⟨by rw [List.cons_append, ← ih.1], ?_, ih.2.2⟩
      simp only [allDigits, List.all_cons, hc, Bool.true_and]
      exact ih.2.1
    · simp only [sliceDigits, hc, if_false]
      exact ⟨rfl, rfl, fun c' r h => by
        injection h with h1 h2
        rw [← h1]
        exact Bool.eq_false_iff.mpr hc⟩

theorem sliceDigits_of_digits : ∀ {d r : Str}, allDigits d = true →
    (∀ c r', r = c :: r' → c.isDigit = false) → sliceDigits (d ++ r) = (d, r) := by
  intro d
  induction d with
  | nil =>
    intro r _ hr
    cases r with
    | nil => rfl
    | cons c r' =>
      have := hr c r' rfl
      simp [sliceDigits, this]
  | cons c ds ih =>
    intro r hd hr
    have hc : c.isDigit = true := allDigits_mem hd (by simp)
    have hds : allDigits ds = true := by
      simp only [allDigits, List.all_cons, Bool.and_eq_true] at hd
      exact hd.2
    simp only [List.cons_append, sliceDigits, hc, if_true]
    rw [show ds.append r = ds ++ r from rfl, ih hds hr]

theorem matchBracketAt_sound {s d r : Str} (h : matchBracketAt s = some (d, r)) :
    s = mrk d ++ r ∧ GoodDigits d := by
  unfold matchBracketAt at h
  split at h
  case isTrue hsw =>
    obtain ⟨t, rfl⟩ := startsWith_iff.mp hsw
    rw [List.drop_left] at h
    have hspec := sliceDigits_spec t
    split at h
    · exact absurd h (by simp)
    · exact absurd h (by simp)
    · next c ds r0 heq =>
      injection h with h2
      injection h2 with hd hr
      subst hd; subst hr
      rw [heq] at hspec
      refine ⟨?_, ?_, ?_⟩
      · rw [mrk, List.append_assoc]
        exact congrArg (refWord ++ ·) (by rw [hspec.1]; simp)
      · simp
      · exact hspec.2.1
    · exact absurd h (by simp)
  case isFalse => exact absurd h (by simp)

theorem matchBracketAt_complete {d : Str} (hd : GoodDigits d) (r : Str) :
    matchBracketAt (mrk d ++ r) = some (d, r) := by
  unfold matchBracketAt
  have hsw : startsWith refWord (mrk d ++ r) = true := by
    rw [mrk, List.append_assoc, List.append_assoc]
    exact startsWith_append _ _
  rw [if_pos hsw]
  have hdr : List.drop refWord.length (mrk d ++ r) = d ++ ']' :: r := by
    rw [mrk, List.append_assoc, List.append_assoc, List.drop_left]
    simp
  rw [hdr, sliceDigits_of_digits hd.2 (fun c r' hcr => by
    injection hcr with h1 _
    rw [← h1]; decide)]
  cases d with
  | nil => exact absurd rfl hd.1
  | cons c ds => rfl

theorem matchBracketAt_size {s d r : Str} (h : matchBracketAt s = some (d, r)) :
    r.length < s.length := by
  obtain ⟨hs, _⟩ := matchBracketAt_sound h
  rw [hs, mrk]
  simp
  omega

theorem refWord_head : refWord = '[' :: "Reference ".data := by decide

theorem matchBracketAt_head {c : Char} {rest : Str} (hc : c ≠ '[') :
    matchBracketAt (c :: rest) = none := by
  unfold matchBracketAt
  rw [if_neg]
  rw [refWord_head]
  rw [startsWith_head_ne (Ne.symm hc)]
  simp

theorem matchBracketAt_nil : matchBracketAt [] = none := by decide

theorem matchScanAt_paren (rest : Str) : matchScanAt ('(' :: rest) = matchBracketAt rest := rfl

theorem matchScanAt_nil : matchScanAt [] = none := rfl

theorem matchScanAt_ne {c : Char} (rest : Str) (h : c ≠ '(') :
    matchScanAt (c :: rest) = none := by
  unfold matchScanAt
  split
  · next heq =>
    injection heq with h1 _
    exact absurd h1 h
  · rfl

theorem matchScanAt_sound {s d r : Str} (h : matchScanAt s = some (d, r)) :
    s = '(' :: (mrk d ++ r) ∧ GoodDigits d := by
  cases s with
  | nil => exact absurd h (by simp [matchScanAt_nil])
  | cons c rest =>
    rcases eq_or_ne c '(' with rfl | hc
    · rw [matchScanAt_paren] at h
      obtain ⟨h1, h2⟩ := matchBracketAt_sound h
      exact ⟨by rw [h1], h2⟩
    · rw [matchScanAt_ne rest hc] at h
      exact absurd h (by simp)

theorem matchScanAt_complete {d : Str} (hd : GoodDigits d) (r : Str) :
    matchScanAt ('(' :: (mrk d ++ r)) = some (d, r) := by
  rw [matchScanAt_paren]
  exact matchBracketAt_complete hd r

theorem matchScanAt_size {s d r : Str} (h : matchScanAt s = some (d, r)) :
    r.length < s.length := by
  obtain ⟨hs, _⟩ := matchScanAt_sound h
  rw [hs, mrk]
  simp
  omega

/-! ## Step equations for the scanners -/

theorem findRefsAux_congr : ∀ f1 f2 (s : Str), s.length ≤ f1 → s.length ≤ f2 →
    findRefsAux f1 s = findRefsAux f2 s := by
  intro f1
  induction f1 with
  | zero =>
    intro f2 s h1 _
    cases s with
    | nil => cases f2 <;> rfl
    | cons c r => simp at h1
  | succ f ih =>
    intro f2 s h1 h2
    cases s with
    | nil => cases f2 <;> rfl
    | cons c r =>
      cases f2 with
      | zero => simp at h2
      | succ g =>
        simp only [findRefsAux]
        cases hm : matchScanAt (c :: r) with
        | none =>
          simp only [List.length_cons] at h1 h2
          exact ih g r (by omega) (by omega)
        | some p =>
          obtain ⟨d, rr⟩ := p
          have hsz : rr.length < (c :: r).length := matchScanAt_size hm
          simp only [List.length_cons] at h1 h2 hsz
          exact congrArg (d :: ·) (ih g rr (by omega) (by omega))

theorem findRefs_nil : findRefs [] = [] := rfl

theorem findRefs_match {c : Char} {r d rr : Str} (h : matchScanAt (c :: r) = some (d, rr)) :
    findRefs (c :: r) = d :: findRefs rr := by
  have hsz : rr.length < (c :: r).length := matchScanAt_size h
  show findRefsAux (r.length + 1) (c :: r) = _
  simp only [findRefsAux, h]
  simp only [List.length_cons] at hsz
  exact congrArg (d :: ·) (findRefsAux_congr r.length rr.length rr (by omega) le_rfl)

theorem findRefs_nomatch {c : Char} {r : Str} (h : matchScanAt (c :: r) = none) :
    findRefs (c :: r) = findRefs r := by
  show findRefsAux (r.length + 1) (c :: r) = _
  simp only [findRefsAux, h]
  exact findRefsAux_congr r.length r.length r le_rfl le_rfl

theorem findMarksAux_congr : ∀ f1 f2 (s : Str), s.length ≤ f1 → s.length ≤ f2 →
    findMarksAux f1 s = findMarksAux f2 s := by
  intro f1
  induction f1 with
  | zero =>
    intro f2 s h1 _
    cases s with
    | nil => cases f2 <;> rfl
    | cons c r => simp at h1
  | succ f ih =>
    intro f2 s h1 h2
    cases s with
    | nil => cases f2 <;> rfl
    | cons c r =>
      cases f2 with
      | zero => simp at h2
      | succ g =>
        simp only [findMarksAux]
        cases hm : matchBracketAt (c :: r) with
        | none =>
          simp only [List.length_cons] at h1 h2
          exact ih g r (by omega) (by omega)
        | some p =>
          obtain ⟨d, rr⟩ := p
          have hsz : rr.length < (c :: r).length := matchBracketAt_size hm
          simp only [List.length_cons] at h1 h2 hsz
          exact congrArg (d :: ·) (ih g rr (by omega) (by omega))

theorem findMarks_nil : findMarks [] = [] := rfl

theorem findMarks_match {c : Char} {r d rr : Str} (h : matchBracketAt (c :: r) = some (d, rr)) :
    findMarks (c :: r) = d :: findMarks rr := by
  have hsz : rr.length < (c :: r).length := matchBracketAt_size h
  show findMarksAux (r.length + 1) (c :: r) = _
  simp only [findMarksAux, h]
  simp only [List.length_cons] at hsz
  exact congrArg (d :: ·) (findMarksAux_congr r.length rr.length rr (by omega) le_rfl)

theorem findMarks_nomatch {c : Char} {r : Str} (h : matchBracketAt (c :: r) = none) :
    findMarks (c :: r) = findMarks r := by
  show findMarksAux (r.length + 1) (c :: r) = _
  simp only [findMarksAux, h]
  exact findMarksAux_congr r.length r.length r le_rfl le_rfl

theorem parseBAux_congr : ∀ f1 f2 (s : Str), s.length ≤ f1 → s.length ≤ f2 →
    parseBAux f1 s = parseBAux f2 s := by
  intro f1
  induction f1 with
  | zero =>
    intro f2 s h1 _
    cases s with
    | nil => cases f2 <;> rfl
    | cons c r => simp at h1
  | succ f ih =>
    intro f2 s h1 h2
    cases s with
    | nil => cases f2 <;> rfl
    | cons c r =>
      cases f2 with
      | zero => simp at h2
      | succ g =>
        simp only [parseBAux]
        cases hm : matchBracketAt (c :: r) with
        | none =>
          simp only [List.length_cons] at h1 h2
          exact congrArg (PItem.chr c :: ·) (ih g r (by omega) (by omega))
        | some p =>
          obtain ⟨d, rr⟩ := p
          have hsz : rr.length < (c :: r).length := matchBracketAt_size hm
          simp only [List.length_cons] at h1 h2 hsz
          exact congrArg (PItem.mark d :: ·) (ih g rr (by omega) (by omega))

theorem parseB_nil : parseB [] = [] := rfl

theorem parseB_match {c : Char} {r d rr : Str} (h : matchBracketAt (c :: r) = some (d, rr)) :
    parseB (c :: r) = .mark d :: parseB rr := by
  have hsz : rr.length < (c :: r).length := matchBracketAt_size h
  show parseBAux (r.length + 1) (c :: r) = _
  simp only [parseBAux, h]
  simp only [List.length_cons] at hsz
  exact congrArg (PItem.mark d :: ·) (parseBAux_congr r.length rr.length rr (by omega) le_rfl)

theorem parseB_nomatch {c : Char} {r : Str} (h : matchBracketAt (c :: r) = none) :
    parseB (c :: r) = .chr c :: parseB r := by
  show parseBAux (r.length + 1) (c :: r) = _
  simp only [parseBAux, h]
  exact congrArg (PItem.chr c :: ·) (parseBAux_congr r.length r.length r le_rfl le_rfl)

theorem linkScan_sound : ∀ {u l rr : Str}, linkScan u = some (l, rr) →
    u = l ++ ']' :: rr ∧ ']' ∉ l ∧ '\n' ∉ l := by
  intro u
  induction u with
  | nil => intro l rr h; exact absurd h (by simp [linkScan])
  | cons c rest ih =>
    intro l rr h
    rcases eq_or_ne c ']' with rfl | hc
    · rw [show linkScan (']' :: rest) = some ([], rest) from rfl] at h
      injection h with h2
      injection h2 with hl hr
      subst hl; subst hr
      exact ⟨rfl, by simp, by simp⟩
    · rcases eq_or_ne c '\n' with rfl | hn
      · rw [show linkScan ('\n' :: rest) = none from rfl] at h
        exact absurd h (by simp)
      · rw [show linkScan (c :: rest) = (linkScan rest).map (fun p => (c :: p.1, p.2)) by
          cases c <;> simp_all [linkScan]] at h
        cases hrest : linkScan rest with
        | none => rw [hrest] at h; exact absurd h (by simp)
        | some p =>
          obtain ⟨l0, rr0⟩ := p
          rw [hrest] at h
          injection h with h2
          injection h2 with hl hr
          obtain ⟨h1, h2, h3⟩ := ih hrest
          subst hl; subst hr
          refine ⟨by rw [h1]; rfl, ?_, ?_⟩
          · simp only [List.mem_cons]
            rintro (h | h)
            · exact hc h.symm
            · exact h2 h
          · simp only [List.mem_cons]
            rintro (h | h)
            · exact hn h.symm
            · exact h3 h

theorem pairAt_sound {s : Str} {d l rr : Str} (h : pairAt s = some (d, l, rr)) :
    s = d ++ '.' :: ' ' :: '[' :: (l ++ ']' :: rr) ∧ GoodDigits d ∧ ']' ∉ l := by
  unfold pairAt at h
  have hspec := sliceDigits_spec s
  split at h
  · exact absurd h (by simp)
  · next c ds u heq =>
    cases hls : linkScan u with
    | none => rw [hls] at h; exact absurd h (by simp)
    | some p =>
      obtain ⟨l0, rr0⟩ := p
      rw [hls] at h
      injection h with h2
      injection h2 with hd h3
      injection h3 with hl hr
      subst hd; subst hl; subst hr
      obtain ⟨h1, h2, _⟩ := linkScan_sound hls
      rw [heq] at hspec
      refine ⟨?_, ⟨by simp, hspec.2.1⟩, h2⟩
      conv_lhs => rw [hspec.1]
      simp only [List.cons_append]
      rw [h1]
  · exact absurd h (by simp)

theorem pairAt_size {s : Str} {d l rr : Str} (h : pairAt s = some (d, l, rr)) :
    rr.length < s.length := by
  obtain ⟨hs, _, _⟩ := pairAt_sound h
  rw [hs]
  simp
  omega

theorem findNumLinkPairsAux_congr : ∀ f1 f2 (s : Str), s.length ≤ f1 → s.length ≤ f2 →
    findNumLinkPairsAux f1 s = findNumLinkPairsAux f2 s := by
  intro f1
  induction f1 with
  | zero =>
    intro f2 s h1 _
    cases s with
    | nil => cases f2 <;> rfl
    | cons c r => simp at h1
  | succ f ih =>
    intro f2 s h1 h2
    cases s with
    | nil => cases f2 <;> rfl
    | cons c r =>
      cases f2 with
      | zero => simp at h2
      | succ g =>
        simp only [findNumLinkPairsAux]
        cases hm : pairAt (c :: r) with
        | none =>
          simp only [List.length_cons] at h1 h2
          exact ih g r (by omega) (by omega)
        | some p =>
          obtain ⟨d, l, rr⟩ := p
          have hsz : rr.length < (c :: r).length := pairAt_size hm
          simp only [List.length_cons] at h1 h2 hsz
          exact congrArg ((d, l) :: ·) (ih g rr (by omega) (by omega))

theorem findNumLinkPairs_match {c : Char} {r : Str} {d l rr : Str}
    (h : pairAt (c :: r) = some (d, l, rr)) :
    findNumLinkPairs (c :: r) = (d, l) :: findNumLinkPairs rr := by
  have hsz : rr.length < (c :: r).length := pairAt_size h
  show findNumLinkPairsAux (r.length + 1) (c :: r) = _
  simp only [findNumLinkPairsAux, h]
  simp only [List.length_cons] at hsz
  exact congrArg ((d, l) :: ·)
    (findNumLinkPairsAux_congr r.length rr.length rr (by omega) le_rfl)

theorem findNumLinkPairs_nomatch {c : Char} {r : Str} (h : pairAt (c :: r) = none) :
    findNumLinkPairs (c :: r) = findNumLinkPairs r := by
  show findNumLinkPairsAux (r.length + 1) (c :: r) = _
  simp only [findNumLinkPairsAux, h]
  exact findNumLinkPairsAux_congr r.length r.length r le_rfl le_rfl

/-- Every pair found in the references section has a nonempty digit numeral
and a bracket-free link text. -/
theorem findNumLinkPairs_wf : ∀ (s : Str) (d l : Str), (d, l) ∈ findNumLinkPairs s →
    GoodDigits d ∧ ']' ∉ l := by
  suffices H : ∀ n (s : Str), s.length = n → ∀ (d l : Str), (d, l) ∈ findNumLinkPairs s →
      GoodDigits d ∧ ']' ∉ l by
    exact fun s => H s.length s rfl
  intro n
  induction n using Nat.strong_induction_on with
  | _ n ih =>
    intro s hn
    cases s with
    | nil =>
      intro d l h
      rw [show findNumLinkPairs [] = [] from rfl] at h
      exact absurd h (by simp)
    | cons c r =>
      intro d l h
      subst hn
      cases hm : pairAt (c :: r) with
      | none =>
        rw [findNumLinkPairs_nomatch hm] at h
        exact ih r.length (by simp) r rfl d l h
      | some p =>
        obtain ⟨d0, l0, rr⟩ := p
        rw [findNumLinkPairs_match hm] at h
        rcases List.mem_cons.mp h with h | h
        · injection h with h1 h2
          subst h1; subst h2
          obtain ⟨_, hgd, hnl⟩ := pairAt_sound hm
          exact ⟨hgd, hnl⟩
        · have hsz := pairAt_size hm
          exact ih rr.length hsz rr rfl d l h

/-! ## Render/parse theory -/

theorem renderB_append : ∀ (a b : List PItem), renderB (a ++ b) = renderB a ++ renderB b := by
  intro a b
  induction a with
  | nil => rfl
  | cons i rest ih => simp [renderB, ih]

theorem renderB_parseB : ∀ s : Str, renderB (parseB s) = s := by
  suffices H : ∀ n (s : Str), s.length = n → renderB (parseB s) = s by
    exact fun s => H s.length s rfl
  intro n
  induction n using Nat.strong_induction_on with
  | _ n ih =>
    intro s hn
    cases s with
    | nil => rfl
    | cons c r =>
      subst hn
      cases hm : matchBracketAt (c :: r) with
      | none =>
        rw [parseB_nomatch hm]
        simp only [renderB, renderItem]
        rw [ih r.length (by simp) r rfl]
        rfl
      | some p =>
        obtain ⟨d, rr⟩ := p
        obtain ⟨hs, _⟩ := matchBracketAt_sound hm
        rw [parseB_match hm]
        simp only [renderB, renderItem]
        rw [ih rr.length (matchBracketAt_size hm) rr rfl, hs]

theorem wf_parseB : ∀ s : Str, WfItems (parseB s) := by
  suffices H : ∀ n (s : Str), s.length = n → WfItems (parseB s) by
    exact fun s => H s.length s rfl
  intro n
  induction n using Nat.strong_induction_on with
  | _ n ih =>
    intro s hn
    cases s with
    | nil => exact WfItems.nil
    | cons c r =>
      subst hn
      cases hm : matchBracketAt (c :: r) with
      | none =>
        rw [parseB_nomatch hm]
        refine WfItems.chr ?_ (ih r.length (by simp) r rfl)
        show matchBracketAt (renderB (PItem.chr c :: parseB r)) = none
        have : renderB (PItem.chr c :: parseB r) = c :: r := by
          simp only [renderB, renderItem]
          rw [renderB_parseB r]
          rfl
        rw [this]
        exact hm
      | some p =>
        obtain ⟨d, rr⟩ := p
        obtain ⟨_, hgd⟩ := matchBracketAt_sound hm
        rw [parseB_match hm]
        exact WfItems.mark hgd (ih rr.length (matchBracketAt_size hm) rr rfl)

theorem parseB_renderB {items : List PItem} (h : WfItems items) :
    parseB (renderB items) = items := by
  induction h with
  | nil => rfl
  | @mark d rest hd _ ih =>
    have hc := matchBracketAt_complete hd (renderB rest)
    have hr : renderB (PItem.mark d :: rest) = mrk d ++ renderB rest := rfl
    rw [hr]
    cases hmr : mrk d ++ renderB rest with
    | nil =>
      exact absurd hmr (by
        rw [mrk]
        simp [refWord])
    | cons c t =>
      rw [hmr] at hc
      rw [parseB_match hc]
      obtain ⟨hs, _⟩ := matchBracketAt_sound hc
      rw [hmr] at hs
      have : renderB rest = renderB rest := rfl
      have happ : mrk d ++ renderB rest = mrk d ++ renderB rest := rfl
      rw [ih]
  | @chr c rest hcond _ ih =>
    have hr : renderB (PItem.chr c :: rest) = c :: renderB rest := rfl
    rw [hr] at hcond ⊢
    rw [parseB_nomatch hcond, ih]

theorem mrk_noparen {d : Str} (hd : allDigits d = true) : '(' ∉ mrk d := by
  rw [mrk]
  intro hmem
  rcases List.mem_append.mp hmem with h | h
  · rcases List.mem_append.mp h with h | h
    · revert h; decide
    · have := allDigits_mem hd h
      simp at this
  · simp at h

theorem findRefs_skip_noparen : ∀ {u : Str} (x : Str), '(' ∉ u →
    findRefs (u ++ x) = findRefs x := by
  intro u
  induction u with
  | nil => intro x _; rfl
  | cons c r ih =>
    intro x h
    have hc : c ≠ '(' := fun hc => h (by rw [hc]; simp)
    rw [List.cons_append, findRefs_nomatch (matchScanAt_ne _ hc)]
    exact ih x (fun hm => h (List.mem_cons_of_mem _ hm))

/-- Splitting a rendering along a bracket-free prefix: the prefix is spelled
entirely by character items. -/
theorem render_split_chr : ∀ {w : Str}, '[' ∉ w → ∀ {items : List PItem} {r : Str},
    renderB items = w ++ r →
    ∃ pre post, items = pre ++ post ∧ (∀ i ∈ pre, ∃ ch, i = PItem.chr ch) ∧
      renderB pre = w ∧ renderB post = r := by
  intro w
  induction w with
  | nil =>
    intro _ items r h
    exact ⟨[], items, rfl, by simp, rfl, h⟩
  | cons x w' ih =>
    intro hw items r h
    cases items with
    | nil => exact absurd h (by simp [renderB])
    | cons i rest =>
      cases i with
      | chr c =>
        have hc : renderB (PItem.chr c :: rest) = c :: renderB rest := rfl
        rw [hc] at h
        injection h with h1 h2
        obtain ⟨pre, post, hsplit, hchr, hpre, hpost⟩ :=
          ih (fun hm => hw (List.mem_cons_of_mem _ hm)) h2
        refine ⟨PItem.chr c :: pre, post, by rw [hsplit]; rfl, ?_, ?_, hpost⟩
        · intro i hi
          rcases List.mem_cons.mp hi with rfl | hi
          · exact ⟨c, rfl⟩
          · exact hchr i hi
        · show c :: renderB pre = x :: w'
          rw [hpre, h1]
      | mark d =>
        have hm : renderB (PItem.mark d :: rest) = mrk d ++ renderB rest := rfl
        rw [hm, mrk, refWord_head] at h
        have : x = '[' := by
          have := congrArg (List.head? ·) h
          simpa using this.symm
        exact absurd (by rw [this]; simp : '[' ∈ x :: w') hw

theorem lb_not_mem_tail {d : Str} (hd : allDigits d = true) :
    '[' ∉ "Reference ".data ++ d ++ [']'] := by
  intro hmem
  rcases List.mem_append.mp hmem with h | h
  · rcases List.mem_append.mp h with h | h
    · revert h; decide
    · have := allDigits_mem hd h
      simp at this
  · simp at h

/-- A bracket-marker match at a character item is spelled by character items,
hence is stable under renaming the digits of markers. -/
theorem matchBracketAt_render_chr {c : Char} {items : List PItem} {d r : Str}
    (h : matchBracketAt (renderB (.chr c :: items)) = some (d, r)) :
    ∃ pre post, items = pre ++ post ∧ (∀ i ∈ pre, ∃ ch, i = PItem.chr ch) ∧
      c = '[' ∧ renderB pre = "Reference ".data ++ d ++ [']'] ∧ renderB post = r ∧
      GoodDigits d := by
  obtain ⟨hs, hgd⟩ := matchBracketAt_sound h
  have hr : renderB (PItem.chr c :: items) = c :: renderB items := rfl
  rw [hr, mrk, refWord_head] at hs
  have hc : c = '[' := by
    have := congrArg (List.head? ·) hs
    simpa using this
  have hrest : renderB items = ("Reference ".data ++ d ++ [']']) ++ r := by
    have := congrArg (List.tail ·) hs
    simpa using this
  obtain ⟨pre, post, hsplit, hchr, hpre, hpost⟩ :=
    render_split_chr (lb_not_mem_tail hgd.2) hrest
  exact ⟨pre, post, hsplit, hchr, hc, hpre, hpost, hgd⟩

theorem renameMark_chr {o e : Str} {i : PItem} {ch : Char}
    (h : renameMark o e i = PItem.chr ch) : i = PItem.chr ch := by
  cases i with
  | chr c => simpa [renameMark] using h
  | mark d =>
    simp only [renameMark] at h
    split at h <;> exact absurd h (by simp)

theorem mapMark_all_chr {o e : Str} {l : List PItem}
    (h : ∀ i ∈ l, ∃ ch, i = PItem.chr ch) : mapMark o e l = l := by
  induction l with
  | nil => rfl
  | cons i rest ih =>
    obtain ⟨ch, hch⟩ := h i (by simp)
    rw [mapMark, List.map_cons, hch]
    have : renameMark o e (PItem.chr ch) = PItem.chr ch := rfl
    rw [this]
    exact congrArg _ (ih (fun i hi => h i (List.mem_cons_of_mem _ hi)))

theorem matchBracketAt_rename_none {o e : Str} {c : Char} {items : List PItem}
    (h : matchBracketAt (renderB (.chr c :: items)) = none) :
    matchBracketAt (renderB (.chr c :: mapMark o e items)) = none := by
  by_contra hne
  cases hx : matchBracketAt (renderB (.chr c :: mapMark o e items)) with
  | none => exact hne hx
  | some p =>
    obtain ⟨d, r⟩ := p
    obtain ⟨pre, post, hsplit, hchr, hc, hpre, hpost, hgd⟩ := matchBracketAt_render_chr hx
    obtain ⟨pre0, post0, hsplit0, hpre0, hpost0⟩ := List.map_eq_append_iff.mp hsplit
    have hpre0chr : ∀ i ∈ pre0, ∃ ch, i = PItem.chr ch := by
      intro i hi
      have : renameMark o e i ∈ pre := by
        rw [← hpre0]
        exact List.mem_map_of_mem _ hi
      obtain ⟨ch, hch⟩ := hchr _ this
      exact ⟨ch, renameMark_chr hch⟩
    have hpre0eq : pre0 = pre := by
      rw [← hpre0]
      exact (mapMark_all_chr hpre0chr).symm
    have horig : renderB (PItem.chr c :: items) = mrk d ++ renderB post0 := by
      have h1 : renderB (PItem.chr c :: items) = c :: renderB pre0 ++ renderB post0 := by
        rw [hsplit0]
        show renderItem (PItem.chr c) ++ renderB (pre0 ++ post0) = _
        rw [renderB_append]
        rfl
      rw [h1, hpre0eq, hpre, hc, mrk, refWord_head]
      simp
    rw [horig, matchBracketAt_complete hgd] at h
    exact absurd h (by simp)

theorem wf_mapMark {o e : Str} (he : GoodDigits e) :
    ∀ {items : List PItem}, WfItems items → WfItems (mapMark o e items) := by
  intro items h
  induction h with
  | nil => exact WfItems.nil
  | @mark d rest hd _ ih =>
    show WfItems (renameMark o e (PItem.mark d) :: mapMark o e rest)
    simp only [renameMark]
    split
    · exact WfItems.mark he ih
    · exact WfItems.mark hd ih
  | @chr c rest hcond _ ih =>
    exact WfItems.chr (matchBracketAt_rename_none hcond) ih

theorem markDigits_mapMark (o e : Str) : ∀ items : List PItem,
    markDigits (mapMark o e items) =
      (markDigits items).map (fun d => if d = o then e else d) := by
  intro items
  induction items with
  | nil => rfl
  | cons i rest ih =>
    cases i with
    | chr c =>
      show markDigits (PItem.chr c :: mapMark o e rest) = _
      rw [show markDigits (PItem.chr c :: mapMark o e rest) =
        markDigits (mapMark o e rest) from rfl]
      rw [show markDigits (PItem.chr c :: rest) = markDigits rest from rfl]
      exact ih
    | mark d =>
      show markDigits (renameMark o e (PItem.mark d) :: mapMark o e rest) = _
      by_cases hod : d = o
      · rw [show renameMark o e (PItem.mark d) = PItem.mark e by simp [renameMark, hod]]
        rw [show markDigits (PItem.mark e :: mapMark o e rest) =
          e :: markDigits (mapMark o e rest) from rfl]
        rw [show markDigits (PItem.mark d :: rest) = d :: markDigits rest from rfl]
        rw [List.map_cons, if_pos hod, ih]
      · rw [show renameMark o e (PItem.mark d) = PItem.mark d by simp [renameMark, hod]]
        rw [show markDigits (PItem.mark d :: mapMark o e rest) =
          d :: markDigits (mapMark o e rest) from rfl]
        rw [show markDigits (PItem.mark d :: rest) = d :: markDigits rest from rfl]
        rw [List.map_cons, if_neg hod, ih]

theorem scanItems_mapMark (o e : Str) : ∀ items : List PItem,
    scanItems (mapMark o e items) =
      (scanItems items).map (fun d => if d = o then e else d) := by
  suffices H : ∀ n (items : List PItem), items.length = n →
      scanItems (mapMark o e items) =
        (scanItems items).map (fun d => if d = o then e else d) by
    exact fun items => H items.length items rfl
  intro n
  induction n using Nat.strong_induction_on with
  | _ n ih =>
    intro items hn
    cases items with
    | nil => rfl
    | cons i rest =>
      subst hn
      cases i with
      | mark d =>
        show scanItems (renameMark o e (PItem.mark d) :: mapMark o e rest) = _
        have hrest := ih rest.length (by simp) rest rfl
        simp only [renameMark]
        split
        · show scanItems (PItem.mark e :: mapMark o e rest) = _
          rw [show scanItems (PItem.mark e :: mapMark o e rest) =
            scanItems (mapMark o e rest) from rfl]
          rw [show scanItems (PItem.mark d :: rest) = scanItems rest from rfl]
          exact hrest
        · rw [show scanItems (PItem.mark d :: mapMark o e rest) =
            scanItems (mapMark o e rest) from rfl]
          rw [show scanItems (PItem.mark d :: rest) = scanItems rest from rfl]
          exact hrest
      | chr c =>
        cases rest with
        | nil => rfl
        | cons j rest2 =>
          cases j with
          | mark d =>
            show scanItems (PItem.chr c :: renameMark o e (PItem.mark d) :: mapMark o e rest2) = _
            have hrest := ih rest2.length (by simp only [List.length_cons]; omega) rest2 rfl
            simp only [renameMark]
            split
            · rw [show scanItems (PItem.chr c :: PItem.mark e :: mapMark o e rest2) =
                if c = '(' then e :: scanItems (mapMark o e rest2)
                else scanItems (mapMark o e rest2) from rfl]
              rw [show scanItems (PItem.chr c :: PItem.mark d :: rest2) =
                if c = '(' then d :: scanItems rest2 else scanItems rest2 from rfl]
              by_cases hc : c = '('
              · next hod =>
                rw [if_pos hc, if_pos hc, List.map_cons, if_pos hod]
                exact congrArg (e :: ·) hrest
              · rw [if_neg hc, if_neg hc]
                exact hrest
            · next hod =>
              rw [show scanItems (PItem.chr c :: PItem.mark d :: mapMark o e rest2) =
                if c = '(' then d :: scanItems (mapMark o e rest2)
                else scanItems (mapMark o e rest2) from rfl]
              rw [show scanItems (PItem.chr c :: PItem.mark d :: rest2) =
                if c = '(' then d :: scanItems rest2 else scanItems rest2 from rfl]
              by_cases hc : c = '('
              · rw [if_pos hc, if_pos hc, List.map_cons, if_neg hod]
                exact congrArg (d :: ·) hrest
              · rw [if_neg hc, if_neg hc]
                exact hrest
          | chr c2 =>
            show scanItems (PItem.chr c :: PItem.chr c2 :: mapMark o e rest2) = _
            rw [show scanItems (PItem.chr c :: PItem.chr c2 :: mapMark o e rest2) =
              scanItems (PItem.chr c2 :: mapMark o e rest2) from rfl]
            rw [show scanItems (PItem.chr c :: PItem.chr c2 :: rest2) =
              scanItems (PItem.chr c2 :: rest2) from rfl]
            exact ih (PItem.chr c2 :: rest2).length (by simp only [List.length_cons]; omega) _ rfl

theorem findMarks_eq_markDigits : ∀ {items : List PItem}, WfItems items →
    findMarks (renderB items) = markDigits items := by
  intro items h
  induction h with
  | nil => rfl
  | @mark d rest hd _ ih =>
    have hc := matchBracketAt_complete hd (renderB rest)
    have hr : renderB (PItem.mark d :: rest) = mrk d ++ renderB rest := rfl
    rw [hr]
    cases hmr : mrk d ++ renderB rest with
    | nil => exact absurd hmr (by rw [mrk]; simp [refWord])
    | cons c t =>
      rw [hmr] at hc
      rw [findMarks_match hc, ih]
      rfl
  | @chr c rest hcond _ ih =>
    have hr : renderB (PItem.chr c :: rest) = c :: renderB rest := rfl
    rw [hr] at hcond ⊢
    rw [findMarks_nomatch hcond, ih]
    rfl

theorem findRefs_eq_scanItems : ∀ {items : List PItem}, WfItems items →
    findRefs (renderB items) = scanItems items := by
  suffices H : ∀ n (items : List PItem), items.length = n → WfItems items →
      findRefs (renderB items) = scanItems items by
    exact fun {items} h => H items.length items rfl h
  intro n
  induction n using Nat.strong_induction_on with
  | _ n ih =>
    intro items hn hwf
    cases items with
    | nil => rfl
    | cons i rest =>
      subst hn
      cases i with
      | mark d =>
        have hgd : GoodDigits d := by cases hwf with | mark hd _ => exact hd
        have hwr : WfItems rest := by cases hwf with | mark _ hr => exact hr
        have hr : renderB (PItem.mark d :: rest) = mrk d ++ renderB rest := rfl
        rw [hr, findRefs_skip_noparen _ (mrk_noparen hgd.2)]
        rw [show scanItems (PItem.mark d :: rest) = scanItems rest from rfl]
        exact ih rest.length (by simp) rest rfl hwr
      | chr c =>
        have hwr : WfItems rest := by cases hwf with | chr _ hr => exact hr
        cases rest with
        | nil =>
          rcases eq_or_ne c '(' with rfl | hc
          · rfl
          · rw [show renderB [PItem.chr c] = [c] from rfl,
              findRefs_nomatch (matchScanAt_ne _ hc)]
            rfl
        | cons j rest2 =>
          cases j with
          | mark d =>
            have hgd : GoodDigits d := by cases hwr with | mark hd _ => exact hd
            have hwr2 : WfItems rest2 := by cases hwr with | mark _ hr => exact hr
            have hr : renderB (PItem.chr c :: PItem.mark d :: rest2) =
                c :: (mrk d ++ renderB rest2) := rfl
            rw [hr]
            rw [show scanItems (PItem.chr c :: PItem.mark d :: rest2) =
              if c = '(' then d :: scanItems rest2 else scanItems rest2 from rfl]
            rcases eq_or_ne c '(' with rfl | hc
            · rw [findRefs_match (matchScanAt_complete hgd (renderB rest2)), if_pos rfl]
              exact congrArg (d :: ·)
                (ih rest2.length (by simp only [List.length_cons]; omega) rest2 rfl hwr2)
            · rw [findRefs_nomatch (matchScanAt_ne _ hc), if_neg hc]
              have : findRefs (mrk d ++ renderB rest2) = findRefs (renderB rest2) :=
                findRefs_skip_noparen _ (mrk_noparen hgd.2)
              rw [this]
              exact ih rest2.length (by simp only [List.length_cons]; omega) rest2 rfl hwr2
          | chr c2 =>
            have hr : renderB (PItem.chr c :: PItem.chr c2 :: rest2) =
                c :: renderB (PItem.chr c2 :: rest2) := rfl
            rw [hr]
            rw [show scanItems (PItem.chr c :: PItem.chr c2 :: rest2) =
              scanItems (PItem.chr c2 :: rest2) from rfl]
            have hnm : matchScanAt (c :: renderB (PItem.chr c2 :: rest2)) = none := by
              rcases eq_or_ne c '(' with rfl | hc
              · rw [matchScanAt_paren]
                cases hwr with | chr hcond _ => exact hcond
              · exact matchScanAt_ne _ hc
            rw [findRefs_nomatch hnm]
            exact ih (PItem.chr c2 :: rest2).length
              (by simp only [List.length_cons]; omega) _ rfl hwr

theorem allScanned_mapMark (o e : Str) : ∀ items : List PItem,
    allScanned (mapMark o e items) = allScanned items := by
  suffices H : ∀ n (items : List PItem), items.length = n →
      allScanned (mapMark o e items) = allScanned items by
    exact fun items => H items.length items rfl
  intro n
  induction n using Nat.strong_induction_on with
  | _ n ih =>
    intro items hn
    cases items with
    | nil => rfl
    | cons i rest =>
      subst hn
      cases i with
      | mark d =>
        show allScanned (renameMark o e (PItem.mark d) :: mapMark o e rest) = _
        by_cases hod : d = o
        · rw [show renameMark o e (PItem.mark d) = PItem.mark e by simp [renameMark, hod]]
          rfl
        · rw [show renameMark o e (PItem.mark d) = PItem.mark d by simp [renameMark, hod]]
          rfl
      | chr c =>
        cases rest with
        | nil => rfl
        | cons j rest2 =>
          cases j with
          | mark d =>
            show allScanned (PItem.chr c :: renameMark o e (PItem.mark d) :: mapMark o e rest2) = _
            have hrest := ih rest2.length (by simp only [List.length_cons]; omega) rest2 rfl
            by_cases hod : d = o
            · rw [show renameMark o e (PItem.mark d) = PItem.mark e by simp [renameMark, hod]]
              rw [show allScanned (PItem.chr c :: PItem.mark e :: mapMark o e rest2) =
                ((c = '(' : Bool) && allScanned (mapMark o e rest2)) from rfl]
              rw [show allScanned (PItem.chr c :: PItem.mark d :: rest2) =
                ((c = '(' : Bool) && allScanned rest2) from rfl]
              rw [hrest]
            · rw [show renameMark o e (PItem.mark d) = PItem.mark d by simp [renameMark, hod]]
              rw [show allScanned (PItem.chr c :: PItem.mark d :: mapMark o e rest2) =
                ((c = '(' : Bool) && allScanned (mapMark o e rest2)) from rfl]
              rw [show allScanned (PItem.chr c :: PItem.mark d :: rest2) =
                ((c = '(' : Bool) && allScanned rest2) from rfl]
              rw [hrest]
          | chr c2 =>
            show allScanned (PItem.chr c :: PItem.chr c2 :: mapMark o e rest2) = _
            rw [show allScanned (PItem.chr c :: PItem.chr c2 :: mapMark o e rest2) =
              allScanned (PItem.chr c2 :: mapMark o e rest2) from rfl]
            rw [show allScanned (PItem.chr c :: PItem.chr c2 :: rest2) =
              allScanned (PItem.chr c2 :: rest2) from rfl]
            exact ih (PItem.chr c2 :: rest2).length (by simp only [List.length_cons]; omega) _ rfl

/-- When every marker is scanned, the marker digits are exactly the scanned
digits. -/
theorem markDigits_eq_scanItems_of_allScanned : ∀ {items : List PItem},
    allScanned items = true → markDigits items = scanItems items := by
  suffices H : ∀ n (items : List PItem), items.length = n → allScanned items = true →
      markDigits items = scanItems items by
    exact fun {items} h => H items.length items rfl h
  intro n
  induction n using Nat.strong_induction_on with
  | _ n ih =>
    intro items hn hsc
    cases items with
    | nil => rfl
    | cons i rest =>
      subst hn
      cases i with
      | mark d =>
        exact absurd hsc (by rw [show allScanned (PItem.mark d :: rest) = false from rfl]; simp)
      | chr c =>
        cases rest with
        | nil => rfl
        | cons j rest2 =>
          cases j with
          | mark d =>
            rw [show allScanned (PItem.chr c :: PItem.mark d :: rest2) =
              ((c = '(' : Bool) && allScanned rest2) from rfl] at hsc
            obtain ⟨hc, hsc2⟩ := Bool.and_eq_true .. |>.mp hsc
            rw [show markDigits (PItem.chr c :: PItem.mark d :: rest2) =
              d :: markDigits rest2 from rfl]
            rw [show scanItems (PItem.chr c :: PItem.mark d :: rest2) =
              if c = '(' then d :: scanItems rest2 else scanItems rest2 from rfl]
            rw [if_pos (by simpa using hc)]
            exact congrArg (d :: ·)
              (ih rest2.length (by simp only [List.length_cons]; omega) rest2 rfl hsc2)
          | chr c2 =>
            rw [show allScanned (PItem.chr c :: PItem.chr c2 :: rest2) =
              allScanned (PItem.chr c2 :: rest2) from rfl] at hsc
            rw [show markDigits (PItem.chr c :: PItem.chr c2 :: rest2) =
              markDigits (PItem.chr c2 :: rest2) from rfl]
            rw [show scanItems (PItem.chr c :: PItem.chr c2 :: rest2) =
              scanItems (PItem.chr c2 :: rest2) from rfl]
            exact ih (PItem.chr c2 :: rest2).length
              (by simp only [List.length_cons]; omega) _ rfl hsc

/-! ## The inline replacement loop acts marker-wise -/

theorem ne_of_digit_of_not {x y : Char} (hx : x.isDigit = true) (hy : y.isDigit = false) :
    x ≠ y := fun h => by
  rw [h, hy] at hx
  exact Bool.false_ne_true hx

theorem startsWith_digits_bracket {a b : Str} (ha : allDigits a = true)
    (hb : allDigits b = true) (hab : a ≠ b) (u v : Str) :
    startsWith (a ++ ']' :: u) (b ++ ']' :: v) = false := by
  induction a generalizing b with
  | nil =>
    cases b with
    | nil => exact absurd rfl hab
    | cons hb' b' =>
      have : ((']' : Char)).isDigit = false := by decide
      exact startsWith_head_ne
        (Ne.symm (ne_of_digit_of_not (allDigits_mem hb (by simp)) this))
  | cons ha' a' ih =>
    cases b with
    | nil =>
      have : ((']' : Char)).isDigit = false := by decide
      exact startsWith_head_ne (ne_of_digit_of_not (allDigits_mem ha (by simp)) this)
    | cons hb' b' =>
      rcases eq_or_ne ha' hb' with rfl | hne
      · have ha2 : allDigits a' = true := by
          simp only [allDigits, List.all_cons, Bool.and_eq_true] at ha
          exact ha.2
        have hb2 : allDigits b' = true := by
          simp only [allDigits, List.all_cons, Bool.and_eq_true] at hb
          exact hb.2
        have hab2 : a' ≠ b' := fun h => hab (by rw [h])
        simp only [List.cons_append, startsWith]
        simp [ih ha2 hb2 hab2]
      · exact startsWith_head_ne hne

theorem startsWith_digits_mid {a b : Str} {x y : Char} (ha : allDigits a = true)
    (hb : allDigits b = true) (hx : x.isDigit = false) (hy : y.isDigit = false)
    (hxy : x ≠ y) (u v : Str) :
    startsWith (a ++ x :: u) (b ++ y :: v) = false := by
  induction a generalizing b with
  | nil =>
    cases b with
    | nil => exact startsWith_head_ne hxy
    | cons hb' b' =>
      exact startsWith_head_ne (Ne.symm (ne_of_digit_of_not (allDigits_mem hb (by simp)) hx))
  | cons ha' a' ih =>
    cases b with
    | nil =>
      exact startsWith_head_ne (ne_of_digit_of_not (allDigits_mem ha (by simp)) hy)
    | cons hb' b' =>
      rcases eq_or_ne ha' hb' with rfl | hne
      · have ha2 : allDigits a' = true := by
          simp only [allDigits, List.all_cons, Bool.and_eq_true] at ha
          exact ha.2
        have hb2 : allDigits b' = true := by
          simp only [allDigits, List.all_cons, Bool.and_eq_true] at hb
          exact hb.2
        simp only [List.cons_append, startsWith]
        simp [ih ha2 hb2]
      · exact startsWith_head_ne hne

theorem mrk_head (d : Str) : mrk d = '[' :: ("Reference ".data ++ (d ++ [']'])) := by
  rw [mrk, refWord_head]
  simp

theorem mrk_ne_nil (d : Str) : mrk d ≠ [] := by
  rw [mrk_head]
  simp

theorem startsWith_mrk_mrk {o d : Str} (ho : allDigits o = true) (hd : allDigits d = true)
    (hod : o ≠ d) (x : Str) : startsWith (mrk o) (mrk d ++ x) = false := by
  have h1 : mrk o = refWord ++ (o ++ ']' :: ([] : Str)) := by rw [mrk]; simp
  have h2 : mrk d ++ x = refWord ++ (d ++ ']' :: x) := by rw [mrk]; simp
  rw [h1, h2, startsWith_both]
  exact startsWith_digits_bracket ho hd hod [] x

theorem replaceAll_skip_nolb {o : Str} (rep : Str) {u : Str} (hu : '[' ∉ u) (t : Str) :
    replaceAll (mrk o) rep (u ++ t) = u ++ replaceAll (mrk o) rep t := by
  apply replaceAll_append_skip
  intro i hi
  rw [List.drop_eq_getElem_cons hi, List.cons_append, mrk_head]
  exact startsWith_head_ne (fun h => hu (h ▸ List.getElem_mem hi))

/-- One inline `str.replace(f'[Reference {o}]', f'[Reference {e}]')` renames
exactly the markers carrying digits `o`. -/
theorem replaceAll_render {o e : Str} (ho : GoodDigits o) :
    ∀ {items : List PItem}, WfItems items →
    replaceAll (mrk o) (mrk e) (renderB items) = renderB (mapMark o e items) := by
  intro items h
  induction h with
  | nil => rfl
  | @mark d rest hd _ ih =>
    have hr : renderB (PItem.mark d :: rest) = mrk d ++ renderB rest := rfl
    rw [hr]
    rcases eq_or_ne d o with rfl | hod
    · cases hmr : mrk d ++ renderB rest with
      | nil => exact absurd hmr (by rw [mrk_head]; simp)
      | cons c t =>
        rw [← hmr]
        have hsw : startsWith (mrk d) (mrk d ++ renderB rest) = true := startsWith_append _ _
        rw [hmr] at hsw
        rw [hmr, replaceAll_cons_pos _ (mrk_ne_nil d) hsw, ← hmr, List.drop_left, ih]
        show mrk e ++ renderB (mapMark d e rest) =
          renderB (renameMark d e (PItem.mark d) :: mapMark d e rest)
        rw [show renameMark d e (PItem.mark d) = PItem.mark e by simp [renameMark]]
        rfl
    · rw [mrk_head d, List.cons_append]
      have hnolb : '[' ∉ ("Reference ".data ++ (d ++ [']'])) := by
        intro hmem
        rcases List.mem_append.mp hmem with h | h
        · revert h; decide
        · rcases List.mem_append.mp h with h | h
          · have := allDigits_mem hd.2 h
            simp at this
          · simp at h
      have hneg : ¬(mrk o ≠ [] ∧
          startsWith (mrk o) ('[' :: (("Reference ".data ++ (d ++ [']'])) ++ renderB rest)) = true) := by
        rintro ⟨-, hsw⟩
        rw [show ('[' : Char) :: (("Reference ".data ++ (d ++ [']'])) ++ renderB rest) =
          mrk d ++ renderB rest by rw [mrk_head]; simp] at hsw
        rw [startsWith_mrk_mrk ho.2 hd.2 (Ne.symm hod)] at hsw
        exact Bool.false_ne_true hsw
      rw [replaceAll_cons_neg _ hneg]
      rw [replaceAll_skip_nolb _ hnolb, ih]
      rw [show mapMark o e (PItem.mark d :: rest) =
        renameMark o e (PItem.mark d) :: mapMark o e rest from rfl]
      rw [show renameMark o e (PItem.mark d) = PItem.mark d by simp [renameMark, hod]]
      rw [show renderB (PItem.mark d :: mapMark o e rest) =
        mrk d ++ renderB (mapMark o e rest) from rfl, mrk_head]
      simp
  | @chr c rest hcond _ ih =>
    have hr : renderB (PItem.chr c :: rest) = c :: renderB rest := rfl
    rw [hr]
    have hneg : ¬(mrk o ≠ [] ∧ startsWith (mrk o) (c :: renderB rest) = true) := by
      rintro ⟨-, hsw⟩
      obtain ⟨t, ht⟩ := startsWith_iff.mp hsw
      have := matchBracketAt_complete ho t
      rw [← ht] at this
      rw [hr] at hcond
      rw [hcond] at this
      exact Option.noConfusion this
    rw [replaceAll_cons_neg _ hneg, ih]
    rfl

/-! ## The references-section rewrite does not disturb the markers -/

/-- If no nonempty suffix of `w` is prefix-compatible with the replacement
string `q`, then `w` being a prefix of `replaceAll pat q s` forces it to be a
prefix of `s`. -/
theorem startsWith_replaceAll_transfer (pat q : Str) :
    ∀ n (s w : Str), s.length = n →
      (∀ w', w' ≠ [] → w' <:+ w → startsWith w' q = false ∧ startsWith q w' = false) →
      startsWith w (replaceAll pat q s) = true → startsWith w s = true := by
  intro n
  induction n using Nat.strong_induction_on with
  | _ n ih =>
    intro s w hn hq hsw
    cases w with
    | nil => rfl
    | cons x w' =>
      cases s with
      | nil =>
        rw [replaceAll_nil] at hsw
        exact absurd hsw (by simp [startsWith])
      | cons c rest =>
        subst hn
        by_cases hp : pat ≠ [] ∧ startsWith pat (c :: rest) = true
        · rw [replaceAll_cons_pos _ hp.1 hp.2] at hsw
          rcases startsWith_split hsw with h | h
          · rw [(hq (x :: w') (by simp) (List.suffix_refl _)).1] at h
            exact absurd h (by simp)
          · rw [(hq (x :: w') (by simp) (List.suffix_refl _)).2] at h
            exact absurd h (by simp)
        · rw [replaceAll_cons_neg _ hp] at hsw
          simp only [startsWith, Bool.and_eq_true, decide_eq_true_eq] at hsw ⊢
          refine ⟨hsw.1, ?_⟩
          cases w' with
          | nil => rfl
          | cons y w'' =>
            exact ih rest.length (by simp) rest (y :: w'') rfl
              (fun v hv hsuf => hq v hv (hsuf.trans (List.suffix_cons x _)))
              hsw.2

/-- Nonempty suffixes of a marker either start with a non-digit or consist of
a digit run followed by the closing bracket. -/
theorem suffix_mrk {d : Str} (hd : allDigits d = true) :
    ∀ {w' : Str}, w' ≠ [] → w' <:+ mrk d →
      (∃ z w'', w' = z :: w'' ∧ z.isDigit = false) ∨
      (∃ d₂, allDigits d₂ = true ∧ w' = d₂ ++ [']']) := by
  intro w' hne hsuf
  obtain ⟨p, hp⟩ := hsuf
  rw [show mrk d = (refWord ++ d) ++ [']'] by rw [mrk]] at hp
  rcases List.append_eq_append_iff.mp hp with ⟨a', ha1, ha2⟩ | ⟨c', hc1, hc2⟩
  · -- w' = a' ++ [']'] with refWord ++ d = p ++ a'
    rcases List.append_eq_append_iff.mp ha1.symm with ⟨b', hb1, hb2⟩ | ⟨e', he1, he2⟩
    · -- refWord = p ++ b', a' = b' ++ d
      cases b' with
      | nil =>
        right
        exact ⟨d, hd, by rw [ha2, hb2]; simp⟩
      | cons z b'' =>
        left
        have hz : z ∈ refWord := by
          rw [hb1]; simp
        have hrw : ∀ c ∈ refWord, c.isDigit = false := by decide
        exact ⟨z, b'' ++ d ++ [']'], by rw [ha2, hb2]; simp, hrw z hz⟩
    · -- p = refWord ++ e', d = e' ++ a'
      right
      refine ⟨a', ?_, ha2⟩
      rw [he2, allDigits_append] at hd
      exact (Bool.and_eq_true .. |>.mp hd).2
  · -- p = (refWord ++ d) ++ c', [']'] = c' ++ w'
    cases c' with
    | nil =>
      right
      exact ⟨[], rfl, by simpa using hc2.symm⟩
    | cons z c'' =>
      exfalso
      rw [List.cons_append] at hc2
      injection hc2 with h1 h2
      exact hne (List.append_eq_nil.mp h2.symm).2

theorem suffix_scanB {d : Str} (hd : allDigits d = true) :
    ∀ {w' : Str}, w' ≠ [] → w' <:+ '(' :: mrk d →
      (∃ z w'', w' = z :: w'' ∧ z.isDigit = false) ∨
      (∃ d₂, allDigits d₂ = true ∧ w' = d₂ ++ [']']) := by
  intro w' hne hsuf
  obtain ⟨p, hp⟩ := hsuf
  cases p with
  | nil =>
    left
    refine ⟨'(', mrk d, by simpa using hp, by decide⟩
  | cons z p' =>
    injection hp with h1 h2
    exact suffix_mrk hd hne ⟨p', h2⟩

/-- No nonempty suffix of a marker is prefix-compatible with a
references-section replacement string. -/
theorem noq_mrk_sec {d b l : Str} (hd : GoodDigits d) (hb : GoodDigits b) :
    ∀ w', w' ≠ [] → w' <:+ mrk d →
      startsWith w' (secPat b l) = false ∧ startsWith (secPat b l) w' = false := by
  intro w' hne hsuf
  obtain ⟨hb0, hbd⟩ := hb
  obtain ⟨z0, b', rfl⟩ : ∃ z0 b', b = z0 :: b' := by
    cases b with
    | nil => exact absurd rfl hb0
    | cons x y => exact ⟨x, y, rfl⟩
  have hz0 : z0.isDigit = true := allDigits_mem hbd (by simp)
  rcases suffix_mrk hd.2 hne hsuf with ⟨z, w'', rfl, hz⟩ | ⟨d₂, hd₂, rfl⟩
  · constructor
    · rw [show secPat (z0 :: b') l = z0 :: (b' ++ ('.' :: ' ' :: '[' :: (l ++ [']']))) by
        simp [secPat]]
      exact startsWith_head_ne (ne_of_digit_of_not hz0 hz).symm
    · rw [show secPat (z0 :: b') l = z0 :: (b' ++ ('.' :: ' ' :: '[' :: (l ++ [']']))) by
        simp [secPat]]
      exact startsWith_head_ne (ne_of_digit_of_not hz0 hz)
  · constructor
    · rw [show secPat (z0 :: b') l = (z0 :: b') ++ ('.' :: (' ' :: '[' :: (l ++ [']']))) by
        simp [secPat],
        show d₂ ++ [']'] = d₂ ++ ']' :: [] from rfl]
      exact startsWith_digits_mid hd₂ hbd (by decide) (by decide) (by decide) _ _
    · rw [show secPat (z0 :: b') l = (z0 :: b') ++ ('.' :: (' ' :: '[' :: (l ++ [']']))) by
        simp [secPat],
        show d₂ ++ [']'] = d₂ ++ ']' :: [] from rfl]
      exact startsWith_digits_mid hbd hd₂ (by decide) (by decide) (by decide) _ _

/-- A bracket-marker match survives undoing a references-section
replacement. -/
theorem matchBracketAt_replace_transfer {pat b l s : Str} (hb : GoodDigits b)
    {d r : Str} (h : matchBracketAt (replaceAll pat (secPat b l) s) = some (d, r)) :
    ∃ r₀, matchBracketAt s = some (d, r₀) := by
  obtain ⟨hs, hd⟩ := matchBracketAt_sound h
  have hsw : startsWith (mrk d) (replaceAll pat (secPat b l) s) = true := by
    rw [hs]; exact startsWith_append _ _
  have htr := startsWith_replaceAll_transfer pat (secPat b l) s.length s (mrk d) rfl
    (fun w' hne hsuf => noq_mrk_sec hd hb w' hne hsuf) hsw
  obtain ⟨t, ht⟩ := startsWith_iff.mp htr
  exact ⟨t, by rw [ht]; exact matchBracketAt_complete hd t⟩

/-- `replaceAll` with a section pattern passes through a scanned marker. -/
theorem replaceAll_sec_skip_scanB {a b l d : Str} (ha : GoodDigits a)
    (hd : GoodDigits d) (x : Str) :
    replaceAll (secPat a l) (secPat b l) (('(' :: mrk d) ++ x) =
      ('(' :: mrk d) ++ replaceAll (secPat a l) (secPat b l) x := by
  obtain ⟨ha0, had⟩ := ha
  obtain ⟨z0, a', rfl⟩ : ∃ z0 a', a = z0 :: a' := by
    cases a with
    | nil => exact absurd rfl ha0
    | cons x y => exact ⟨x, y, rfl⟩
  have hz0 : z0.isDigit = true := allDigits_mem had (by simp)
  apply replaceAll_append_skip
  intro i hi
  have hsuf : ('(' :: mrk d).drop i <:+ '(' :: mrk d := List.drop_suffix i _
  have hnej : ('(' :: mrk d).drop i ≠ [] := by
    have hlen : (('(' :: mrk d).drop i).length = ('(' :: mrk d).length - i :=
      List.length_drop _ _
    intro hnil
    rw [hnil] at hlen
    simp only [List.length_nil] at hlen
    omega
  obtain ⟨z, w'', hzw, hz⟩ | ⟨d₂, hd₂, hw⟩ := suffix_scanB hd.2 hnej hsuf
  · rw [hzw]
    rw [show secPat (z0 :: a') l = z0 :: (a' ++ ('.' :: ' ' :: '[' :: (l ++ [']']))) by
      simp [secPat]]
    exact startsWith_head_ne (ne_of_digit_of_not hz0 hz)
  · rw [hw]
    rw [show (d₂ ++ [']']) ++ x = d₂ ++ ']' :: x by simp]
    rw [show secPat (z0 :: a') l = (z0 :: a') ++ ('.' :: (' ' :: '[' :: (l ++ [']']))) by
      simp [secPat]]
    exact startsWith_digits_mid had hd₂ (by decide) (by decide) (by decide) _ _

/-- Same, for a bare marker. -/
theorem replaceAll_sec_skip_mrk {a b l d : Str} (ha : GoodDigits a)
    (hd : GoodDigits d) (x : Str) :
    replaceAll (secPat a l) (secPat b l) (mrk d ++ x) =
      mrk d ++ replaceAll (secPat a l) (secPat b l) x := by
  obtain ⟨ha0, had⟩ := ha
  obtain ⟨z0, a', rfl⟩ : ∃ z0 a', a = z0 :: a' := by
    cases a with
    | nil => exact absurd rfl ha0
    | cons x y => exact ⟨x, y, rfl⟩
  have hz0 : z0.isDigit = true := allDigits_mem had (by simp)
  apply replaceAll_append_skip
  intro i hi
  have hsuf : (mrk d).drop i <:+ mrk d := List.drop_suffix i _
  have hnej : (mrk d).drop i ≠ [] := by
    have hlen : ((mrk d).drop i).length = (mrk d).length - i := List.length_drop _ _
    intro hnil
    rw [hnil] at hlen
    simp only [List.length_nil] at hlen
    omega
  obtain ⟨z, w'', hzw, hz⟩ | ⟨d₂, hd₂, hw⟩ := suffix_mrk hd.2 hnej hsuf
  · rw [hzw]
    rw [show secPat (z0 :: a') l = z0 :: (a' ++ ('.' :: ' ' :: '[' :: (l ++ [']']))) by
      simp [secPat]]
    exact startsWith_head_ne (ne_of_digit_of_not hz0 hz)
  · rw [hw]
    rw [show (d₂ ++ [']']) ++ x = d₂ ++ ']' :: x by simp]
    rw [show secPat (z0 :: a') l = (z0 :: a') ++ ('.' :: (' ' :: '[' :: (l ++ [']']))) by
      simp [secPat]]
    exact startsWith_digits_mid had hd₂ (by decide) (by decide) (by decide) _ _

theorem rb_not_mem_refWord_digits {d : Str} (hd : allDigits d = true) :
    ']' ∉ refWord ++ d := by
  intro hmem
  rcases List.mem_append.mp hmem with h | h
  · revert h; decide
  · have := allDigits_mem hd h
    simp at this

/-- A scan token splits as interior plus closing bracket. -/
theorem scanB_split (d : Str) : ('(' : Char) :: mrk d = ('(' :: (refWord ++ d)) ++ [']'] := by
  rw [mrk]; simp

/-- Scanning distributes over a concatenation whose first part ends in `]`:
no scan match can span the boundary, because a match contains `]` only as its
final character. -/
theorem findRefs_concat : ∀ n (u₀ : Str), u₀.length = n → ∀ x : Str,
    findRefs ((u₀ ++ [']']) ++ x) = findRefs (u₀ ++ [']']) ++ findRefs x := by
  intro n
  induction n using Nat.strong_induction_on with
  | _ n ih =>
    intro u₀ hn x
    subst hn
    cases hm : matchScanAt ((u₀ ++ [']']) ++ x) with
    | some p =>
      obtain ⟨d, r⟩ := p
      obtain ⟨hs, hd⟩ := matchScanAt_sound hm
      rw [show ('(' : Char) :: (mrk d ++ r) = ('(' :: mrk d) ++ r from rfl] at hs
      have hW : ']' ∉ ('(' : Char) :: (refWord ++ d) := by
        intro hmem
        rcases List.mem_cons.mp hmem with h | h
        · exact absurd h (by decide)
        · exact rb_not_mem_refWord_digits hd.2 h
      rcases List.append_eq_append_iff.mp hs with ⟨a', ha1, ha2⟩ | ⟨c', hc1, hc2⟩
      · cases a' with
        | nil =>
          simp only [List.append_nil] at ha1 ha2
          subst ha2
          have hmu : matchScanAt (u₀ ++ [']']) = some (d, []) := by
            rw [← ha1, show ('(' : Char) :: mrk d = '(' :: (mrk d ++ []) by simp]
            exact matchScanAt_complete hd []
          cases hu0 : u₀ ++ [']'] with
          | nil => exact absurd hu0 (by simp)
          | cons c0 t0 =>
            rw [hu0] at hm hmu
            simp only [List.cons_append] at hm ⊢
            rw [findRefs_match hm, findRefs_match hmu, findRefs_nil]
            rfl
        | cons z a'' =>
          exfalso
          rw [scanB_split, show (u₀ ++ [']']) ++ z :: a'' = u₀ ++ (']' :: z :: a'') by
            simp] at ha1
          rcases List.append_eq_append_iff.mp ha1 with ⟨q, hq1, hq2⟩ | ⟨q, hq1, hq2⟩
          · have := congrArg List.length hq2
            simp only [List.length_append, List.length_cons, List.length_nil] at this
            omega
          · cases q with
            | nil =>
              have := congrArg List.length hq2
              simp only [List.nil_append, List.length_append, List.length_cons,
                List.length_nil] at this
              omega
            | cons q0 qr =>
              have hq0 : q0 = ']' := by
                rw [List.cons_append] at hq2
                injection hq2 with h1 _
                exact h1.symm
              apply hW
              rw [hq1, hq0]
              exact List.mem_append.mpr (Or.inr (by simp))
      · have hmu : matchScanAt (u₀ ++ [']']) = some (d, c') := by
          rw [hc1, show (('(' : Char) :: mrk d) ++ c' = '(' :: (mrk d ++ c') from rfl]
          exact matchScanAt_complete hd c'
        by_cases hcnil : c' = []
        · subst hcnil
          cases hu0 : u₀ ++ [']'] with
          | nil => exact absurd hu0 (by simp)
          | cons c0 t0 =>
            rw [hu0] at hm hmu
            simp only [List.cons_append] at hm ⊢
            rw [findRefs_match hm, findRefs_match hmu, findRefs_nil, hc2]
            rfl
        · obtain ⟨c₀, hc₀, hlen⟩ : ∃ c₀, c' = c₀ ++ [']'] ∧ c₀.length < u₀.length := by
            rw [scanB_split, show (('(' :: (refWord ++ d)) ++ [']']) ++ c' =
              ('(' :: (refWord ++ d)) ++ (']' :: c') by simp] at hc1
            rcases List.append_eq_append_iff.mp hc1 with ⟨q, hq1, hq2⟩ | ⟨q, hq1, hq2⟩
            · exfalso
              have := congrArg List.length hq2
              simp only [List.length_append, List.length_cons, List.length_nil] at this
              exact hcnil (List.length_eq_zero.mp (by omega))
            · cases q with
              | nil =>
                exfalso
                have := congrArg List.length hq2
                simp only [List.nil_append, List.length_append, List.length_cons,
                  List.length_nil] at this
                exact hcnil (List.length_eq_zero.mp (by omega))
              | cons q0 qr =>
                rw [List.cons_append] at hq2
                injection hq2 with h1 h2
                refine ⟨qr, h2, ?_⟩
                have := congrArg List.length hq1
                simp only [List.length_append, List.length_cons] at this
                omega
          cases hu0 : u₀ ++ [']'] with
          | nil => exact absurd hu0 (by simp)
          | cons c0 t0 =>
            rw [hu0] at hm hmu
            simp only [List.cons_append] at hm ⊢
            rw [findRefs_match hm, findRefs_match hmu, hc2, hc₀,
              ih c₀.length hlen c₀ rfl x]
            simp
    | none =>
      cases hu : u₀ with
      | nil =>
        rw [show (([] : Str) ++ [']']) ++ x = ']' :: x from rfl,
          findRefs_nomatch (matchScanAt_ne _ (by decide)),
          show (([] : Str) ++ [']']) = [']'] from rfl,
          findRefs_nomatch (matchScanAt_ne ([] : Str) (by decide)), findRefs_nil]
        rfl
      | cons c u₀' =>
        subst hu
        have hstep : ((c :: u₀') ++ [']']) ++ x = c :: ((u₀' ++ [']']) ++ x) := rfl
        rw [hstep] at hm
        have hmu : matchScanAt (c :: (u₀' ++ [']'])) = none := by
          cases hmu : matchScanAt (c :: (u₀' ++ [']'])) with
          | none => rfl
          | some p =>
            obtain ⟨d, t⟩ := p
            obtain ⟨hs2, hd2⟩ := matchScanAt_sound hmu
            exfalso
            have hx : matchScanAt (c :: ((u₀' ++ [']']) ++ x)) = some (d, t ++ x) := by
              have h1 : c :: ((u₀' ++ [']']) ++ x) = '(' :: (mrk d ++ (t ++ x)) := by
                injection hs2 with h2 h3
                subst h2
                rw [show (u₀' ++ [']']) ++ x = (mrk d ++ t) ++ x by rw [h3],
                  List.append_assoc]
              rw [h1]
              exact matchScanAt_complete hd2 (t ++ x)
            rw [hx] at hm
            exact Option.noConfusion hm
        rw [hstep, findRefs_nomatch hm,
          show (c :: u₀') ++ [']'] = c :: (u₀' ++ [']']) from rfl,
          findRefs_nomatch hmu]
        exact ih u₀'.length (by simp) u₀' rfl x

/-- A bracket marker splits as interior plus closing bracket. -/
theorem mrk_split (d : Str) : mrk d = (refWord ++ d) ++ [']'] := by
  rw [mrk]

/-- Bracket-marker scanning distributes over a concatenation whose first part
ends in `]`. -/
theorem findMarks_concat : ∀ n (u₀ : Str), u₀.length = n → ∀ x : Str,
    findMarks ((u₀ ++ [']']) ++ x) = findMarks (u₀ ++ [']']) ++ findMarks x := by
  intro n
  induction n using Nat.strong_induction_on with
  | _ n ih =>
    intro u₀ hn x
    subst hn
    cases hm : matchBracketAt ((u₀ ++ [']']) ++ x) with
    | some p =>
      obtain ⟨d, r⟩ := p
      obtain ⟨hs, hd⟩ := matchBracketAt_sound hm
      have hW : ']' ∉ refWord ++ d := rb_not_mem_refWord_digits hd.2
      rcases List.append_eq_append_iff.mp hs with ⟨a', ha1, ha2⟩ | ⟨c', hc1, hc2⟩
      · cases a' with
        | nil =>
          simp only [List.append_nil] at ha1 ha2
          subst ha2
          have hmu : matchBracketAt (u₀ ++ [']']) = some (d, []) := by
            rw [← ha1, show mrk d = mrk d ++ [] by simp]
            exact matchBracketAt_complete hd []
          cases hu0 : u₀ ++ [']'] with
          | nil => exact absurd hu0 (by simp)
          | cons c0 t0 =>
            rw [hu0] at hm hmu
            simp only [List.cons_append] at hm ⊢
            rw [findMarks_match hm, findMarks_match hmu, findMarks_nil]
            rfl
        | cons z a'' =>
          exfalso
          rw [mrk_split, show (u₀ ++ [']']) ++ z :: a'' = u₀ ++ (']' :: z :: a'') by
            simp] at ha1
          rcases List.append_eq_append_iff.mp ha1 with ⟨q, hq1, hq2⟩ | ⟨q, hq1, hq2⟩
          · have := congrArg List.length hq2
            simp only [List.length_append, List.length_cons, List.length_nil] at this
            omega
          · cases q with
            | nil =>
              have := congrArg List.length hq2
              simp only [List.nil_append, List.length_append, List.length_cons,
                List.length_nil] at this
              omega
            | cons q0 qr =>
              have hq0 : q0 = ']' := by
                rw [List.cons_append] at hq2
                injection hq2 with h1 _
                exact h1.symm
              apply hW
              rw [hq1, hq0]
              exact List.mem_append.mpr (Or.inr (by simp))
      · have hmu : matchBracketAt (u₀ ++ [']']) = some (d, c') := by
          rw [hc1]
          exact matchBracketAt_complete hd c'
        by_cases hcnil : c' = []
        · subst hcnil
          cases hu0 : u₀ ++ [']'] with
          | nil => exact absurd hu0 (by simp)
          | cons c0 t0 =>
            rw [hu0] at hm hmu
            simp only [List.cons_append] at hm ⊢
            rw [findMarks_match hm, findMarks_match hmu, findMarks_nil, hc2]
            rfl
        · obtain ⟨c₀, hc₀, hlen⟩ : ∃ c₀, c' = c₀ ++ [']'] ∧ c₀.length < u₀.length := by
            rw [mrk_split, show ((refWord ++ d) ++ [']']) ++ c' =
              (refWord ++ d) ++ (']' :: c') by simp] at hc1
            rcases List.append_eq_append_iff.mp hc1 with ⟨q, hq1, hq2⟩ | ⟨q, hq1, hq2⟩
            · exfalso
              have := congrArg List.length hq2
              simp only [List.length_append, List.length_cons, List.length_nil] at this
              exact hcnil (List.length_eq_zero.mp (by omega))
            · cases q with
              | nil =>
                exfalso
                have := congrArg List.length hq2
                simp only [List.nil_append, List.length_append, List.length_cons,
                  List.length_nil] at this
                exact hcnil (List.length_eq_zero.mp (by omega))
              | cons q0 qr =>
                rw [List.cons_append] at hq2
                injection hq2 with h1 h2
                refine ⟨qr, h2, ?_⟩
                have := congrArg List.length hq1
                simp only [List.length_append, List.length_cons] at this
                omega
          cases hu0 : u₀ ++ [']'] with
          | nil => exact absurd hu0 (by simp)
          | cons c0 t0 =>
            rw [hu0] at hm hmu
            simp only [List.cons_append] at hm ⊢
            rw [findMarks_match hm, findMarks_match hmu, hc2, hc₀,
              ih c₀.length hlen c₀ rfl x]
            simp
    | none =>
      cases hu : u₀ with
      | nil =>
        rw [show (([] : Str) ++ [']']) ++ x = ']' :: x from rfl,
          findMarks_nomatch (matchBracketAt_head (by decide)),
          show (([] : Str) ++ [']']) = [']'] from rfl,
          findMarks_nomatch (matchBracketAt_head (by decide)), findMarks_nil]
        rfl
      | cons c u₀' =>
        subst hu
        have hstep : ((c :: u₀') ++ [']']) ++ x = c :: ((u₀' ++ [']']) ++ x) := rfl
        rw [hstep] at hm
        have hmu : matchBracketAt (c :: (u₀' ++ [']'])) = none := by
          cases hmu : matchBracketAt (c :: (u₀' ++ [']'])) with
          | none => rfl
          | some p =>
            obtain ⟨d, t⟩ := p
            obtain ⟨hs2, hd2⟩ := matchBracketAt_sound hmu
            exfalso
            have hx : matchBracketAt (c :: ((u₀' ++ [']']) ++ x)) = some (d, t ++ x) := by
              rw [show c :: ((u₀' ++ [']']) ++ x) = (c :: (u₀' ++ [']'])) ++ x from rfl,
                hs2, List.append_assoc]
              exact matchBracketAt_complete hd2 (t ++ x)
            rw [hx] at hm
            exact Option.noConfusion hm
        rw [hstep, findMarks_nomatch hm,
          show (c :: u₀') ++ [']'] = c :: (u₀' ++ [']']) from rfl,
          findMarks_nomatch hmu]
        exact ih u₀'.length (by simp) u₀' rfl x

theorem noparen_of_digits {x : Str} (hx : allDigits x = true) : '(' ∉ x :=
  fun h => absurd (allDigits_mem hx h) (by decide)

theorem nolb_of_digits {x : Str} (hx : allDigits x = true) : '[' ∉ x :=
  fun h => absurd (allDigits_mem hx h) (by decide)

/-- The marker scanner walks through a block without `[`. -/
theorem findMarks_skip_nolb (z : Str) : ∀ {u : Str}, '[' ∉ u →
    findMarks (u ++ z) = findMarks z := by
  intro u
  induction u with
  | nil => intro _; rfl
  | cons c r ih =>
    intro hu
    have hc : c ≠ '[' := fun h => hu (h ▸ List.mem_cons_self c r)
    rw [List.cons_append, findMarks_nomatch (matchBracketAt_head hc)]
    exact ih (fun h => hu (List.mem_cons_of_mem _ h))

theorem secPat_ne_nil (num link : Str) : secPat num link ≠ [] := by
  simp [secPat]

theorem secPat_split (num link : Str) :
    secPat num link = (num ++ ('.' :: ' ' :: '[' :: link)) ++ [']'] := by
  simp [secPat]

/-- What the scanners see of a section line `num. [link]` is independent of
the numeral. -/
theorem findRefs_secPat_append {x l : Str} (hx : GoodDigits x) (z : Str) :
    findRefs (secPat x l ++ z) =
      findRefs (('.' :: ' ' :: '[' :: l) ++ [']']) ++ findRefs z := by
  rw [secPat_split,
    findRefs_concat (x ++ ('.' :: ' ' :: '[' :: l)).length
      (x ++ ('.' :: ' ' :: '[' :: l)) rfl z,
    show (x ++ ('.' :: ' ' :: '[' :: l)) ++ [']'] =
      x ++ (('.' :: ' ' :: '[' :: l) ++ [']']) by simp,
    findRefs_skip_noparen _ (noparen_of_digits hx.2)]


theorem findMarks_secPat_append {x l : Str} (hx : GoodDigits x) (z : Str) :
    findMarks (secPat x l ++ z) =
      findMarks (('.' :: ' ' :: '[' :: l) ++ [']']) ++ findMarks z := by
  rw [secPat_split,
    findMarks_concat (x ++ ('.' :: ' ' :: '[' :: l)).length
      (x ++ ('.' :: ' ' :: '[' :: l)) rfl z,
    show (x ++ ('.' :: ' ' :: '[' :: l)) ++ [']'] =
      x ++ (('.' :: ' ' :: '[' :: l) ++ [']']) by simp,
    findMarks_skip_nolb _ (nolb_of_digits hx.2)]

/-- A references-section replacement (numeral `a` rewritten to numeral `b` in
`a. [l]`) never changes the inline citations the normalizer scans for. -/
theorem findRefs_replaceAll_sec {a b l : Str} (ha : GoodDigits a)
    (hb : GoodDigits b) : ∀ n (s : Str), s.length = n →
    findRefs (replaceAll (secPat a l) (secPat b l) s) = findRefs s := by
  intro n
  induction n using Nat.strong_induction_on with
  | _ n ih =>
    intro s hn
    subst hn
    cases s with
    | nil => rfl
    | cons c rest =>
      cases hm : matchScanAt (c :: rest) with
      | some p =>
        obtain ⟨d, r⟩ := p
        obtain ⟨hs, hd⟩ := matchScanAt_sound hm
        have hlt : r.length < (c :: rest).length := matchScanAt_size hm
        rw [hs, show ('(' : Char) :: (mrk d ++ r) = ('(' :: mrk d) ++ r from rfl,
          replaceAll_sec_skip_scanB ha hd]
        simp only [List.cons_append]
        rw [findRefs_match (matchScanAt_complete hd _),
          findRefs_match (matchScanAt_complete hd _),
          ih r.length hlt r rfl]
      | none =>
        by_cases hp : startsWith (secPat a l) (c :: rest) = true
        · obtain ⟨t, ht⟩ := startsWith_iff.mp hp
          have hne : secPat a l ≠ [] := secPat_ne_nil a l
          have hlt : t.length < (c :: rest).length := by
            have hl2 := congrArg List.length ht
            simp only [List.length_cons, List.length_append] at hl2
            have hpos : 1 ≤ (secPat a l).length := by
              cases hsp : secPat a l with
              | nil => exact absurd hsp hne
              | cons x y => simp
            simp only [List.length_cons]
            omega
          rw [replaceAll_cons_pos _ hne hp, ht, List.drop_left,
            findRefs_secPat_append hb, findRefs_secPat_append ha,
            ih t.length hlt t rfl]
        · have hneg : ¬(secPat a l ≠ [] ∧ startsWith (secPat a l) (c :: rest) = true) :=
            fun hcon => hp hcon.2
          rw [replaceAll_cons_neg _ hneg]
          have hm2 : matchScanAt
              (c :: replaceAll (secPat a l) (secPat b l) rest) = none := by
            cases hm2 : matchScanAt (c :: replaceAll (secPat a l) (secPat b l) rest) with
            | none => rfl
            | some q =>
              obtain ⟨d, r⟩ := q
              obtain ⟨hs2, hd2⟩ := matchScanAt_sound hm2
              exfalso
              injection hs2 with hc hr
              subst hc
              have hb2 : matchBracketAt (replaceAll (secPat a l) (secPat b l) rest) =
                  some (d, r) := by
                rw [hr]
                exact matchBracketAt_complete hd2 r
              obtain ⟨r₀, hr₀⟩ := matchBracketAt_replace_transfer hb hb2
              rw [matchScanAt_paren, hr₀] at hm
              exact Option.noConfusion hm
          rw [findRefs_nomatch hm2, findRefs_nomatch hm]
          exact ih rest.length (by simp) rest rfl

/-- Same statement for the bracket markers the replacement loop can see. -/
theorem findMarks_replaceAll_sec {a b l : Str} (ha : GoodDigits a)
    (hb : GoodDigits b) : ∀ n (s : Str), s.length = n →
    findMarks (replaceAll (secPat a l) (secPat b l) s) = findMarks s := by
  intro n
  induction n using Nat.strong_induction_on with
  | _ n ih =>
    intro s hn
    subst hn
    cases s with
    | nil => rfl
    | cons c rest =>
      cases hm : matchBracketAt (c :: rest) with
      | some p =>
        obtain ⟨d, r⟩ := p
        obtain ⟨hs, hd⟩ := matchBracketAt_sound hm
        have hlt : r.length < (c :: rest).length := matchBracketAt_size hm
        have h1 := matchBracketAt_complete hd (replaceAll (secPat a l) (secPat b l) r)
        have h2 := matchBracketAt_complete hd r
        rw [mrk_head, List.cons_append] at h1 h2
        rw [hs, replaceAll_sec_skip_mrk ha hd,
          show mrk d ++ replaceAll (secPat a l) (secPat b l) r =
            '[' :: (("Reference ".data ++ (d ++ [']'])) ++
              replaceAll (secPat a l) (secPat b l) r) by
            rw [mrk_head, List.cons_append],
          findMarks_match h1,
          show mrk d ++ r = '[' :: (("Reference ".data ++ (d ++ [']'])) ++ r) by
            rw [mrk_head, List.cons_append],
          findMarks_match h2, ih r.length hlt r rfl]
      | none =>
        by_cases hp : startsWith (secPat a l) (c :: rest) = true
        · obtain ⟨t, ht⟩ := startsWith_iff.mp hp
          have hne : secPat a l ≠ [] := secPat_ne_nil a l
          have hlt : t.length < (c :: rest).length := by
            have hl2 := congrArg List.length ht
            simp only [List.length_cons, List.length_append] at hl2
            have hpos : 1 ≤ (secPat a l).length := by
              cases hsp : secPat a l with
              | nil => exact absurd hsp hne
              | cons x y => simp
            simp only [List.length_cons]
            omega
          rw [replaceAll_cons_pos _ hne hp, ht, List.drop_left,
            findMarks_secPat_append hb, findMarks_secPat_append ha,
            ih t.length hlt t rfl]
        · have hneg : ¬(secPat a l ≠ [] ∧ startsWith (secPat a l) (c :: rest) = true) :=
            fun hcon => hp hcon.2
          have hcneg := replaceAll_cons_neg (secPat b l) hneg
          rw [hcneg]
          have hm2 : matchBracketAt
              (c :: replaceAll (secPat a l) (secPat b l) rest) = none := by
            cases hm2 : matchBracketAt
                (c :: replaceAll (secPat a l) (secPat b l) rest) with
            | none => rfl
            | some q =>
              obtain ⟨d, r⟩ := q
              exfalso
              rw [← hcneg] at hm2
              obtain ⟨r₀, hr₀⟩ := matchBracketAt_replace_transfer hb hm2
              rw [hr₀] at hm
              exact Option.noConfusion hm
          rw [findMarks_nomatch hm2, findMarks_nomatch hm]
          exact ih rest.length (by simp) rest rfl

/-- The whole references-section rewriting pass leaves both scanners
unchanged. -/
theorem findRefs_applySectionPairs (m : List (Str × Nat)) :
    ∀ (pairs : List (Str × Str)) (body : Str), (∀ p ∈ pairs, GoodDigits p.1) →
    findRefs (applySectionPairs m pairs body) = findRefs body := by
  intro pairs
  induction pairs with
  | nil => intro body _; rfl
  | cons p rest ih =>
    intro body h
    have hstep : applySectionPairs m (p :: rest) body =
        applySectionPairs m rest (match lookupRef m p.1 with
          | some k => replaceAll (secPat p.1 p.2) (secPat (natDigits k) p.2) body
          | none => body) := rfl
    rw [hstep, ih _ (fun q hq => h q (List.mem_cons_of_mem _ hq))]
    cases hl : lookupRef m p.1 with
    | none => rfl
    | some k =>
      exact findRefs_replaceAll_sec (h p (List.mem_cons_self p rest))
        (goodDigits_natDigits k) body.length body rfl

theorem findMarks_applySectionPairs (m : List (Str × Nat)) :
    ∀ (pairs : List (Str × Str)) (body : Str), (∀ p ∈ pairs, GoodDigits p.1) →
    findMarks (applySectionPairs m pairs body) = findMarks body := by
  intro pairs
  induction pairs with
  | nil => intro body _; rfl
  | cons p rest ih =>
    intro body h
    have hstep : applySectionPairs m (p :: rest) body =
        applySectionPairs m rest (match lookupRef m p.1 with
          | some k => replaceAll (secPat p.1 p.2) (secPat (natDigits k) p.2) body
          | none => body) := rfl
    rw [hstep, ih _ (fun q hq => h q (List.mem_cons_of_mem _ hq))]
    cases hl : lookupRef m p.1 with
    | none => rfl
    | some k =>
      exact findMarks_replaceAll_sec (h p (List.mem_cons_self p rest))
        (goodDigits_natDigits k) body.length body rfl

/-! ## Refinement-loop lemmas -/

theorem histSeg_length (sc : Nat → ℚ) (fb : Nat → Str) :
    ∀ fuel i, (histSeg sc fb fuel i).length = fuel := by
  intro fuel
  induction fuel with
  | zero => intro i; rfl
  | succ f ih => intro i; simp [histSeg, ih]

/-- One loop iteration whose evaluation succeeds, does not meet the standards
and scores below the bar: the loop refines and continues. -/
theorem refinementLoop_step_refine (evalO : Nat → Except Str StandardsEvaluationResult)
    (refineO : Nat → Except Str RefineOutcome) (rt : Str) (minScore : ℚ)
    (f iter : Nat) (current best : Report) (highest : ℚ) (hist : List (ℚ × Str))
    (hAg : researchTypeHasAgent rt = true)
    {evi : StandardsEvaluationResult} {outi : RefineOutcome}
    (hev : evalO iter = Except.ok evi)
    (href : refineO iter = Except.ok outi)
    (hns : evi.meets_standards = false)
    (hlow : evi.overall_score < minScore) :
    refinementLoop evalO refineO rt minScore (f + 1) iter current best highest hist =
      refinementLoop evalO refineO rt minScore f (iter + 1) (refinedOf current outi)
        (if highest < evi.overall_score then refinedOf current outi else best)
        (if highest < evi.overall_score then evi.overall_score else highest)
        (hist ++ [(evi.overall_score, evi.detailed_feedback)]) := by
  have hd : decide (minScore ≤ evi.overall_score) = false :=
    decide_eq_false (not_le.mpr hlow)
  simp only [refinementLoop, hev, href, hAg, evaluateAndRefine, hns, Bool.not_true,
    Bool.or_false, Bool.false_or, hd, Bool.false_eq_true, if_false]

/-- One loop iteration whose evaluation meets the standards or scores at or
above the bar: the loop exits, with the submitted report if the standards
were met, and with its refinement otherwise. -/
theorem refinementLoop_step_exit (evalO : Nat → Except Str StandardsEvaluationResult)
    (refineO : Nat → Except Str RefineOutcome) (rt : Str) (minScore : ℚ)
    (f iter : Nat) (current best : Report) (highest : ℚ) (hist : List (ℚ × Str))
    (hAg : researchTypeHasAgent rt = true)
    {evi : StandardsEvaluationResult} {outi : RefineOutcome}
    (hev : evalO iter = Except.ok evi)
    (hsat : evi.meets_standards = true ∨ minScore ≤ evi.overall_score)
    (hrefi : evi.meets_standards = false → refineO iter = Except.ok outi) :
    refinementLoop evalO refineO rt minScore (f + 1) iter current best highest hist =
      Except.ok ((if evi.meets_standards then current else refinedOf current outi),
        evi.overall_score,
        hist ++ [(evi.overall_score, evi.detailed_feedback)]) := by
  cases hms : evi.meets_standards with
  | true =>
    simp only [refinementLoop, hev, hAg, evaluateAndRefine, hms, Bool.true_or, if_true]
  | false =>
    have hd : decide (minScore ≤ evi.overall_score) = true := by
      rcases hsat with h | h
      · exact absurd h (by rw [hms]; exact Bool.false_ne_true)
      · exact decide_eq_true h
    simp [refinementLoop, hev, hrefi hms, hAg, evaluateAndRefine, hms, hd]

/-- One loop iteration in which the evaluator call, or the refiner call after
a non-satisfying evaluation, raises: the error escapes the loop. -/
theorem refinementLoop_step_error (evalO : Nat → Except Str StandardsEvaluationResult)
    (refineO : Nat → Except Str RefineOutcome) (rt : Str) (minScore : ℚ)
    (f iter : Nat) (current best : Report) (highest : ℚ) (hist : List (ℚ × Str))
    (hAg : researchTypeHasAgent rt = true) {e : Str}
    (herr : evalO iter = Except.error e ∨
      (∃ evi, evalO iter = Except.ok evi ∧ evi.meets_standards = false ∧
        refineO iter = Except.error e)) :
    refinementLoop evalO refineO rt minScore (f + 1) iter current best highest hist =
      Except.error e := by
  rcases herr with h | ⟨evi, hev, hns, href⟩
  · simp only [refinementLoop, h, evaluateAndRefine]
  · simp only [refinementLoop, hev, href, hAg, evaluateAndRefine, hns, Bool.not_true,
      Bool.or_false, Bool.false_eq_true, if_false]

/-- The tracker either never updates (all scores at most the running maximum)
or ends at the first iteration attaining the overall maximum. -/
theorem trackAux_cases (sc : Nat → ℚ) (rep : Nat → Report) :
    ∀ fuel i b h,
      (trackAux sc rep fuel i (b, h) = (b, h) ∧
        ∀ j, i ≤ j → j < i + fuel → sc j ≤ h) ∨
      (∃ j, i ≤ j ∧ j < i + fuel ∧ trackAux sc rep fuel i (b, h) = (rep j, sc j) ∧
        h < sc j ∧ (∀ k, i ≤ k → k < j → sc k < sc j) ∧
        (∀ k, j < k → k < i + fuel → sc k ≤ sc j)) := by
  intro fuel
  induction fuel with
  | zero =>
    intro i b h
    left
    exact ⟨rfl, fun j h1 h2 => absurd h2 (by omega)⟩
  | succ f ih =>
    intro i b h
    by_cases hup : h < sc i
    · have hstep : trackAux sc rep (f + 1) i (b, h) =
          trackAux sc rep f (i + 1) (rep i, sc i) := by
        simp [trackAux, hup]
      rcases ih (i + 1) (rep i) (sc i) with ⟨heq, hbound⟩ | ⟨j, hj1, hj2, heq, hlt, hbef, haft⟩
      · right
        refine ⟨i, le_rfl, by omega, by rw [hstep, heq], hup, ?_, ?_⟩
        · intro k hk1 hk2
          exact absurd hk2 (by omega)
        · intro k hk1 hk2
          exact hbound k (by omega) (by omega)
      · right
        refine ⟨j, by omega, by omega, by rw [hstep, heq], lt_trans hup hlt, ?_, ?_⟩
        · intro k hk1 hk2
          rcases Nat.eq_or_lt_of_le hk1 with rfl | hk
          · exact hlt
          · exact hbef k (by omega) hk2
        · intro k hk1 hk2
          exact haft k hk1 (by omega)
    · have hstep : trackAux sc rep (f + 1) i (b, h) = trackAux sc rep f (i + 1) (b, h) := by
        simp [trackAux, hup]
      rcases ih (i + 1) b h with ⟨heq, hbound⟩ | ⟨j, hj1, hj2, heq, hlt, hbef, haft⟩
      · left
        refine ⟨by rw [hstep, heq], ?_⟩
        intro j h1 h2
        rcases Nat.eq_or_lt_of_le h1 with rfl | hj
        · exact not_lt.mp hup
        · exact hbound j (by omega) (by omega)
      · right
        refine ⟨j, by omega, by omega, by rw [hstep, heq], hlt, ?_,
          fun k hk1 hk2 => haft k hk1 (by omega)⟩
        intro k hk1 hk2
        rcases Nat.eq_or_lt_of_le hk1 with rfl | hk
        · exact lt_of_le_of_lt (not_lt.mp hup) hlt
        · exact hbef k (by omega) hk2

/-- The loop on a run in which every evaluation in range succeeds, fails the
standards and scores below the bar: it runs to fuel exhaustion and returns the
tracked best report and highest score, with one history entry per
iteration. -/
theorem refinementLoop_exhaust (evalO : Nat → Except Str StandardsEvaluationResult)
    (refineO : Nat → Except Str RefineOutcome) (rt : Str) (minScore : ℚ)
    (ev : Nat → StandardsEvaluationResult) (outs : Nat → RefineOutcome)
    (initial : Report) (hAg : researchTypeHasAgent rt = true) :
    ∀ fuel iter best highest hist,
    (∀ i, iter ≤ i → i < iter + fuel → evalO i = Except.ok (ev i)) →
    (∀ i, iter ≤ i → i < iter + fuel → refineO i = Except.ok (outs i)) →
    (∀ i, iter ≤ i → i < iter + fuel → (ev i).meets_standards = false) →
    (∀ i, iter ≤ i → i < iter + fuel → (ev i).overall_score < minScore) →
    refinementLoop evalO refineO rt minScore fuel iter
      (currentAt initial outs iter) best highest hist =
      Except.ok ((trackAux (fun j => (ev j).overall_score)
          (fun j => currentAt initial outs (j + 1)) fuel iter (best, highest)).1,
        (trackAux (fun j => (ev j).overall_score)
          (fun j => currentAt initial outs (j + 1)) fuel iter (best, highest)).2,
        hist ++ histSeg (fun j => (ev j).overall_score)
          (fun j => (ev j).detailed_feedback) fuel iter) := by
  intro fuel
  induction fuel with
  | zero =>
    intro iter best highest hist _ _ _ _
    simp [refinementLoop, trackAux, histSeg]
  | succ f ih =>
    intro iter best highest hist hev href hns hlow
    rw [refinementLoop_step_refine evalO refineO rt minScore f iter _ best highest hist hAg
      (hev iter le_rfl (by omega)) (href iter le_rfl (by omega))
      (hns iter le_rfl (by omega)) (hlow iter le_rfl (by omega))]
    rw [show refinedOf (currentAt initial outs iter) (outs iter) =
      currentAt initial outs (iter + 1) from rfl]
    rw [ih (iter + 1)
      (if highest < (ev iter).overall_score then currentAt initial outs (iter + 1) else best)
      (if highest < (ev iter).overall_score then (ev iter).overall_score else highest)
      (hist ++ [((ev iter).overall_score, (ev iter).detailed_feedback)])
      (fun i h1 h2 => hev i (by omega) (by omega))
      (fun i h1 h2 => href i (by omega) (by omega))
      (fun i h1 h2 => hns i (by omega) (by omega))
      (fun i h1 h2 => hlow i (by omega) (by omega))]
    have htr : trackAux (fun j => (ev j).overall_score)
        (fun j => currentAt initial outs (j + 1)) (f + 1) iter (best, highest) =
        trackAux (fun j => (ev j).overall_score)
          (fun j => currentAt initial outs (j + 1)) f (iter + 1)
          ((if highest < (ev iter).overall_score
              then currentAt initial outs (iter + 1) else best),
           (if highest < (ev iter).overall_score
              then (ev iter).overall_score else highest)) := by
      by_cases hcmp : highest < (ev iter).overall_score
      · simp [trackAux, hcmp]
      · simp [trackAux, hcmp]
    rw [htr]
    have hhist : hist ++ histSeg (fun j => (ev j).overall_score)
        (fun j => (ev j).detailed_feedback) (f + 1) iter =
        (hist ++ [((ev iter).overall_score, (ev iter).detailed_feedback)]) ++
          histSeg (fun j => (ev j).overall_score)
            (fun j => (ev j).detailed_feedback) f (iter + 1) := by
      simp [histSeg]
    rw [hhist]

/-- The loop when iteration `iter + j` is the first satisfying one: it exits
there, returning that evaluation's score, and the submitted report only if
the standards flag was set (otherwise its refinement). -/
theorem refinementLoop_satisfied (evalO : Nat → Except Str StandardsEvaluationResult)
    (refineO : Nat → Except Str RefineOutcome) (rt : Str) (minScore : ℚ)
    (ev : Nat → StandardsEvaluationResult) (outs : Nat → RefineOutcome)
    (initial : Report) (hAg : researchTypeHasAgent rt = true) :
    ∀ j fuel iter best highest hist, j < fuel →
    (∀ i, iter ≤ i → i ≤ iter + j → evalO i = Except.ok (ev i)) →
    (∀ i, iter ≤ i → i < iter + j → refineO i = Except.ok (outs i)) →
    (∀ i, iter ≤ i → i < iter + j → (ev i).meets_standards = false) →
    (∀ i, iter ≤ i → i < iter + j → (ev i).overall_score < minScore) →
    ((ev (iter + j)).meets_standards = true ∨ minScore ≤ (ev (iter + j)).overall_score) →
    ((ev (iter + j)).meets_standards = false →
      refineO (iter + j) = Except.ok (outs (iter + j))) →
    refinementLoop evalO refineO rt minScore fuel iter
      (currentAt initial outs iter) best highest hist =
      Except.ok ((if (ev (iter + j)).meets_standards
          then currentAt initial outs (iter + j)
          else currentAt initial outs (iter + j + 1)),
        (ev (iter + j)).overall_score,
        hist ++ histSeg (fun k => (ev k).overall_score)
          (fun k => (ev k).detailed_feedback) (j + 1) iter) := by
  intro j
  induction j with
  | zero =>
    intro fuel iter best highest hist hfuel hev _ _ _ hsat hrefj
    cases fuel with
    | zero => omega
    | succ f =>
      rw [refinementLoop_step_exit evalO refineO rt minScore f iter _ best highest hist hAg
        (hev iter le_rfl (by omega)) (by simpa using hsat) (by simpa using hrefj)]
      simp only [Nat.add_zero, histSeg]
      rw [show refinedOf (currentAt initial outs iter) (outs iter) =
        currentAt initial outs (iter + 1) from rfl]
  | succ g ih =>
    intro fuel iter best highest hist hfuel hev href hns hlow hsat hrefj
    cases fuel with
    | zero => omega
    | succ f =>
      rw [refinementLoop_step_refine evalO refineO rt minScore f iter _ best highest hist hAg
        (hev iter le_rfl (by omega)) (href iter le_rfl (by omega))
        (hns iter le_rfl (by omega)) (hlow iter le_rfl (by omega))]
      rw [show refinedOf (currentAt initial outs iter) (outs iter) =
        currentAt initial outs (iter + 1) from rfl]
      rw [ih f (iter + 1)
        (if highest < (ev iter).overall_score then currentAt initial outs (iter + 1) else best)
        (if highest < (ev iter).overall_score then (ev iter).overall_score else highest)
        (hist ++ [((ev iter).overall_score, (ev iter).detailed_feedback)])
        (by omega)
        (fun i h1 h2 => hev i (by omega) (by omega))
        (fun i h1 h2 => href i (by omega) (by omega))
        (fun i h1 h2 => hns i (by omega) (by omega))
        (fun i h1 h2 => hlow i (by omega) (by omega))
        (by rw [show iter + 1 + g = iter + (g + 1) by omega]; exact hsat)
        (by rw [show iter + 1 + g = iter + (g + 1) by omega]; exact hrefj)]
      rw [show iter + 1 + g = iter + (g + 1) by omega]
      have hhist : hist ++ histSeg (fun k => (ev k).overall_score)
          (fun k => (ev k).detailed_feedback) (g + 1 + 1) iter =
          (hist ++ [((ev iter).overall_score, (ev iter).detailed_feedback)]) ++
            histSeg (fun k => (ev k).overall_score)
              (fun k => (ev k).detailed_feedback) (g + 1) (iter + 1) := by
        simp [histSeg]
      rw [hhist]

/-- The loop when iteration `iter + j` raises (evaluator, or refiner after a
non-satisfying evaluation): the error escapes. -/
theorem refinementLoop_error_prop (evalO : Nat → Except Str StandardsEvaluationResult)
    (refineO : Nat → Except Str RefineOutcome) (rt : Str) (minScore : ℚ)
    (ev : Nat → StandardsEvaluationResult) (outs : Nat → RefineOutcome)
    (initial : Report) (hAg : researchTypeHasAgent rt = true) (e : Str) :
    ∀ j fuel iter best highest hist, j < fuel →
    (∀ i, iter ≤ i → i < iter + j → evalO i = Except.ok (ev i)) →
    (∀ i, iter ≤ i → i < iter + j → refineO i = Except.ok (outs i)) →
    (∀ i, iter ≤ i → i < iter + j → (ev i).meets_standards = false) →
    (∀ i, iter ≤ i → i < iter + j → (ev i).overall_score < minScore) →
    (evalO (iter + j) = Except.error e ∨
      (∃ evj, evalO (iter + j) = Except.ok evj ∧ evj.meets_standards = false ∧
        refineO (iter + j) = Except.error e)) →
    refinementLoop evalO refineO rt minScore fuel iter
      (currentAt initial outs iter) best highest hist = Except.error e := by
  intro j
  induction j with
  | zero =>
    intro fuel iter best highest hist hfuel _ _ _ _ herr
    cases fuel with
    | zero => omega
    | succ f =>
      exact refinementLoop_step_error evalO refineO rt minScore f iter _ best highest hist
        hAg (by simpa using herr)
  | succ g ih =>
    intro fuel iter best highest hist hfuel hev href hns hlow herr
    cases fuel with
    | zero => omega
    | succ f =>
      rw [refinementLoop_step_refine evalO refineO rt minScore f iter _ best highest hist hAg
        (hev iter le_rfl (by omega)) (href iter le_rfl (by omega))
        (hns iter le_rfl (by omega)) (hlow iter le_rfl (by omega))]
      rw [show refinedOf (currentAt initial outs iter) (outs iter) =
        currentAt initial outs (iter + 1) from rfl]
      exact ih f (iter + 1) _ _ _ (by omega)
        (fun i h1 h2 => hev i (by omega) (by omega))
        (fun i h1 h2 => href i (by omega) (by omega))
        (fun i h1 h2 => hns i (by omega) (by omega))
        (fun i h1 h2 => hlow i (by omega) (by omega))
        (by rw [show iter + 1 + g = iter + (g + 1) by omega]; exact herr)

/-! ## Claim C3 -/

/-- C3: if no iteration's evaluation meets the standards or reaches the
minimum score (and all evaluator and refiner calls succeed, for a research
type with a specialized agent), `iterative_refinement` performs exactly
`maxIterations` iterations, returns an evaluation history of length exactly
`maxIterations`, and returns the best-tracked report together with the
highest score observed: the returned score bounds every observed score, and
— whenever some score is positive, so that the tracker ever updates — the
returned report is the report produced at the first iteration attaining that
highest score. -/
theorem C3_exhausted_returns_best (evalO : Nat → Except Str StandardsEvaluationResult)
    (refineO : Nat → Except Str RefineOutcome) (rt : Str) (minScore : ℚ)
    (maxIterations : Nat) (initial : Report)
    (ev : Nat → StandardsEvaluationResult) (outs : Nat → RefineOutcome)
    (hAg : researchTypeHasAgent rt = true)
    (hev : ∀ i, i < maxIterations → evalO i = Except.ok (ev i))
    (href : ∀ i, i < maxIterations → refineO i = Except.ok (outs i))
    (hns : ∀ i, i < maxIterations → (ev i).meets_standards = false)
    (hlow : ∀ i, i < maxIterations → (ev i).overall_score < minScore) :
    ∃ B H,
      iterativeRefinement evalO refineO rt maxIterations minScore initial =
        Except.ok (B, H,
          histSeg (fun k => (ev k).overall_score)
            (fun k => (ev k).detailed_feedback) maxIterations 0) ∧
      (histSeg (fun k => (ev k).overall_score)
        (fun k => (ev k).detailed_feedback) maxIterations 0).length = maxIterations ∧
      (∀ k, k < maxIterations → (ev k).overall_score ≤ H) ∧
      ((∃ j, j < maxIterations ∧ 0 < (ev j).overall_score) →
        ∃ j, j < maxIterations ∧ B = currentAt initial outs (j + 1) ∧
          (ev j).overall_score = H ∧
          ∀ k, k < j → (ev k).overall_score < (ev j).overall_score) := by
  have hloop := refinementLoop_exhaust evalO refineO rt minScore ev outs initial hAg
    maxIterations 0 initial 0 []
    (fun i _ h2 => hev i (by omega)) (fun i _ h2 => href i (by omega))
    (fun i _ h2 => hns i (by omega)) (fun i _ h2 => hlow i (by omega))
  rw [List.nil_append] at hloop
  refine ⟨_, _, hloop, histSeg_length _ _ _ _, ?_, ?_⟩
  · rcases trackAux_cases (fun k => (ev k).overall_score)
      (fun k => currentAt initial outs (k + 1)) maxIterations 0 initial 0 with
      ⟨heq, hbound⟩ | ⟨j, hj1, hj2, heq, hlt, hbef, haft⟩
    · intro k hk
      rw [heq]
      exact hbound k (by omega) (by omega)
    · intro k hk
      rw [heq]
      rcases lt_trichotomy k j with h | h | h
      · exact le_of_lt (hbef k (by omega) h)
      · exact le_of_eq (by rw [h])
      · exact haft k h (by omega)
  · rcases trackAux_cases (fun k => (ev k).overall_score)
      (fun k => currentAt initial outs (k + 1)) maxIterations 0 initial 0 with
      ⟨heq, hbound⟩ | ⟨j, hj1, hj2, heq, hlt, hbef, haft⟩
    · rintro ⟨j, hj, hpos⟩
      exact absurd (hbound j (by omega) (by omega)) (not_le.mpr hpos)
    · rintro -
      refine ⟨j, by omega, by rw [heq], by rw [heq], fun k hk => hbef k (by omega) hk⟩

/-- C3 witness: `maxIterations = 2`, evaluator scores `5` then `7`, standards
never met, bar `8`: the loop runs both iterations and returns the
iteration-2 report with score `7` and a history of length 2. -/
theorem C3_exhausted_returns_best_witness :
    ∃ B H,
      iterativeRefinement (fun i => Except.ok (exEvalC3 i))
        (fun i => Except.ok (exOutC3 i)) "Scientific".data 2 8 exInitC3 =
        Except.ok (B, H,
          histSeg (fun k => (exEvalC3 k).overall_score)
            (fun k => (exEvalC3 k).detailed_feedback) 2 0) ∧
      (histSeg (fun k => (exEvalC3 k).overall_score)
        (fun k => (exEvalC3 k).detailed_feedback) 2 0).length = 2 ∧
      (∀ k, k < 2 → (exEvalC3 k).overall_score ≤ H) ∧
      ((∃ j, j < 2 ∧ 0 < (exEvalC3 j).overall_score) →
        ∃ j, j < 2 ∧ B = currentAt exInitC3 exOutC3 (j + 1) ∧
          (exEvalC3 j).overall_score = H ∧
          ∀ k, k < j → (exEvalC3 k).overall_score < (exEvalC3 j).overall_score) :=
  C3_exhausted_returns_best _ _ _ _ _ _ exEvalC3 exOutC3
    (by decide)
    (fun i _ => rfl)
    (fun i _ => rfl)
    (fun i hi => rfl)
    (fun i hi => by
      rcases i with _ | _ | n
      · decide
      · decide
      · exact absurd hi (by omega))

/-! ## Claim C4 -/

/-- C4 counterexample: one iteration, bar `5`, evaluation scores `9` with
`meets_standards = false`, research type with a specialized agent.  The loop
terminates at that iteration, but it returns the refiner's output — not the
report that was submitted to the evaluation, contradicting the claim's
"returns the current report — the report that was submitted to that
evaluation". -/
theorem C4_satisfied_counterexample :
    iterativeRefinement
      (fun _ => Except.ok ⟨9, [], "fb".data, [], [], [], false⟩)
      (fun i => Except.ok (exOutC3 i)) "Scientific".data 1 5 exInitC3 =
      Except.ok (⟨"r".data, "r".data, [], [], []⟩, 9, [(9, "fb".data)]) ∧
    (⟨"r".data, "r".data, [], [], []⟩ : Report) ≠ exInitC3 := by
  constructor
  · rfl
  · decide

/-- C4 amended: when iteration `j` (0-based) is the first whose evaluation
meets the standards or scores at least `minScore` (all calls succeeding, for
a research type with a specialized agent), the loop terminates at that
iteration with that evaluation's score and a history of length `j + 1`, and
returns the report produced by `evaluate_and_refine` at that iteration: the
submitted report exactly when `meets_standards` is true, and otherwise the
refiner's output for it (the score-triggered exit still refines first). -/
theorem C4_satisfied_exit (evalO : Nat → Except Str StandardsEvaluationResult)
    (refineO : Nat → Except Str RefineOutcome) (rt : Str) (minScore : ℚ)
    (maxIterations : Nat) (initial : Report)
    (ev : Nat → StandardsEvaluationResult) (outs : Nat → RefineOutcome) (j : Nat)
    (hAg : researchTypeHasAgent rt = true)
    (hj : j < maxIterations)
    (hev : ∀ i, i ≤ j → evalO i = Except.ok (ev i))
    (href : ∀ i, i < j → refineO i = Except.ok (outs i))
    (hns : ∀ i, i < j → (ev i).meets_standards = false)
    (hlow : ∀ i, i < j → (ev i).overall_score < minScore)
    (hsat : (ev j).meets_standards = true ∨ minScore ≤ (ev j).overall_score)
    (hrefj : (ev j).meets_standards = false → refineO j = Except.ok (outs j)) :
    iterativeRefinement evalO refineO rt maxIterations minScore initial =
      Except.ok ((if (ev j).meets_standards then currentAt initial outs j
          else currentAt initial outs (j + 1)),
        (ev j).overall_score,
        histSeg (fun k => (ev k).overall_score)
          (fun k => (ev k).detailed_feedback) (j + 1) 0) ∧
    (histSeg (fun k => (ev k).overall_score)
      (fun k => (ev k).detailed_feedback) (j + 1) 0).length = j + 1 := by
  refine ⟨?_, histSeg_length _ _ _ _⟩
  have hloop := refinementLoop_satisfied evalO refineO rt minScore ev outs initial hAg
    j maxIterations 0 initial 0 [] hj
    (fun i _ h2 => hev i (by omega)) (fun i _ h2 => href i (by omega))
    (fun i _ h2 => hns i (by omega)) (fun i _ h2 => hlow i (by omega))
    (by simpa using hsat) (by simpa using hrefj)
  rw [List.nil_append] at hloop
  simpa using hloop

/-- C4 witness: evaluations score `6, 6, 9` with the standards met only at
iteration 3 (0-based index 2), `maxIterations = 5`, bar `8.5 = 17/2`: the
loop exits after exactly 3 iterations with the report submitted to the third
evaluation, score `9`, history length 3. -/
theorem C4_satisfied_exit_witness :
    iterativeRefinement (fun i => Except.ok (exEvalC4 i)) (fun i => Except.ok (exOutC3 i))
      "Scientific".data 5 (17/2) exInitC3 =
      Except.ok ((if (exEvalC4 2).meets_standards then currentAt exInitC3 exOutC3 2
          else currentAt exInitC3 exOutC3 3),
        (exEvalC4 2).overall_score,
        histSeg (fun k => (exEvalC4 k).overall_score)
          (fun k => (exEvalC4 k).detailed_feedback) 3 0) ∧
    (histSeg (fun k => (exEvalC4 k).overall_score)
      (fun k => (exEvalC4 k).detailed_feedback) 3 0).length = 3 :=
  C4_satisfied_exit _ _ _ _ _ _ exEvalC4 exOutC3 2
    (by decide)
    (by omega)
    (fun i _ => rfl)
    (fun i _ => rfl)
    (fun i hi => by
      rcases i with _ | _ | n
      · rfl
      · rfl
      · exact absurd hi (by omega))
    (fun i hi => by
      rcases i with _ | _ | n
      · norm_num [exEvalC4]
      · norm_num [exEvalC4]
      · exact absurd hi (by omega))
    (Or.inl (by decide))
    (fun h => absurd h (by decide))

/-! ## Claim C6 -/

/-- C6 counterexample: the evaluator raising at the very first iteration
makes `iterative_refinement` raise to its caller — it does not return the
most recent successfully-produced report, contradicting the claim's "aborts
immediately and returns ... the error is never propagated". -/
theorem C6_error_counterexample :
    iterativeRefinement (fun _ => Except.error "boom".data)
      (fun i => Except.ok (exOutC3 i)) "Scientific".data 3 (17/2) exInitC3 =
      Except.error "boom".data := by
  rfl

/-- C6 amended: if iteration `j` is the first at which a call raises — the
evaluator call, or the refiner call after a non-satisfying evaluation — then
the error propagates out of `iterative_refinement` unchanged (there is no
handler); no report, score or history is returned. -/
theorem C6_error_propagates (evalO : Nat → Except Str StandardsEvaluationResult)
    (refineO : Nat → Except Str RefineOutcome) (rt : Str) (minScore : ℚ)
    (maxIterations : Nat) (initial : Report)
    (ev : Nat → StandardsEvaluationResult) (outs : Nat → RefineOutcome)
    (j : Nat) (e : Str)
    (hAg : researchTypeHasAgent rt = true)
    (hj : j < maxIterations)
    (hev : ∀ i, i < j → evalO i = Except.ok (ev i))
    (href : ∀ i, i < j → refineO i = Except.ok (outs i))
    (hns : ∀ i, i < j → (ev i).meets_standards = false)
    (hlow : ∀ i, i < j → (ev i).overall_score < minScore)
    (herr : evalO j = Except.error e ∨
      (∃ evj, evalO j = Except.ok evj ∧ evj.meets_standards = false ∧
        refineO j = Except.error e)) :
    iterativeRefinement evalO refineO rt maxIterations minScore initial =
      Except.error e := by
  have hloop := refinementLoop_error_prop evalO refineO rt minScore ev outs initial hAg e
    j maxIterations 0 initial 0 [] hj
    (fun i _ h2 => hev i (by omega)) (fun i _ h2 => href i (by omega))
    (fun i _ h2 => hns i (by omega)) (fun i _ h2 => hlow i (by omega))
    (by simpa using herr)
  simpa using hloop

/-- C6 witness: evaluation 1 scores `6` without meeting the standards, the
refiner raises at iteration 2 (0-based index 1): the error escapes the
loop. -/
theorem C6_error_propagates_witness :
    iterativeRefinement (fun _ => Except.ok ⟨6, [], "fb".data, [], [], [], false⟩)
      (fun i => if i = 0 then Except.ok (exOutC3 i) else Except.error "boom".data)
      "Scientific".data 3 (17/2) exInitC3 = Except.error "boom".data :=
  C6_error_propagates _ _ _ _ _ _
    (fun _ => ⟨6, [], "fb".data, [], [], [], false⟩) exOutC3 1 "boom".data
    (by decide)
    (by omega)
    (fun i _ => rfl)
    (fun i hi => by
      rcases i with _ | n
      · rfl
      · exact absurd hi (by omega))
    (fun i _ => rfl)
    (fun i hi => by
      rcases i with _ | n
      · norm_num
      · exact absurd hi (by omega))
    (Or.inr ⟨⟨6, [], "fb".data, [], [], [], false⟩, rfl, rfl, rfl⟩)

/-! ## Claim C2 -/

theorem execChunksAux_length : ∀ fuel (searches : List WebSearchItem)
    (beh : Nat → SearchBehavior) (cto : Nat → Bool) (i : Nat),
    searches.length ≤ i + fuel →
    (execChunksAux fuel searches beh cto i).length = searches.length - i := by
  intro fuel
  induction fuel with
  | zero =>
    intro searches beh cto i h
    simp only [execChunksAux, List.length_nil]
    omega
  | succ f ih =>
    intro searches beh cto i h
    simp only [execChunksAux]
    by_cases hi : i < searches.length
    · rw [if_pos hi]
      simp only [List.length_append]
      have hlen : (if cto i then ((searches.drop i).take 3).map chunkTimeoutResult
          else ((searches.drop i).take 3).enum.map
            (fun p => runSearchTask p.2 (beh (i + p.1)))).length =
          ((searches.drop i).take 3).length := by
        by_cases hc : cto i
        · rw [if_pos hc, List.length_map]
        · rw [if_neg hc, List.length_map, List.enum_length]
      rw [hlen, ih searches beh cto (i + 3) (by omega)]
      simp only [List.length_take, List.length_drop]
      omega
    · rw [if_neg hi]
      simp only [List.length_nil]
      omega

theorem execChunksAux_mem : ∀ fuel (searches : List WebSearchItem)
    (beh : Nat → SearchBehavior) (cto : Nat → Bool) (i : Nat) (r : SearchResult),
    r ∈ execChunksAux fuel searches beh cto i →
    (r.success = true ∧ r.error = none) ∨ (r.success = false ∧ r.error ≠ none) := by
  intro fuel
  induction fuel with
  | zero =>
    intro searches beh cto i r h
    simp [execChunksAux] at h
  | succ f ih =>
    intro searches beh cto i r h
    simp only [execChunksAux] at h
    by_cases hi : i < searches.length
    · rw [if_pos hi] at h
      rcases List.mem_append.mp h with h | h
      · by_cases hc : cto i
        · rw [if_pos hc] at h
          obtain ⟨x, _, rfl⟩ := List.mem_map.mp h
          right
          exact ⟨rfl, by simp [chunkTimeoutResult]⟩
        · rw [if_neg hc] at h
          obtain ⟨p, _, rfl⟩ := List.mem_map.mp h
          cases hb : beh (i + p.1) with
          | completes s c => left; simp [runSearchTask, hb]
          | timesOut => right; simp [runSearchTask, hb]
          | raisesErr m => right; simp [runSearchTask, hb]
      · exact ih searches beh cto (i + 3) r h
    · rw [if_neg hi] at h
      simp at h

/-- C2: for every plan of `T` tasks and any combination of per-task
completions, per-task timeouts, per-task raised errors and per-chunk batch
timeouts, `_execute_web_searches` returns exactly one outcome per input task
(a list of length `T`), each outcome tagged success (with no error field) or
failure (with an error message); no failure aborts the stage — the function
totally returns a plain list, never an exception. -/
theorem C2_executor_one_outcome_per_task (plan : WebSearchPlan)
    (beh : Nat → SearchBehavior) (cto : Nat → Bool) :
    (executeWebSearches plan beh cto).length = plan.searches.length ∧
    ∀ r ∈ executeWebSearches plan beh cto,
      (r.success = true ∧ r.error = none) ∨ (r.success = false ∧ r.error ≠ none) := by
  constructor
  · have := execChunksAux_length plan.searches.length plan.searches beh cto 0 (by omega)
    simpa [executeWebSearches] using this
  · intro r hr
    exact execChunksAux_mem _ _ _ _ _ r hr

/-- C2 witness: four tasks with a success, a task timeout, a raised error and
a batch-timed-out second chunk still yield exactly four tagged outcomes. -/
theorem C2_executor_one_outcome_per_task_witness :
    (executeWebSearches
      ⟨[⟨"r0".data, "q0".data⟩, ⟨"r1".data, "q1".data⟩, ⟨"r2".data, "q2".data⟩,
        ⟨"r3".data, "q3".data⟩], [], []⟩
      (fun j => if j = 0 then SearchBehavior.completes "s".data []
        else if j = 1 then SearchBehavior.timesOut
        else SearchBehavior.raisesErr "e".data)
      (fun i => decide (3 ≤ i))).length =
      ([⟨"r0".data, "q0".data⟩, ⟨"r1".data, "q1".data⟩, ⟨"r2".data, "q2".data⟩,
        (⟨"r3".data, "q3".data⟩ : WebSearchItem)] : List WebSearchItem).length ∧
    ∀ r ∈ executeWebSearches
      ⟨[⟨"r0".data, "q0".data⟩, ⟨"r1".data, "q1".data⟩, ⟨"r2".data, "q2".data⟩,
        ⟨"r3".data, "q3".data⟩], [], []⟩
      (fun j => if j = 0 then SearchBehavior.completes "s".data []
        else if j = 1 then SearchBehavior.timesOut
        else SearchBehavior.raisesErr "e".data)
      (fun i => decide (3 ≤ i)),
      (r.success = true ∧ r.error = none) ∨ (r.success = false ∧ r.error ≠ none) :=
  C2_executor_one_outcome_per_task _ _ _

/-! ## Claim C9 -/

/-- C9: the search executor never reads `priority_searches` — its output is
invariant under replacing them by anything — and in particular, for four
tasks with `priority_searches = [3]`, the first chunk executed consists of
tasks 0, 1, 2 in original order: the prioritized task 3 is *not* moved into
the first batch, contradicting both the spec's ordering policy and the
field's docstring in `planner_agent.py`. -/
theorem C9_priority_searches_ignored :
    (∀ (plan : WebSearchPlan) (pri : List Int) (beh : Nat → SearchBehavior)
      (cto : Nat → Bool),
      executeWebSearches ⟨plan.searches, pri, plan.areas_covered⟩ beh cto =
        executeWebSearches plan beh cto) ∧
    ((executeWebSearches
        ⟨[⟨"r0".data, "q0".data⟩, ⟨"r1".data, "q1".data⟩, ⟨"r2".data, "q2".data⟩,
          ⟨"r3".data, "q3".data⟩], [3], []⟩
        (fun _ => SearchBehavior.completes "s".data []) (fun _ => false)).take 3).map
      (fun r => r.query) = ["q0".data, "q1".data, "q2".data] := by
  constructor
  · intro plan pri beh cto
    rfl
  · rfl

/-! ## Claim C10 -/

/-- C10: `_normalize_reference_numbers` changes at most `markdown_report`:
every other key of the report dictionary is returned unchanged, and a report
without a `markdown_report` key is returned entirely unchanged. -/
theorem C10_normalize_frame (r : ReportDict) :
    (normalizeReferenceNumbers r).short_summary = r.short_summary ∧
    (normalizeReferenceNumbers r).follow_up_questions = r.follow_up_questions ∧
    (normalizeReferenceNumbers r).key_insights = r.key_insights ∧
    (normalizeReferenceNumbers r).information_gaps = r.information_gaps ∧
    (normalizeReferenceNumbers r).methodological_approach = r.methodological_approach ∧
    (normalizeReferenceNumbers r).citation_count = r.citation_count ∧
    (r.markdown_report = none → normalizeReferenceNumbers r = r) := by
  unfold normalizeReferenceNumbers
  cases h : r.markdown_report with
  | none => simp
  | some body => simp [h]

/-- C10 witness: a report carrying only a summary and a citation count (no
`markdown_report`) passes through unchanged. -/
theorem C10_normalize_frame_witness :
    (normalizeReferenceNumbers
      ⟨some "s".data, none, none, none, none, none, some 3⟩).short_summary =
      (⟨some "s".data, none, none, none, none, none, some 3⟩ : ReportDict).short_summary ∧
    (normalizeReferenceNumbers
      ⟨some "s".data, none, none, none, none, none, some 3⟩).follow_up_questions =
      (⟨some "s".data, none, none, none, none, none, some 3⟩ : ReportDict).follow_up_questions ∧
    (normalizeReferenceNumbers
      ⟨some "s".data, none, none, none, none, none, some 3⟩).key_insights =
      (⟨some "s".data, none, none, none, none, none, some 3⟩ : ReportDict).key_insights ∧
    (normalizeReferenceNumbers
      ⟨some "s".data, none, none, none, none, none, some 3⟩).information_gaps =
      (⟨some "s".data, none, none, none, none, none, some 3⟩ : ReportDict).information_gaps ∧
    (normalizeReferenceNumbers
      ⟨some "s".data, none, none, none, none, none, some 3⟩).methodological_approach =
      (⟨some "s".data, none, none, none, none, none,
        some 3⟩ : ReportDict).methodological_approach ∧
    (normalizeReferenceNumbers
      ⟨some "s".data, none, none, none, none, none, some 3⟩).citation_count =
      (⟨some "s".data, none, none, none, none, none, some 3⟩ : ReportDict).citation_count ∧
    ((⟨some "s".data, none, none, none, none, none, some 3⟩ : ReportDict).markdown_report =
        none →
      normalizeReferenceNumbers ⟨some "s".data, none, none, none, none, none, some 3⟩ =
        ⟨some "s".data, none, none, none, none, none, some 3⟩) :=
  C10_normalize_frame ⟨some "s".data, none, none, none, none, none, some 3⟩

/-! ## Claims C7 and C8 -/

theorem normalize_citation_count (r : ReportDict) :
    (normalizeReferenceNumbers r).citation_count = r.citation_count := by
  unfold normalizeReferenceNumbers
  cases r.markdown_report <;> rfl

/-- Every branch of the text-analysis chain returns a normalizer image. -/
theorem textAnalysisReport_normalized (content : Str) (allCit : List Citation) :
    ∃ d, textAnalysisReport content allCit = normalizeReferenceNumbers d := by
  unfold textAnalysisReport
  by_cases h1 : containsSub mdKeySub content
  · rw [if_pos h1]
    cases hs : jsonSearch mdKeyQuoted content with
    | some bodyRaw =>
      exact ⟨_, rfl⟩
    | none =>
      by_cases h2 : (containsSub "# ".data content && containsSub "## ".data content) = true
      · rw [if_pos h2]
        exact ⟨_, rfl⟩
      · rw [if_neg h2]
        exact ⟨_, rfl⟩
  · rw [if_neg h1]
    by_cases h2 : (containsSub "# ".data content && containsSub "## ".data content) = true
    · rw [if_pos h2]
      exact ⟨_, rfl⟩
    · rw [if_neg h2]
      exact ⟨_, rfl⟩

set_option maxRecDepth 100000 in
/-- C7 counterexample: when generation raises with a message containing an
inline citation marker, `_write_specialized_report` returns the error report
as built — a record that the reference normalizer would have changed, so this
return path did not pass the record through the normalizer. -/
theorem C7_error_path_counterexample :
    ∃ r, writeSpecializedReport [] [] false
        (GenOutcome.raises "([Reference 2]".data) = Except.ok (some r) ∧
      normalizeReferenceNumbers r ≠ r := by
  refine ⟨_, rfl, ?_⟩
  decide

/-- C7 amended: the three content-bearing return paths (structured dict, text
analysis, direct text) pass the report record through the reference
normalizer before returning, but the generation-timeout, no-content and
generation-error paths return their fixed dictionaries as built, without
normalization. -/
theorem C7_normalization_paths (web : List SearchResult) (isO3Mini : Bool)
    (text msg : Str) :
    (writeSpecializedReport web [] isO3Mini GenOutcome.timesOut =
      Except.ok (some (timeoutReport (allCitationsOf web isO3Mini)))) ∧
    (writeSpecializedReport web [] isO3Mini (GenOutcome.raises msg) =
      Except.ok (some (errorReport msg))) ∧
    (writeSpecializedReport web [] isO3Mini (GenOutcome.output none [] true) =
      Except.ok (some noContentReport)) ∧
    (text.isEmpty = false →
      ∃ d, writeSpecializedReport web [] isO3Mini (GenOutcome.output none text true) =
        Except.ok (some (normalizeReferenceNumbers d))) ∧
    (∃ d, writeSpecializedReport web [] isO3Mini
        (GenOutcome.output (some FinalOutput.other) text true) =
      Except.ok (some (normalizeReferenceNumbers d))) ∧
    (∀ ss md fu ki ig ma cc, (md.isSome || ss.isSome) = true →
      writeSpecializedReport web [] isO3Mini
          (GenOutcome.output (some (FinalOutput.dictLike ss md fu ki ig ma cc)) text true) =
        Except.ok (some (normalizeReferenceNumbers
          (structuredReport ss md fu ki ig ma cc (allCitationsOf web isO3Mini))))) := by
  refine ⟨rfl, rfl, rfl, ?_, ?_, ?_⟩
  · intro h
    refine ⟨assembledReport (truncate150 text) text "Direct response".data
      ((allCitationsOf web isO3Mini).length : Int), ?_⟩
    simp [writeSpecializedReport, h]
  · obtain ⟨d, hd⟩ := textAnalysisReport_normalized text (allCitationsOf web isO3Mini)
    refine ⟨d, ?_⟩
    rw [show writeSpecializedReport web [] isO3Mini
        (GenOutcome.output (some FinalOutput.other) text true) =
      Except.ok (some (textAnalysisReport text (allCitationsOf web isO3Mini))) from rfl, hd]
  · intro ss md fu ki ig ma cc h
    simp [writeSpecializedReport, h]

/-- C7 witness: one successful web search, non-o3-mini, nonempty direct text
and a nonempty error message instantiate all six path facts. -/
theorem C7_normalization_paths_witness :
    (writeSpecializedReport [⟨"q".data, "r".data, some "s".data, some [], none, true⟩] []
        false GenOutcome.timesOut =
      Except.ok (some (timeoutReport (allCitationsOf
        [⟨"q".data, "r".data, some "s".data, some [], none, true⟩] false)))) ∧
    (writeSpecializedReport [⟨"q".data, "r".data, some "s".data, some [], none, true⟩] []
        false (GenOutcome.raises "e".data) =
      Except.ok (some (errorReport "e".data))) ∧
    (writeSpecializedReport [⟨"q".data, "r".data, some "s".data, some [], none, true⟩] []
        false (GenOutcome.output none [] true) =
      Except.ok (some noContentReport)) ∧
    (("body".data : Str).isEmpty = false →
      ∃ d, writeSpecializedReport [⟨"q".data, "r".data, some "s".data, some [], none, true⟩]
          [] false (GenOutcome.output none "body".data true) =
        Except.ok (some (normalizeReferenceNumbers d))) ∧
    (∃ d, writeSpecializedReport [⟨"q".data, "r".data, some "s".data, some [], none, true⟩]
        [] false (GenOutcome.output (some FinalOutput.other) "body".data true) =
      Except.ok (some (normalizeReferenceNumbers d))) ∧
    (∀ ss md fu ki ig ma cc, (md.isSome || ss.isSome) = true →
      writeSpecializedReport [⟨"q".data, "r".data, some "s".data, some [], none, true⟩]
          [] false
          (GenOutcome.output (some (FinalOutput.dictLike ss md fu ki ig ma cc))
            "body".data true) =
        Except.ok (some (normalizeReferenceNumbers
          (structuredReport ss md fu ki ig ma cc (allCitationsOf
            [⟨"q".data, "r".data, some "s".data, some [], none, true⟩] false))))) :=
  C7_normalization_paths [⟨"q".data, "r".data, some "s".data, some [], none, true⟩]
    false "body".data "e".data

/-- C8 counterexample: two extracted citations sharing one URL give
`citation_count = 2`, the raw count — not the size `1` of the deduplicated
citation set, contradicting the claim. -/
theorem C8_citation_count_counterexample :
    ∃ r, writeSpecializedReport
        [⟨"q".data, "r".data, some "s".data,
          some [⟨"u".data, "t1".data, 0, 0⟩, ⟨"u".data, "t2".data, 0, 0⟩], none, true⟩] []
        false (GenOutcome.output none "body".data true) = Except.ok (some r) ∧
      r.citation_count = some 2 ∧
      (uniqueCitations (allCitationsOf
        [⟨"q".data, "r".data, some "s".data,
          some [⟨"u".data, "t1".data, 0, 0⟩, ⟨"u".data, "t2".data, 0, 0⟩], none, true⟩]
        false)).length = 1 ∧
      r.citation_count ≠ some ((uniqueCitations (allCitationsOf
        [⟨"q".data, "r".data, some "s".data,
          some [⟨"u".data, "t1".data, 0, 0⟩, ⟨"u".data, "t2".data, 0, 0⟩], none, true⟩]
        false)).length : Int) := by
  refine ⟨_, rfl, ?_, ?_, ?_⟩
  · decide
  · decide
  · decide

/-- C8 amended: on the direct-text return path (and likewise the other
extraction-driven paths), `citation_count` is the raw number of extracted
citation entries `len(all_citations)` — a non-negative count; deduplication
by URL feeds only the prompt's citation appendix, never the count. -/
theorem C8_citation_count_raw (web : List SearchResult) (isO3Mini : Bool)
    (text : Str) (hne : text.isEmpty = false) :
    ∃ r, writeSpecializedReport web [] isO3Mini (GenOutcome.output none text true) =
        Except.ok (some r) ∧
      r.citation_count = some ((allCitationsOf web isO3Mini).length : Int) ∧
      (0 : Int) ≤ ((allCitationsOf web isO3Mini).length : Int) := by
  refine ⟨normalizeReferenceNumbers (assembledReport (truncate150 text) text
    "Direct response".data ((allCitationsOf web isO3Mini).length : Int)), ?_, ?_, ?_⟩
  · simp [writeSpecializedReport, hne]
  · rw [normalize_citation_count]
    rfl
  · exact Int.ofNat_nonneg _

/-- C8 witness: the raw-count fact at one successful search carrying two
identical-URL citations and the body text `body`. -/
theorem C8_citation_count_raw_witness :
    ∃ r, writeSpecializedReport
        [⟨"q".data, "r".data, some "s".data,
          some [⟨"u".data, "t1".data, 0, 0⟩, ⟨"u".data, "t2".data, 0, 0⟩], none, true⟩] []
        false (GenOutcome.output none "body".data true) = Except.ok (some r) ∧
      r.citation_count = some ((allCitationsOf
        [⟨"q".data, "r".data, some "s".data,
          some [⟨"u".data, "t1".data, 0, 0⟩, ⟨"u".data, "t2".data, 0, 0⟩], none, true⟩]
        false).length : Int) ∧
      (0 : Int) ≤ ((allCitationsOf
        [⟨"q".data, "r".data, some "s".data,
          some [⟨"u".data, "t1".data, 0, 0⟩, ⟨"u".data, "t2".data, 0, 0⟩], none, true⟩]
        false).length : Int) :=
  C8_citation_count_raw
    [⟨"q".data, "r".data, some "s".data,
      some [⟨"u".data, "t1".data, 0, 0⟩, ⟨"u".data, "t2".data, 0, 0⟩], none, true⟩]
    false "body".data rfl

/-! ## The reference map: deduplication, sorting, ranks -/

theorem dedupFirstAux_congr : ∀ f1 f2 (l : List Str), l.length ≤ f1 → l.length ≤ f2 →
    dedupFirstAux f1 l = dedupFirstAux f2 l := by
  intro f1
  induction f1 with
  | zero =>
    intro f2 l h1 _
    have : l = [] := List.length_eq_zero.mp (by omega)
    subst this
    cases f2 <;> rfl
  | succ f ih =>
    intro f2 l h1 h2
    cases l with
    | nil => cases f2 <;> rfl
    | cons d rest =>
      cases f2 with
      | zero => simp at h2
      | succ g =>
        simp only [dedupFirstAux]
        congr 1
        exact ih g (rest.filter (· ≠ d))
          (le_trans (List.length_filter_le _ _) (by simpa using h1))
          (le_trans (List.length_filter_le _ _) (by simpa using h2))

theorem dedupFirst_cons (d : Str) (rest : List Str) :
    dedupFirst (d :: rest) = d :: dedupFirst (rest.filter (· ≠ d)) := by
  show dedupFirstAux (rest.length + 1) (d :: rest) = _
  simp only [dedupFirstAux]
  congr 1
  exact dedupFirstAux_congr rest.length (rest.filter (· ≠ d)).length _
    (List.length_filter_le _ _) le_rfl

theorem mem_dedupFirst : ∀ (l : List Str) (x : Str), x ∈ dedupFirst l ↔ x ∈ l := by
  suffices H : ∀ n (l : List Str), l.length = n → ∀ x, (x ∈ dedupFirst l ↔ x ∈ l) by
    exact fun l x => H l.length l rfl x
  intro n
  induction n using Nat.strong_induction_on with
  | _ n ih =>
    intro l hn x
    subst hn
    cases l with
    | nil => simp [dedupFirst, dedupFirstAux]
    | cons d rest =>
      rw [dedupFirst_cons]
      constructor
      · intro h
        rcases List.mem_cons.mp h with rfl | h
        · exact List.mem_cons_self _ _
        · have := (ih (rest.filter (· ≠ d)).length
            (by have := List.length_filter_le (fun x => decide (x ≠ d)) rest
                simp only [List.length_cons]; omega)
            _ rfl x).mp h
          exact List.mem_cons_of_mem _ (List.mem_filter.mp this).1
      · intro h
        rcases List.mem_cons.mp h with rfl | h
        · exact List.mem_cons_self _ _
        · by_cases hxd : x = d
          · exact hxd ▸ List.mem_cons_self _ _
          · refine List.mem_cons_of_mem _ ?_
            refine (ih (rest.filter (· ≠ d)).length
              (by have := List.length_filter_le (fun x => decide (x ≠ d)) rest
                  simp only [List.length_cons]; omega)
              _ rfl x).mpr ?_
            exact List.mem_filter.mpr ⟨h, by simpa using hxd⟩

theorem nodup_dedupFirst : ∀ (l : List Str), (dedupFirst l).Nodup := by
  suffices H : ∀ n (l : List Str), l.length = n → (dedupFirst l).Nodup by
    exact fun l => H l.length l rfl
  intro n
  induction n using Nat.strong_induction_on with
  | _ n ih =>
    intro l hn
    subst hn
    cases l with
    | nil => simp [dedupFirst, dedupFirstAux]
    | cons d rest =>
      rw [dedupFirst_cons]
      refine List.nodup_cons.mpr ⟨?_, ?_⟩
      · intro h
        have := (mem_dedupFirst _ d).mp h
        have := (List.mem_filter.mp this).2
        simp at this
      · exact ih (rest.filter (· ≠ d)).length
          (by have := List.length_filter_le (fun x => decide (x ≠ d)) rest
              simp only [List.length_cons]; omega) _ rfl

theorem enumFrom_map_rank : ∀ (l : List Str) (n : Nat),
    (List.enumFrom n l).map (fun p => (p.2, p.1 + 1)) = rankMapFrom n l := by
  intro l
  induction l with
  | nil => intro n; rfl
  | cons d rest ih =>
    intro n
    simp only [List.enumFrom, List.map_cons, rankMapFrom]
    rw [ih (n + 1)]

theorem buildRefMap_eq (refs : List Str) :
    buildRefMap refs = rankMapFrom 0
      (List.insertionSort (fun a b => digitsToNat a ≤ digitsToNat b)
        (dedupFirst refs)) := by
  unfold buildRefMap
  exact enumFrom_map_rank _ 0

theorem rankMapFrom_length : ∀ (l : List Str) (base : Nat),
    (rankMapFrom base l).length = l.length := by
  intro l
  induction l with
  | nil => intro base; rfl
  | cons d rest ih => intro base; simp [rankMapFrom, ih]

theorem mem_rankMapFrom : ∀ (l : List Str) (base : Nat) (p : Str × Nat),
    p ∈ rankMapFrom base l → p.1 ∈ l ∧ base < p.2 ∧ p.2 ≤ base + l.length := by
  intro l
  induction l with
  | nil => intro base p h; simp [rankMapFrom] at h
  | cons d rest ih =>
    intro base p h
    rcases List.mem_cons.mp h with rfl | h
    · exact ⟨List.mem_cons_self _ _, by omega, by simp only [List.length_cons]; omega⟩
    · obtain ⟨h1, h2, h3⟩ := ih (base + 1) p h
      exact ⟨List.mem_cons_of_mem _ h1, by omega, by simp only [List.length_cons]; omega⟩

theorem lookupRef_rankMapFrom_bounds : ∀ (l : List Str) (base : Nat) (d : Str) (v : Nat),
    lookupRef (rankMapFrom base l) d = some v → base < v ∧ v ≤ base + l.length := by
  intro l
  induction l with
  | nil => intro base d v h; exact absurd h (by simp [rankMapFrom, lookupRef])
  | cons k rest ih =>
    intro base d v h
    rw [show rankMapFrom base (k :: rest) =
      (k, base + 1) :: rankMapFrom (base + 1) rest from rfl] at h
    by_cases hk : k = d
    · rw [show lookupRef ((k, base + 1) :: rankMapFrom (base + 1) rest) d =
        if k = d then some (base + 1) else lookupRef (rankMapFrom (base + 1) rest) d
        from rfl, if_pos hk] at h
      injection h with h
      subst h
      simp only [List.length_cons]
      omega
    · rw [show lookupRef ((k, base + 1) :: rankMapFrom (base + 1) rest) d =
        if k = d then some (base + 1) else lookupRef (rankMapFrom (base + 1) rest) d
        from rfl, if_neg hk] at h
      obtain ⟨h1, h2⟩ := ih (base + 1) d v h
      simp only [List.length_cons]
      omega

theorem lookupRef_rankMapFrom_exists : ∀ (l : List Str) (base : Nat) (d : Str),
    d ∈ l → ∃ v, lookupRef (rankMapFrom base l) d = some v := by
  intro l
  induction l with
  | nil => intro base d h; simp at h
  | cons k rest ih =>
    intro base d h
    by_cases hk : k = d
    · exact ⟨base + 1, by
        rw [show lookupRef (rankMapFrom base (k :: rest)) d =
          if k = d then some (base + 1) else lookupRef (rankMapFrom (base + 1) rest) d
          from rfl, if_pos hk]⟩
    · rcases List.mem_cons.mp h with rfl | h
      · exact absurd rfl hk
      · obtain ⟨v, hv⟩ := ih (base + 1) d h
        exact ⟨v, by
          rw [show lookupRef (rankMapFrom base (k :: rest)) d =
            if k = d then some (base + 1) else lookupRef (rankMapFrom (base + 1) rest) d
            from rfl, if_neg hk, hv]⟩

theorem lookupRef_rankMapFrom_surj : ∀ (l : List Str) (base v : Nat), l.Nodup →
    base < v → v ≤ base + l.length →
    ∃ d, d ∈ l ∧ lookupRef (rankMapFrom base l) d = some v := by
  intro l
  induction l with
  | nil =>
    intro base v _ h1 h2
    simp only [List.length_nil] at h2
    omega
  | cons k rest ih =>
    intro base v hnd h1 h2
    by_cases hv : v = base + 1
    · subst hv
      exact ⟨k, List.mem_cons_self _ _, by
        rw [show lookupRef (rankMapFrom base (k :: rest)) k =
          if k = k then some (base + 1) else lookupRef (rankMapFrom (base + 1) rest) k
          from rfl, if_pos rfl]⟩
    · obtain ⟨d, hd1, hd2⟩ := ih (base + 1) v (List.nodup_cons.mp hnd).2 (by omega)
        (by simp only [List.length_cons] at h2; omega)
      refine ⟨d, List.mem_cons_of_mem _ hd1, ?_⟩
      have hkd : k ≠ d := fun h => (List.nodup_cons.mp hnd).1 (h ▸ hd1)
      rw [show lookupRef (rankMapFrom base (k :: rest)) d =
        if k = d then some (base + 1) else lookupRef (rankMapFrom (base + 1) rest) d
        from rfl, if_neg hkd, hd2]

theorem lookupRef_rankMapFrom_mem : ∀ (l : List Str) (base : Nat) (d : Str) (v : Nat),
    lookupRef (rankMapFrom base l) d = some v → d ∈ l := by
  intro l
  induction l with
  | nil => intro base d v h; exact absurd h (by simp [rankMapFrom, lookupRef])
  | cons k rest ih =>
    intro base d v h
    rw [show lookupRef (rankMapFrom base (k :: rest)) d =
      if k = d then some (base + 1) else lookupRef (rankMapFrom (base + 1) rest) d
      from rfl] at h
    by_cases hk : k = d
    · exact hk ▸ List.mem_cons_self _ _
    · rw [if_neg hk] at h
      exact List.mem_cons_of_mem _ (ih (base + 1) d v h)

theorem lookupRef_rankMapFrom_mono : ∀ (l : List Str) (base : Nat) (d1 d2 : Str)
    (v1 v2 : Nat),
    List.Pairwise (fun a b => digitsToNat a < digitsToNat b) l →
    digitsToNat d1 < digitsToNat d2 →
    lookupRef (rankMapFrom base l) d1 = some v1 →
    lookupRef (rankMapFrom base l) d2 = some v2 → v1 < v2 := by
  intro l
  induction l with
  | nil =>
    intro base d1 d2 v1 v2 _ _ h1 _
    exact absurd h1 (by simp [rankMapFrom, lookupRef])
  | cons k rest ih =>
    intro base d1 d2 v1 v2 hp hval h1 h2
    rw [show lookupRef (rankMapFrom base (k :: rest)) d1 =
      if k = d1 then some (base + 1) else lookupRef (rankMapFrom (base + 1) rest) d1
      from rfl] at h1
    rw [show lookupRef (rankMapFrom base (k :: rest)) d2 =
      if k = d2 then some (base + 1) else lookupRef (rankMapFrom (base + 1) rest) d2
      from rfl] at h2
    by_cases hk1 : k = d1
    · rw [if_pos hk1] at h1
      injection h1 with h1
      by_cases hk2 : k = d2
      · exfalso
        rw [← hk1, ← hk2] at hval
        omega
      · rw [if_neg hk2] at h2
        have := (lookupRef_rankMapFrom_bounds rest (base + 1) d2 v2 h2).1
        omega
    · rw [if_neg hk1] at h1
      by_cases hk2 : k = d2
      · exfalso
        have hd1mem : d1 ∈ rest := lookupRef_rankMapFrom_mem rest (base + 1) d1 v1 h1
        have := (List.pairwise_cons.mp hp).1 d1 hd1mem
        rw [hk2] at this
        omega
      · rw [if_neg hk2] at h2
        exact ih (base + 1) d1 d2 v1 v2 (List.pairwise_cons.mp hp).2 hval h1 h2

theorem chainRename_skip : ∀ (m : List (Str × Nat)) (x : Str),
    (∀ p ∈ m, x ≠ p.1) → chainRename m x = x := by
  intro m
  induction m with
  | nil => intro x _; rfl
  | cons p m ih =>
    intro x h
    rw [show chainRename (p :: m) x =
      chainRename m (if x = p.1 then natDigits p.2 else x) from rfl,
      if_neg (h p (List.mem_cons_self _ _))]
    exact ih x (fun q hq => h q (List.mem_cons_of_mem _ hq))

/-- The composite renaming sends each key of a strictly value-increasing rank
map to the numeral of its rank: no later pattern ever collides with an
earlier replacement value. -/
theorem chainRename_rankMapFrom : ∀ (l : List Str) (base : Nat) (d : Str) (v : Nat),
    List.Pairwise (fun a b => digitsToNat a < digitsToNat b) l →
    (∀ x ∈ l, base < digitsToNat x) →
    lookupRef (rankMapFrom base l) d = some v →
    chainRename (rankMapFrom base l) d = natDigits v := by
  intro l
  induction l with
  | nil =>
    intro base d v _ _ h
    exact absurd h (by simp [rankMapFrom, lookupRef])
  | cons k rest ih =>
    intro base d v hp hb h
    rw [show lookupRef (rankMapFrom base (k :: rest)) d =
      if k = d then some (base + 1) else lookupRef (rankMapFrom (base + 1) rest) d
      from rfl] at h
    rw [show chainRename (rankMapFrom base (k :: rest)) d =
      chainRename (rankMapFrom (base + 1) rest)
        (if d = k then natDigits (base + 1) else d) from rfl]
    by_cases hk : k = d
    · rw [if_pos hk] at h
      injection h with h
      subst h
      rw [if_pos hk.symm]
      refine chainRename_skip _ _ ?_
      intro p hpm heq
      obtain ⟨hp1, -, -⟩ := mem_rankMapFrom rest (base + 1) p hpm
      have hv1 := (List.pairwise_cons.mp hp).1 p.1 hp1
      have hv2 := hb k (List.mem_cons_self _ _)
      have := congrArg digitsToNat heq
      rw [digitsToNat_natDigits] at this
      omega
    · rw [if_neg hk] at h
      rw [if_neg (fun hh => hk hh.symm)]
      refine ih (base + 1) d v (List.pairwise_cons.mp hp).2 ?_ h
      intro x hx
      have hv1 := (List.pairwise_cons.mp hp).1 x hx
      have hv2 := hb k (List.mem_cons_self _ _)
      omega

/-- Keys of the rank map built over the canonical numerals `base+1 … base+K`
are the numerals of their own ranks. -/
theorem rankMapFrom_natDigitsSeq_key : ∀ (K base : Nat),
    ∀ p ∈ rankMapFrom base (natDigitsSeq base K), p.1 = natDigits p.2 := by
  intro K
  induction K with
  | zero => intro base p h; simp [natDigitsSeq, rankMapFrom] at h
  | succ K ih =>
    intro base p h
    rw [show rankMapFrom base (natDigitsSeq base (K + 1)) =
      (natDigits (base + 1), base + 1) ::
        rankMapFrom (base + 1) (natDigitsSeq (base + 1) K) from rfl] at h
    rcases List.mem_cons.mp h with rfl | h
    · rfl
    · exact ih (base + 1) p h

theorem mem_natDigitsSeq : ∀ (K base : Nat) (x : Str),
    x ∈ natDigitsSeq base K ↔ ∃ j, base < j ∧ j ≤ base + K ∧ x = natDigits j := by
  intro K
  induction K with
  | zero =>
    intro base x
    simp only [natDigitsSeq, List.not_mem_nil, false_iff]
    rintro ⟨j, h1, h2, -⟩
    omega
  | succ K ih =>
    intro base x
    rw [show natDigitsSeq base (K + 1) =
      natDigits (base + 1) :: natDigitsSeq (base + 1) K from rfl]
    constructor
    · intro h
      rcases List.mem_cons.mp h with rfl | h
      · exact ⟨base + 1, by omega, by omega, rfl⟩
      · obtain ⟨j, h1, h2, h3⟩ := (ih (base + 1) x).mp h
        exact ⟨j, by omega, by omega, h3⟩
    · rintro ⟨j, h1, h2, rfl⟩
      by_cases hj : j = base + 1
      · subst hj
        exact List.mem_cons_self _ _
      · exact List.mem_cons_of_mem _ ((ih (base + 1) (natDigits j)).mpr
          ⟨j, by omega, by omega, rfl⟩)

theorem pairwise_natDigitsSeq : ∀ (K base : Nat),
    List.Pairwise (fun a b => digitsToNat a < digitsToNat b) (natDigitsSeq base K) := by
  intro K
  induction K with
  | zero => intro base; exact List.Pairwise.nil
  | succ K ih =>
    intro base
    rw [show natDigitsSeq base (K + 1) =
      natDigits (base + 1) :: natDigitsSeq (base + 1) K from rfl]
    refine List.pairwise_cons.mpr ⟨?_, ih (base + 1)⟩
    intro x hx
    obtain ⟨j, h1, -, rfl⟩ := (mem_natDigitsSeq K (base + 1) x).mp hx
    rw [digitsToNat_natDigits, digitsToNat_natDigits]
    omega

/-- Two strictly value-increasing lists with the same members are equal. -/
theorem pairwise_lt_unique : ∀ (l1 l2 : List Str),
    List.Pairwise (fun a b => digitsToNat a < digitsToNat b) l1 →
    List.Pairwise (fun a b => digitsToNat a < digitsToNat b) l2 →
    (∀ x, x ∈ l1 ↔ x ∈ l2) → l1 = l2 := by
  intro l1
  induction l1 with
  | nil =>
    intro l2 _ _ hmem
    cases l2 with
    | nil => rfl
    | cons b t => exact absurd ((hmem b).mpr (List.mem_cons_self _ _)) (by simp)
  | cons a t1 ih =>
    intro l2 h1 h2 hmem
    cases l2 with
    | nil => exact absurd ((hmem a).mp (List.mem_cons_self _ _)) (by simp)
    | cons b t2 =>
      have hab : a = b := by
        rcases List.mem_cons.mp ((hmem a).mp (List.mem_cons_self a t1)) with h | h
        · exact h
        · rcases List.mem_cons.mp ((hmem b).mpr (List.mem_cons_self b t2)) with h2m | h2m
          · exact h2m.symm
          · have hba := (List.pairwise_cons.mp h2).1 a h
            have hab2 := (List.pairwise_cons.mp h1).1 b h2m
            omega
      subst hab
      have hmem2 : ∀ x, x ∈ t1 ↔ x ∈ t2 := by
        intro x
        constructor
        · intro hx
          have hlt := (List.pairwise_cons.mp h1).1 x hx
          rcases List.mem_cons.mp ((hmem x).mp (List.mem_cons_of_mem a hx)) with rfl | h
          · omega
          · exact h
        · intro hx
          have hlt := (List.pairwise_cons.mp h2).1 x hx
          rcases List.mem_cons.mp ((hmem x).mpr (List.mem_cons_of_mem a hx)) with rfl | h
          · omega
          · exact h
      rw [ih t2 (List.pairwise_cons.mp h1).2 (List.pairwise_cons.mp h2).2 hmem2]

/-- `sorted(set(refs), key=int)` on canonical numerals is strictly
value-increasing. -/
theorem pairwise_lt_sortedDedup (refs : List Str) (hc : ∀ d ∈ refs, CanonPos d) :
    List.Pairwise (fun a b => digitsToNat a < digitsToNat b)
      (List.insertionSort (fun a b => digitsToNat a ≤ digitsToNat b)
        (dedupFirst refs)) := by
  haveI : IsTotal Str (fun a b => digitsToNat a ≤ digitsToNat b) :=
    ⟨fun a b => Nat.le_total _ _⟩
  haveI : IsTrans Str (fun a b => digitsToNat a ≤ digitsToNat b) :=
    ⟨fun a b c h1 h2 => Nat.le_trans h1 h2⟩
  have hsorted := List.sorted_insertionSort
    (fun a b => digitsToNat a ≤ digitsToNat b) (dedupFirst refs)
  have hperm := List.perm_insertionSort
    (fun a b => digitsToNat a ≤ digitsToNat b) (dedupFirst refs)
  have hnodup : (List.insertionSort (fun a b => digitsToNat a ≤ digitsToNat b)
      (dedupFirst refs)).Nodup := hperm.nodup_iff.mpr (nodup_dedupFirst refs)
  have hmc : ∀ d ∈ List.insertionSort (fun a b => digitsToNat a ≤ digitsToNat b)
      (dedupFirst refs), CanonPos d :=
    fun d hd => hc d ((mem_dedupFirst refs d).mp (hperm.mem_iff.mp hd))
  refine List.Pairwise.imp_of_mem ?_ (hsorted.and hnodup)
  intro a b ha hb hab
  exact lt_of_le_of_ne hab.1
    (fun hv => hab.2 (canonPos_inj (hmc a ha) (hmc b hb) hv))

theorem mem_sortedDedup (refs : List Str) (x : Str) :
    x ∈ List.insertionSort (fun a b => digitsToNat a ≤ digitsToNat b)
      (dedupFirst refs) ↔ x ∈ refs := by
  rw [(List.perm_insertionSort _ _).mem_iff, mem_dedupFirst]

/-! ## The composite renaming of the inline loop -/

theorem scanItems_applyChain : ∀ (m : List (Str × Nat)) (items : List PItem),
    scanItems (applyChain m items) = (scanItems items).map (chainRename m) := by
  intro m
  induction m with
  | nil =>
    intro items
    rw [show applyChain [] items = items from rfl]
    rw [show chainRename ([] : List (Str × Nat)) = fun d => d from rfl]
    simp
  | cons p m ih =>
    intro items
    rw [show applyChain (p :: m) items =
      applyChain m (mapMark p.1 (natDigits p.2) items) from rfl]
    rw [ih (mapMark p.1 (natDigits p.2) items), scanItems_mapMark, List.map_map]
    rfl

theorem markDigits_applyChain : ∀ (m : List (Str × Nat)) (items : List PItem),
    markDigits (applyChain m items) = (markDigits items).map (chainRename m) := by
  intro m
  induction m with
  | nil =>
    intro items
    rw [show applyChain [] items = items from rfl]
    rw [show chainRename ([] : List (Str × Nat)) = fun d => d from rfl]
    simp
  | cons p m ih =>
    intro items
    rw [show applyChain (p :: m) items =
      applyChain m (mapMark p.1 (natDigits p.2) items) from rfl]
    rw [ih (mapMark p.1 (natDigits p.2) items), markDigits_mapMark, List.map_map]
    rfl

theorem wf_applyChain : ∀ (m : List (Str × Nat)) {items : List PItem},
    WfItems items → WfItems (applyChain m items) := by
  intro m
  induction m with
  | nil => intro items h; exact h
  | cons p m ih =>
    intro items h
    exact ih (wf_mapMark (goodDigits_natDigits p.2) h)

/-- The whole inline replacement loop acts marker-wise. -/
theorem applyInline_renderB : ∀ (m : List (Str × Nat)) (items : List PItem),
    WfItems items → (∀ p ∈ m, GoodDigits p.1) →
    applyInline m (renderB items) = renderB (applyChain m items) := by
  intro m
  induction m with
  | nil => intro items _ _; rfl
  | cons p m ih =>
    intro items hwf hm
    rw [show applyInline (p :: m) (renderB items) =
      applyInline m (replaceAll (mrk p.1) (mrk (natDigits p.2)) (renderB items))
      from rfl]
    rw [replaceAll_render (hm p (List.mem_cons_self _ _)) hwf]
    exact ih _ (wf_mapMark (goodDigits_natDigits p.2) hwf)
      (fun q hq => hm q (List.mem_cons_of_mem _ hq))

/-- What the inline loop does to the scanned inline citations: it maps each
through the composite renaming. -/
theorem findRefs_applyInline (m : List (Str × Nat)) (hm : ∀ p ∈ m, GoodDigits p.1)
    (body : Str) :
    findRefs (applyInline m body) = (findRefs body).map (chainRename m) := by
  conv_lhs => rw [← renderB_parseB body]
  rw [applyInline_renderB m _ (wf_parseB body) hm,
    findRefs_eq_scanItems (wf_applyChain m (wf_parseB body)),
    scanItems_applyChain]
  congr 1
  rw [← findRefs_eq_scanItems (wf_parseB body), renderB_parseB]

/-- The branch structure of `normBody`, with its local bindings expanded. -/
theorem normBody_eq (body : Str) : normBody body =
    if (findRefs body).isEmpty then body
    else
      match searchRefSection (applyInline (buildRefMap (findRefs body)) body) with
      | none => applyInline (buildRefMap (findRefs body)) body
      | some sec =>
        if (findNumLinkPairs sec).isEmpty
        then applyInline (buildRefMap (findRefs body)) body
        else applySectionPairs (buildRefMap (findRefs body)) (findNumLinkPairs sec)
          (applyInline (buildRefMap (findRefs body)) body) := rfl

/-- The references-section phase never changes the scanned inline
citations, so the scan of `normBody`'s output is the scan of the inline
phase's output. -/
theorem findRefs_normBody (body : Str) :
    findRefs (normBody body) =
      findRefs (applyInline (buildRefMap (findRefs body)) body) := by
  rw [normBody_eq]
  by_cases h : (findRefs body).isEmpty
  · rw [if_pos h]
    have hrefs : findRefs body = [] := by
      cases hr : findRefs body with
      | nil => rfl
      | cons a t => rw [hr] at h; exact absurd h (by simp [List.isEmpty])
    rw [hrefs, show buildRefMap [] = [] from rfl,
      show applyInline ([] : List (Str × Nat)) body = body from rfl, hrefs]
  · rw [if_neg h]
    generalize applyInline (buildRefMap (findRefs body)) body = b1
    cases hs : searchRefSection b1 with
    | none => rfl
    | some sec =>
      show findRefs (if (findNumLinkPairs sec).isEmpty = true
        then b1
        else applySectionPairs (buildRefMap (findRefs body)) (findNumLinkPairs sec) b1) =
        findRefs b1
      by_cases hp : (findNumLinkPairs sec).isEmpty
      · rw [if_pos hp]
      · rw [if_neg hp]
        exact findRefs_applySectionPairs (buildRefMap (findRefs body))
          (findNumLinkPairs sec) b1
          (fun p hpm => (findNumLinkPairs_wf sec p.1 p.2 hpm).1)

/-! ## Claim C1 -/

/-- C1 counterexample: markers written in the claim's form `(Reference N)` —
without the bracket — are present (the spec-modelled scanner finds 2 and 3),
yet the normalizer does not touch them: the code scans only
`\(\[Reference (\d+)\]`, so after "normalization" the numbers are still 2
and 3, not 1..K. -/
theorem C1_marker_form_counterexample :
    normBody "(Reference 2) and (Reference 3)".data =
      "(Reference 2) and (Reference 3)".data ∧
    findParenRefs "(Reference 2) and (Reference 3)".data = ["2".data, "3".data] ∧
    findRefs "(Reference 2) and (Reference 3)".data = [] := by
  refine ⟨rfl, by decide, by decide⟩

/-- C1 amended: for a body whose scanned markers — which have the form
`([Reference N]`, not the claim's `(Reference N)` — all carry canonical
positive numerals, the normalizer maps every occurrence of the same old
numeral to the numeral of its rank in the ascending numeric order of the
distinct old numerals; the distinct new numerals are exactly `1..K`, and the
rank assignment is strictly increasing in the numeric value of the old
numeral.  (Without canonicity the sequential `str.replace` chain collides;
see the C5 counterexample.) -/
theorem C1_normalize_renumbers (body : Str)
    (hne : findRefs body ≠ [])
    (hcanon : ∀ d ∈ findRefs body, CanonPos d) :
    (∀ r : ReportDict, r.markdown_report = some body →
      (normalizeReferenceNumbers r).markdown_report = some (normBody body)) ∧
    findRefs (normBody body) =
      (findRefs body).map
        (fun d => natDigits ((lookupRef (buildRefMap (findRefs body)) d).getD 0)) ∧
    (∀ x, x ∈ findRefs (normBody body) ↔
      ∃ j, 1 ≤ j ∧ j ≤ (buildRefMap (findRefs body)).length ∧ x = natDigits j) ∧
    (∀ d1 d2 v1 v2, digitsToNat d1 < digitsToNat d2 →
      lookupRef (buildRefMap (findRefs body)) d1 = some v1 →
      lookupRef (buildRefMap (findRefs body)) d2 = some v2 → v1 < v2) := by
  have hpair := pairwise_lt_sortedDedup (findRefs body) hcanon
  have hnodup : (List.insertionSort (fun a b => digitsToNat a ≤ digitsToNat b)
      (dedupFirst (findRefs body))).Nodup :=
    (List.perm_insertionSort _ _).nodup_iff.mpr (nodup_dedupFirst _)
  have hb0 : ∀ x ∈ List.insertionSort (fun a b => digitsToNat a ≤ digitsToNat b)
      (dedupFirst (findRefs body)), 0 < digitsToNat x :=
    fun x hx => (hcanon x ((mem_sortedDedup _ x).mp hx)).2
  have hgd : ∀ p ∈ buildRefMap (findRefs body), GoodDigits p.1 := by
    intro p hp
    rw [buildRefMap_eq] at hp
    exact canonPos_goodDigits
      (hcanon p.1 ((mem_sortedDedup _ p.1).mp (mem_rankMapFrom _ 0 p hp).1))
  have hkey : findRefs (normBody body) =
      (findRefs body).map (chainRename (buildRefMap (findRefs body))) := by
    rw [findRefs_normBody, findRefs_applyInline _ hgd]
  refine ⟨?_, ?_, ?_, ?_⟩
  · intro r hr
    simp [normalizeReferenceNumbers, hr]
  · rw [hkey]
    refine List.map_congr_left ?_
    intro d hd
    obtain ⟨v, hv⟩ := lookupRef_rankMapFrom_exists _ 0 d ((mem_sortedDedup _ d).mpr hd)
    rw [buildRefMap_eq, chainRename_rankMapFrom _ 0 d v hpair hb0 hv, hv]
    rfl
  · intro x
    rw [hkey]
    constructor
    · intro hx
      obtain ⟨d, hd, rfl⟩ := List.mem_map.mp hx
      obtain ⟨v, hv⟩ := lookupRef_rankMapFrom_exists _ 0 d ((mem_sortedDedup _ d).mpr hd)
      obtain ⟨hv1, hv2⟩ := lookupRef_rankMapFrom_bounds _ 0 d v hv
      refine ⟨v, by omega, ?_, ?_⟩
      · rw [buildRefMap_eq, rankMapFrom_length]
        omega
      · rw [buildRefMap_eq, chainRename_rankMapFrom _ 0 d v hpair hb0 hv]
    · rintro ⟨j, hj1, hj2, rfl⟩
      rw [buildRefMap_eq, rankMapFrom_length] at hj2
      obtain ⟨d, hd, hv⟩ := lookupRef_rankMapFrom_surj _ 0 j hnodup (by omega)
        (by omega)
      refine List.mem_map.mpr ⟨d, (mem_sortedDedup _ d).mp hd, ?_⟩
      rw [buildRefMap_eq, chainRename_rankMapFrom _ 0 d j hpair hb0 hv]
  · intro d1 d2 v1 v2 hval h1 h2
    rw [buildRefMap_eq] at h1 h2
    exact lookupRef_rankMapFrom_mono _ 0 d1 d2 v1 v2 hpair hval h1 h2

/-- C1 witness: body with scanned markers 7, 3, 7 (canonical, with gaps and a
duplicate): the renumbering facts at this input. -/
theorem C1_normalize_renumbers_witness :
    (∀ r : ReportDict, r.markdown_report =
        some "([Reference 7] ([Reference 3] ([Reference 7]".data →
      (normalizeReferenceNumbers r).markdown_report =
        some (normBody "([Reference 7] ([Reference 3] ([Reference 7]".data)) ∧
    findRefs (normBody "([Reference 7] ([Reference 3] ([Reference 7]".data) =
      (findRefs "([Reference 7] ([Reference 3] ([Reference 7]".data).map
        (fun d => natDigits ((lookupRef
          (buildRefMap (findRefs "([Reference 7] ([Reference 3] ([Reference 7]".data))
          d).getD 0)) ∧
    (∀ x, x ∈ findRefs (normBody "([Reference 7] ([Reference 3] ([Reference 7]".data) ↔
      ∃ j, 1 ≤ j ∧ j ≤ (buildRefMap
        (findRefs "([Reference 7] ([Reference 3] ([Reference 7]".data)).length ∧
        x = natDigits j) ∧
    (∀ d1 d2 v1 v2, digitsToNat d1 < digitsToNat d2 →
      lookupRef (buildRefMap
        (findRefs "([Reference 7] ([Reference 3] ([Reference 7]".data)) d1 = some v1 →
      lookupRef (buildRefMap
        (findRefs "([Reference 7] ([Reference 3] ([Reference 7]".data)) d2 = some v2 →
      v1 < v2) :=
  C1_normalize_renumbers "([Reference 7] ([Reference 3] ([Reference 7]".data
    (by decide) (by decide)

/-! ## Claim C5 -/

theorem lookupRef_mem : ∀ (m : List (Str × Nat)) (d : Str) (v : Nat),
    lookupRef m d = some v → (d, v) ∈ m := by
  intro m
  induction m with
  | nil => intro d v h; exact absurd h (by simp [lookupRef])
  | cons p rest ih =>
    intro d v h
    obtain ⟨k, w⟩ := p
    rw [show lookupRef ((k, w) :: rest) d =
      if k = d then some w else lookupRef rest d from rfl] at h
    by_cases hk : k = d
    · rw [if_pos hk] at h
      injection h with h
      subst h
      subst hk
      exact List.mem_cons_self _ _
    · rw [if_neg hk] at h
      exact List.mem_cons_of_mem _ (ih d v h)

/-- An inline loop whose map sends every key to its own numeral is the
identity. -/
theorem applyInline_id : ∀ (m : List (Str × Nat)) (b : Str),
    (∀ p ∈ m, p.1 = natDigits p.2) → applyInline m b = b := by
  intro m
  induction m with
  | nil => intro b _; rfl
  | cons p rest ih =>
    intro b h
    rw [show applyInline (p :: rest) b =
      applyInline rest (replaceAll (mrk p.1) (mrk (natDigits p.2)) b) from rfl,
      ← h p (List.mem_cons_self _ _), replaceAll_self]
    exact ih b (fun q hq => h q (List.mem_cons_of_mem _ hq))

/-- A section pass under such a map is also the identity. -/
theorem applySectionPairs_id (m : List (Str × Nat))
    (hm : ∀ p ∈ m, p.1 = natDigits p.2) :
    ∀ (pairs : List (Str × Str)) (b : Str), applySectionPairs m pairs b = b := by
  intro pairs
  induction pairs with
  | nil => intro b; rfl
  | cons q rest ih =>
    intro b
    rw [show applySectionPairs m (q :: rest) b =
      applySectionPairs m rest (match lookupRef m q.1 with
        | some v => replaceAll (secPat q.1 q.2) (secPat (natDigits v) q.2) b
        | none => b) from rfl]
    cases hl : lookupRef m q.1 with
    | none => exact ih b
    | some v =>
      have hk := hm (q.1, v) (lookupRef_mem m q.1 v hl)
      rw [show ((q.1, v) : Str × Nat).1 = q.1 from rfl] at hk
      rw [show ((q.1, v) : Str × Nat).2 = v from rfl] at hk
      show applySectionPairs m rest
        (replaceAll (secPat q.1 q.2) (secPat (natDigits v) q.2) b) = b
      rw [← hk, replaceAll_self]
      exact ih b

/-- A body whose reference map sends every key to its own numeral passes
through the whole normalizer unchanged. -/
theorem normBody_id (b : Str)
    (hm : ∀ p ∈ buildRefMap (findRefs b), p.1 = natDigits p.2) :
    normBody b = b := by
  rw [normBody_eq]
  by_cases h : (findRefs b).isEmpty
  · rw [if_pos h]
  · rw [if_neg h, applyInline_id _ _ hm]
    cases hs : searchRefSection b with
    | none => rfl
    | some sec =>
      show (if (findNumLinkPairs sec).isEmpty = true then b
        else applySectionPairs (buildRefMap (findRefs b)) (findNumLinkPairs sec) b) = b
      by_cases hp : (findNumLinkPairs sec).isEmpty
      · rw [if_pos hp]
      · rw [if_neg hp]
        exact applySectionPairs_id _ hm _ b

/-- The scanned numerals of a normalized body: exactly the numerals of the
ranks `1..K`. -/
theorem mem_findRefs_normBody (body : Str)
    (hcanon : ∀ d ∈ findRefs body, CanonPos d) (x : Str) :
    x ∈ findRefs (normBody body) ↔
      ∃ j, 0 < j ∧ j ≤ (List.insertionSort (fun a b => digitsToNat a ≤ digitsToNat b)
        (dedupFirst (findRefs body))).length ∧ x = natDigits j := by
  have hpair := pairwise_lt_sortedDedup (findRefs body) hcanon
  have hnodup : (List.insertionSort (fun a b => digitsToNat a ≤ digitsToNat b)
      (dedupFirst (findRefs body))).Nodup :=
    (List.perm_insertionSort _ _).nodup_iff.mpr (nodup_dedupFirst _)
  have hb0 : ∀ x ∈ List.insertionSort (fun a b => digitsToNat a ≤ digitsToNat b)
      (dedupFirst (findRefs body)), 0 < digitsToNat x :=
    fun x hx => (hcanon x ((mem_sortedDedup _ x).mp hx)).2
  have hgd : ∀ p ∈ buildRefMap (findRefs body), GoodDigits p.1 := by
    intro p hp
    rw [buildRefMap_eq] at hp
    exact canonPos_goodDigits
      (hcanon p.1 ((mem_sortedDedup _ p.1).mp (mem_rankMapFrom _ 0 p hp).1))
  have hkey : findRefs (normBody body) =
      (findRefs body).map (chainRename (buildRefMap (findRefs body))) := by
    rw [findRefs_normBody, findRefs_applyInline _ hgd]
  rw [hkey]
  constructor
  · intro hx
    obtain ⟨d, hd, rfl⟩ := List.mem_map.mp hx
    obtain ⟨v, hv⟩ := lookupRef_rankMapFrom_exists _ 0 d ((mem_sortedDedup _ d).mpr hd)
    obtain ⟨hv1, hv2⟩ := lookupRef_rankMapFrom_bounds _ 0 d v hv
    refine ⟨v, by omega, by omega, ?_⟩
    rw [buildRefMap_eq, chainRename_rankMapFrom _ 0 d v hpair hb0 hv]
  · rintro ⟨j, hj1, hj2, rfl⟩
    obtain ⟨d, hd, hv⟩ := lookupRef_rankMapFrom_surj _ 0 j hnodup (by omega) (by omega)
    refine List.mem_map.mpr ⟨d, (mem_sortedDedup _ d).mp hd, ?_⟩
    rw [buildRefMap_eq, chainRename_rankMapFrom _ 0 d j hpair hb0 hv]

/-- The sorted distinct scanned numerals of a normalized body are the
canonical sequence `1..K`. -/
theorem sortedDedup_normBody (body : Str)
    (hcanon : ∀ d ∈ findRefs body, CanonPos d) :
    List.insertionSort (fun a b => digitsToNat a ≤ digitsToNat b)
      (dedupFirst (findRefs (normBody body))) =
    natDigitsSeq 0 (List.insertionSort (fun a b => digitsToNat a ≤ digitsToNat b)
      (dedupFirst (findRefs body))).length := by
  have hcan2 : ∀ d ∈ findRefs (normBody body), CanonPos d := by
    intro d hd
    obtain ⟨j, hj1, -, rfl⟩ := (mem_findRefs_normBody body hcanon d).mp hd
    exact canonPos_natDigits hj1
  refine pairwise_lt_unique _ _ (pairwise_lt_sortedDedup _ hcan2)
    (pairwise_natDigitsSeq _ 0) ?_
  intro x
  rw [mem_sortedDedup, mem_findRefs_normBody body hcanon x, mem_natDigitsSeq]
  constructor
  · rintro ⟨j, h1, h2, h3⟩
    exact ⟨j, by omega, by omega, h3⟩
  · rintro ⟨j, h1, h2, h3⟩
    exact ⟨j, by omega, by omega, h3⟩

/-- A once-normalized canonical body is a fixed point of the normalizer. -/
theorem normBody_idem (body : Str)
    (hcanon : ∀ d ∈ findRefs body, CanonPos d) :
    normBody (normBody body) = normBody body := by
  apply normBody_id
  intro p hp
  rw [buildRefMap_eq, sortedDedup_normBody body hcanon] at hp
  exact rankMapFrom_natDigitsSeq_key _ 0 p hp

/-- C5 counterexample: the sequential replacement chain collides on the body
`([Reference 0] ([Reference 1]`: one run maps both markers to 2, a second
run maps 2 to 1, so normalizing twice differs from normalizing once. -/
theorem C5_not_idempotent_counterexample :
    normBody "([Reference 0] ([Reference 1]".data =
      "([Reference 2] ([Reference 2]".data ∧
    normBody (normBody "([Reference 0] ([Reference 1]".data) =
      "([Reference 1] ([Reference 1]".data ∧
    normalizeReferenceNumbers (normalizeReferenceNumbers
      ⟨none, some "([Reference 0] ([Reference 1]".data, none, none, none, none, none⟩) ≠
    normalizeReferenceNumbers
      ⟨none, some "([Reference 0] ([Reference 1]".data, none, none, none, none, none⟩ := by
  refine ⟨by decide, by decide, by decide⟩

/-- C5 amended: the normalizer is idempotent on every report whose scanned
inline markers all carry canonical positive numerals (no `0`, no leading
zeros); for such reports the second run's reference map sends each numeral
to itself and both phases reduce to identity replacements.  On other
reports the sequential replacement chain can collide and idempotence fails
(see the counterexample). -/
theorem C5_idempotent_on_canonical (r : ReportDict)
    (hcanon : ∀ body, r.markdown_report = some body →
      ∀ d ∈ findRefs body, CanonPos d) :
    normalizeReferenceNumbers (normalizeReferenceNumbers r) =
      normalizeReferenceNumbers r := by
  cases hmd : r.markdown_report with
  | none =>
    have h1 : normalizeReferenceNumbers r = r := by
      unfold normalizeReferenceNumbers
      rw [hmd]
    rw [h1, h1]
  | some body =>
    have h1 : normalizeReferenceNumbers r =
        { r with markdown_report := some (normBody body) } := by
      unfold normalizeReferenceNumbers
      rw [hmd]
    have h2 : normalizeReferenceNumbers
        { r with markdown_report := some (normBody body) } =
        { r with markdown_report := some (normBody (normBody body)) } := by
      unfold normalizeReferenceNumbers
      rfl
    rw [h1, h2, normBody_idem body (hcanon body hmd)]

/-- C5 witness: a report with markers 7, 3, 7 (canonical) really is a fixed
point of a second normalization. -/
theorem C5_idempotent_on_canonical_witness :
    normalizeReferenceNumbers (normalizeReferenceNumbers
      ⟨none, some "([Reference 7] ([Reference 3] ([Reference 7]".data,
        none, none, none, none, none⟩) =
    normalizeReferenceNumbers
      ⟨none, some "([Reference 7] ([Reference 3] ([Reference 7]".data,
        none, none, none, none, none⟩ :=
  C5_idempotent_on_canonical
    ⟨none, some "([Reference 7] ([Reference 3] ([Reference 7]".data,
      none, none, none, none, none⟩
    (fun body h => by
      have hb : body = "([Reference 7] ([Reference 3] ([Reference 7]".data := by
        injection h with h
        exact h.symm
      subst hb
      decide)
